import Mathlib

/-!
Virtual_memory: a paged array backed by one file.

Shallow embedding of `src/file.cpp`.

Conventions of the embedding
* a byte (`char`) is a `Nat`; a `std::string` / `std::vector<char>` is a `List Nat`;
* `int` is 32 bits wide and `size_t` 64 bits wide: conversions are written out with
  `wrap32` and `toSizeT`; `long` and `time_t` values are plain integers;
* the `std::fstream` is the pair (`file`, `fileGood`): the bytes of the backing file and
  whether the stream is still free of `failbit`; a seek to a negative position or a
  short read sets `failbit`, after which every later stream operation does nothing;
* `std::time(nullptr)` is an argument of the operation that reads the clock;
* a `Page*` is the position of the page inside `buffer`;
* a memory access outside a page's `data` vector (undefined behaviour in C++) makes
  the operation return `none`;
* the message written to `std::cerr` by `writeValue` / `readValue` is kept as a
  `Status`; the C++ return value is `Status.toBool`.
-/

/-- Page size in bytes (`const int PAGE_SIZE = 512`). -/
def PAGE_SIZE : Nat := 512

/-- File signature (`const char SIGNATURE[2] = { 'V', 'M' }`). -/
def SIGNATURE : List Nat := [86, 77]

/-- Conversion of an integer to `int` (32 bits, two's complement). -/
def wrap32 (x : Int) : Int := (x + 2147483648) % 4294967296 - 2147483648

/-- Conversion of an integer to `size_t` (64 bits, unsigned). -/
def toSizeT (x : Int) : Int := x % 18446744073709551616

/-- One resident page (`struct Page`). -/
structure Page where
  absoluteNumber : Int
  modified : Bool
  lastAccess : Int
  bitmap : List Bool
  data : List Nat
deriving DecidableEq, Repr

/-- The constructor `Page(int pageSize)`. -/
def Page.new (pageSize : Nat) : Page :=
  { absoluteNumber := -1, modified := false, lastAccess := 0,
    bitmap := List.replicate pageSize false, data := List.replicate pageSize 0 }

/-- The object state of `class VirtualMemory`; `file` and `fileGood` stand for the
`std::fstream` member (`filename` only selects which file that is). -/
structure VirtualMemory where
  file : List Nat
  fileGood : Bool
  buffer : List Page
  arraySize : Int
  numPages : Int
  arrayType : String
  stringLength : Int
deriving DecidableEq, Repr

/-- The member initialiser `int bufferCapacity = 3`. -/
def bufferCapacity : Nat := 3

/-- What `writeValue` / `readValue` report: `ok` is `return true`; every other value is
`return false` after the corresponding message on `std::cerr`. -/
inductive Status where
  | ok
  | indexOutOfBounds
  | noPage
  | invalidInteger
  | integerOutOfRange
  | stringTooLong
deriving DecidableEq, Repr

/-- The `bool` returned by the C++ function. -/
def Status.toBool : Status → Bool
  | .ok => true
  | _ => false

/-- Effect of `memcpy(&mem[pos], src, src.size())` on a vector that holds the range. -/
def writeBytes (mem : List Nat) (pos : Nat) (src : List Nat) : List Nat :=
  mem.take pos ++ src ++ mem.drop (pos + src.length)

/-- Effect of `seekp(pos); write(src)` on the bytes of a file: a write past the end
extends the file, a gap is filled with zero bytes. -/
def fileWrite (content : List Nat) (pos : Nat) (src : List Nat) : List Nat :=
  (content ++ List.replicate (pos - content.length) 0).take pos ++ src
    ++ content.drop (pos + src.length)

/-- The object representation of an `int` (little endian, 4 bytes). -/
def intBytes (n : Int) : List Nat :=
  let u := (n % 4294967296).toNat
  [u % 256, u / 256 % 256, u / 65536 % 256, u / 16777216 % 256]

/-- The `int` whose object representation starts the given bytes. -/
def bytesInt (bs : List Nat) : Int :=
  wrap32 ((bs.getD 0 0 % 256 + 256 * (bs.getD 1 0 % 256) + 65536 * (bs.getD 2 0 % 256)
    + 16777216 * (bs.getD 3 0 % 256) : Nat) : Int)

/-- The two exceptions `std::stoi` throws. -/
inductive StoiError where
  | invalid_argument
  | out_of_range
deriving DecidableEq, Repr

/-- The C-locale `isspace`. -/
def isspace (c : Nat) : Bool := c == 32 || (9 ≤ c && c ≤ 13)

/-- The C-locale `isdigit`. -/
def isdigit (c : Nat) : Bool := 48 ≤ c && c ≤ 57

/-- Value of a run of decimal digits. -/
def digitsValue (ds : List Nat) : Nat := ds.foldl (fun a d => 10 * a + (d - 48)) 0

/-- Modelled from the C++ standard: `std::stoi(str)` (base 10) skips leading white
space, takes an optional sign and the longest run of digits, throws
`invalid_argument` without a digit and `out_of_range` outside the range of `int`. -/
def stoi (str : List Nat) : Except StoiError Int :=
  let s := str.dropWhile isspace
  let negative := s.head? == some 45
  let s := if s.head? == some 45 || s.head? == some 43 then s.tail else s
  let ds := s.takeWhile isdigit
  if ds.isEmpty then .error .invalid_argument
  else
    let v : Int := if negative then -(digitsValue ds : Int) else (digitsValue ds : Int)
    if v < -2147483648 ∨ 2147483647 < v then .error .out_of_range else .ok v

/-- Modelled from the C++ standard: `std::to_string(int)`, the decimal rendering. -/
def to_string (n : Int) : List Nat :=
  if n < 0 then 45 :: (Nat.toDigits 10 n.natAbs).map Char.toNat
  else (Nat.toDigits 10 n.natAbs).map Char.toNat

/-- Result of `seekg(pos); read(buf, n)`: the bytes read, or `none` when the stream
fails (stream already failed, negative position, or fewer than `n` bytes left). -/
def streamRead (content : List Nat) (good : Bool) (pos : Int) (n : Nat) : Option (List Nat) :=
  if good = true ∧ 0 ≤ pos ∧ pos.toNat + n ≤ content.length then
    some ((content.drop pos.toNat).take n)
  else none

/-- Result of `seekp(pos); write(src)`: new file bytes and new stream state. A failed
stream is left alone; a negative position fails the stream. -/
def streamWrite (content : List Nat) (good : Bool) (pos : Int) (src : List Nat) :
    List Nat × Bool :=
  if good = true then
    if 0 ≤ pos then (fileWrite content pos.toNat src, true) else (content, false)
  else (content, false)

namespace VirtualMemory

/-- The method `int getPageIndex(long index) const`. -/
def getPageIndex (index : Int) : Int := wrap32 (toSizeT index / 512)

/-- The method `int getOffset(long index) const`. -/
def getOffset (index : Int) : Int := wrap32 (toSizeT index % 512)

/-- The method `Page* findPageInBuffer(int pageIndex)` on the buffer: position of the
first page with that number, with its `lastAccess` refreshed. -/
def findPageInBuffer (now : Int) (pageIndex : Int) : List Page → Option (Nat × List Page)
  | [] => none
  | p :: ps =>
    if p.absoluteNumber = pageIndex then some (0, { p with lastAccess := now } :: ps)
    else
      match findPageInBuffer now pageIndex ps with
      | none => none
      | some (i, ps') => some (i + 1, p :: ps')

/-- The loop of `std::min_element` with the comparator `a.lastAccess < b.lastAccess`:
`best` is the position of the smallest element so far, `i` the position of the head. -/
def minElementFrom (best : Nat) (bestAccess : Int) : Nat → List Page → Nat
  | _, [] => best
  | i, p :: ps =>
    if p.lastAccess < bestAccess then minElementFrom i p.lastAccess (i + 1) ps
    else minElementFrom best bestAccess (i + 1) ps

/-- Position returned by `std::min_element(buffer.begin(), buffer.end(), ...)`. -/
def minElement : List Page → Nat
  | [] => 0
  | p :: ps => minElementFrom 0 p.lastAccess 1 ps

/-- The method `void evictPage()`. -/
def evictPage (vm : VirtualMemory) : VirtualMemory :=
  match vm.buffer[minElement vm.buffer]? with
  | none => vm
  | some oldestPage =>
    let w :=
      if oldestPage.modified = true then
        streamWrite vm.file vm.fileGood (2 + oldestPage.absoluteNumber * 512) oldestPage.data
      else (vm.file, vm.fileGood)
    { vm with file := w.1, fileGood := w.2,
              buffer := vm.buffer.eraseIdx (minElement vm.buffer) }

/-- The method `Page* getPage(int pageIndex)`: new state and the position of the page
in the buffer (`none` is `nullptr`). -/
def getPage (vm : VirtualMemory) (pageIndex : Int) (now : Int) : VirtualMemory × Option Nat :=
  match findPageInBuffer now pageIndex vm.buffer with
  | some (i, buf) => ({ vm with buffer := buf }, some i)
  | none =>
    let vm1 := if vm.buffer.length ≥ bufferCapacity then evictPage vm else vm
    match streamRead vm1.file vm1.fileGood (2 + pageIndex * 512) PAGE_SIZE with
    | none => ({ vm1 with fileGood := false }, none)
    | some bytes =>
      let newPage : Page :=
        { Page.new PAGE_SIZE with absoluteNumber := pageIndex, lastAccess := now, data := bytes }
      ({ vm1 with buffer := vm1.buffer ++ [newPage] }, some vm1.buffer.length)

/-- The loop body of `flushBuffer` over the pages still to visit. -/
def flushPages : List Page → List Nat × Bool → List Nat × Bool
  | [], st => st
  | p :: ps, st =>
    flushPages ps
      (if p.modified = true then streamWrite st.1 st.2 (2 + p.absoluteNumber * 512) p.data
       else st)

/-- The method `void flushBuffer()`. -/
def flushBuffer (vm : VirtualMemory) : VirtualMemory :=
  let w := flushPages vm.buffer (vm.file, vm.fileGood)
  { vm with file := w.1, fileGood := w.2 }

/-- Bytes of the file left by `createFile()`: the signature and `numPages` zero pages. -/
def createFile (numPages : Int) : List Nat :=
  SIGNATURE ++ List.replicate (numPages.toNat * PAGE_SIZE) 0

/-- The constructor `VirtualMemory(fname, size, type, strLen)`. `disk` is the content of
the file `fname` (`none` when there is no such file). `file.read(signatureFromFile, 2)`
stores the bytes the file has; the comparison
`signatureFromFile[0] != SIGNATURE[0] || signatureFromFile[1] != SIGNATURE[1]` reads the
second byte only when the first one matches. The result is `none` when the comparison
reads a byte that was not stored (an indeterminate value): the file is empty, or it is
the single byte `'V'`. -/
def ctor (disk : Option (List Nat)) (size : Int) (type : String) (strLen : Int) :
    Option VirtualMemory :=
  let numPages := wrap32 (toSizeT (toSizeT size + 512 - 1) / 512)
  let fresh : VirtualMemory :=
    { file := createFile numPages, fileGood := true, buffer := [], arraySize := size,
      numPages := numPages, arrayType := type, stringLength := strLen }
  match disk with
  | none => some fresh
  | some content =>
    match content[0]? with
    | none => none
    | some b0 =>
      if b0 ≠ SIGNATURE.getD 0 0 then some fresh
      else
        match content[1]? with
        | none => none
        | some b1 =>
          if b1 ≠ SIGNATURE.getD 1 0 then some fresh
          else some { fresh with file := content }

/-- The destructor `~VirtualMemory()`: the bytes left in the file. -/
def dtor (vm : VirtualMemory) : List Nat := (flushBuffer vm).file

/-- The type-dependent part of `writeValue`: the new `data` of the page, a failure
status, or `none` when `memcpy` / `operator[]` leaves the vector. -/
def encode (arrayType : String) (stringLength : Int) (data : List Nat) (offset : Nat)
    (value : List Nat) : Option (Except Status (List Nat)) :=
  if arrayType = "int" then
    match stoi value with
    | .error .invalid_argument => some (.error .invalidInteger)
    | .error .out_of_range => some (.error .integerOutOfRange)
    | .ok intValue =>
      if offset + 4 ≤ data.length then some (.ok (writeBytes data offset (intBytes intValue)))
      else none
  else if arrayType = "char" then
    if offset < data.length then some (.ok (writeBytes data offset [value.headD 0]))
    else none
  else if arrayType = "varchar" then
    if (value.length : Int) > toSizeT stringLength then some (.error .stringTooLong)
    else if offset + (value.length + 1) ≤ data.length then
      some (.ok (writeBytes data offset (value ++ [0])))
    else none
  else some (.ok data)

/-- The method `bool writeValue(long index, const std::string& value)`; `now1` is the
clock read inside `getPage`, `now2` the clock read after the value is stored. -/
def writeValue (vm : VirtualMemory) (index : Int) (value : List Nat) (now1 now2 : Int) :
    Option (Status × VirtualMemory) :=
  if index < 0 ∨ index ≥ vm.arraySize then some (.indexOutOfBounds, vm)
  else
    let pageIndex := getPageIndex index
    let offset := getOffset index
    match getPage vm pageIndex now1 with
    | (vm1, none) => some (.noPage, vm1)
    | (vm1, some k) =>
      match vm1.buffer[k]? with
      | none => none
      | some page =>
        match encode vm1.arrayType vm1.stringLength page.data offset.toNat value with
        | none => none
        | some (.error e) => some (e, vm1)
        | some (.ok data) =>
          if offset.toNat < page.bitmap.length then
            let page1 : Page :=
              { page with data := data, modified := true, lastAccess := now2,
                          bitmap := page.bitmap.set offset.toNat true }
            some (.ok, { vm1 with buffer := vm1.buffer.set k page1 })
          else none

/-- The type-dependent part of `readValue`: the new content of the output string, or
`none` when the read leaves the vector. `value` is the string passed in. -/
def decode (arrayType : String) (data : List Nat) (offset : Nat) (value : List Nat) :
    Option (List Nat) :=
  if arrayType = "int" then
    if offset + 4 ≤ data.length then some (to_string (bytesInt ((data.drop offset).take 4)))
    else none
  else if arrayType = "char" then
    if offset < data.length then some [data.getD offset 0] else none
  else if arrayType = "varchar" then
    if 0 ∈ data.drop offset ∧ offset < data.length then
      some ((data.drop offset).takeWhile (fun b => b != 0))
    else none
  else some value

/-- The method `bool readValue(long index, std::string& value)`; `value` is the string
the caller passes in, the second component of the result its content afterwards. -/
def readValue (vm : VirtualMemory) (index : Int) (value : List Nat) (now : Int) :
    Option (Status × List Nat × VirtualMemory) :=
  if index < 0 ∨ index ≥ vm.arraySize then some (.indexOutOfBounds, value, vm)
  else
    let pageIndex := getPageIndex index
    let offset := getOffset index
    match getPage vm pageIndex now with
    | (vm1, none) => some (.noPage, value, vm1)
    | (vm1, some k) =>
      match vm1.buffer[k]? with
      | none => none
      | some page =>
        match decode vm1.arrayType page.data offset.toNat value with
        | none => none
        | some out => some (.ok, out, vm1)

/-- The method `std::string operator[](long index)`. -/
def operatorIndex (vm : VirtualMemory) (index : Int) (now : Int) :
    Option (List Nat × VirtualMemory) :=
  match readValue vm index [] now with
  | none => none
  | some (st, value, vm1) => if st.toBool = true then some (value, vm1) else some ([], vm1)

end VirtualMemory

/-- Bytes of an ASCII literal. -/
def ascii (s : String) : List Nat := s.toList.map Char.toNat

/-- The 512 bytes of page `p` inside a flat byte image. -/
def pageOf (mem : List Nat) (p : Nat) : List Nat := (mem.drop (p * PAGE_SIZE)).take PAGE_SIZE

/-- The bytes `getPage` reads for page `p`: 512 bytes from position `2 + p * 512`. -/
def fileRegion (content : List Nat) (p : Int) : List Nat :=
  (content.drop (2 + p * 512).toNat).take PAGE_SIZE

/-- Page `p` lies wholly inside the file: `getPage` can load it. -/
def InFile (content : List Nat) (p : Int) : Prop :=
  0 ≤ p ∧ (2 + p * 512).toNat + 512 ≤ content.length

instance (content : List Nat) (p : Int) : Decidable (InFile content p) := by
  unfold InFile; infer_instance

/-- A resident page is well formed with respect to the file: it has `PAGE_SIZE` data
bytes and markers, its region lies inside the file, and when it is not modified its
data are the bytes of that region. -/
def PageOk (content : List Nat) (pg : Page) : Prop :=
  pg.data.length = 512 ∧ pg.bitmap.length = 512 ∧ InFile content pg.absoluteNumber ∧
    (pg.modified = false → pg.data = fileRegion content pg.absoluteNumber)

instance (content : List Nat) (pg : Page) : Decidable (PageOk content pg) := by
  unfold PageOk; infer_instance

/-- The state is coherent: the stream has not failed, every resident page is well
formed, and no two resident pages have the same number. -/
def Coherent (vm : VirtualMemory) : Prop :=
  vm.fileGood = true ∧ (∀ pg ∈ vm.buffer, PageOk vm.file pg) ∧
    (vm.buffer.map (fun pg => pg.absoluteNumber)).Nodup

instance (vm : VirtualMemory) : Decidable (Coherent vm) := by
  unfold Coherent; infer_instance

/-- The logical content `d` of page `q`: the data of the resident page with that
number, or the bytes of the file region when no such page is resident. -/
def Views (vm : VirtualMemory) (q : Int) (d : List Nat) : Prop :=
  (∃ pg ∈ vm.buffer, pg.absoluteNumber = q ∧ pg.data = d) ∨
    ((∀ pg ∈ vm.buffer, pg.absoluteNumber ≠ q) ∧ fileRegion vm.file q = d)

/-- The construction parameters are the same in two states. -/
def SameParams (a b : VirtualMemory) : Prop :=
  a.arraySize = b.arraySize ∧ a.numPages = b.numPages ∧ a.arrayType = b.arrayType ∧
    a.stringLength = b.stringLength

/-- The bytes `writeValue` stores for a value, by element type: a failure status, the
bytes of the field, or `none` when the type has no branch and nothing is stored. -/
def fieldBytes (arrayType : String) (stringLength : Int) (value : List Nat) :
    Except Status (Option (List Nat)) :=
  if arrayType = "int" then
    match stoi value with
    | .error .invalid_argument => .error .invalidInteger
    | .error .out_of_range => .error .integerOutOfRange
    | .ok intValue => .ok (some (intBytes intValue))
  else if arrayType = "char" then .ok (some [value.headD 0])
  else if arrayType = "varchar" then
    if (value.length : Int) > toSizeT stringLength then .error .stringTooLong
    else .ok (some (value ++ [0]))
  else .ok none

/-- The reference array: a plain byte array with the parameters of the virtual array,
without buffer, eviction or file. -/
structure FlatArray where
  mem : List Nat
  arraySize : Int
  arrayType : String
  stringLength : Int
deriving DecidableEq, Repr

/-- The call `writeValue(index, value)` on the plain array. -/
def FlatArray.writeValue (f : FlatArray) (index : Int) (value : List Nat) :
    Status × FlatArray :=
  if index < 0 ∨ index ≥ f.arraySize then (.indexOutOfBounds, f)
  else
    match fieldBytes f.arrayType f.stringLength value with
    | .error e => (e, f)
    | .ok none => (.ok, f)
    | .ok (some bytes) => (.ok, { f with mem := writeBytes f.mem index.toNat bytes })

/-- The call `readValue(index, value)` on the plain array. -/
def FlatArray.readValue (f : FlatArray) (index : Int) (value : List Nat) :
    Status × List Nat :=
  if index < 0 ∨ index ≥ f.arraySize then (.indexOutOfBounds, value)
  else if f.arrayType = "int" then
    (.ok, to_string (bytesInt ((f.mem.drop index.toNat).take 4)))
  else if f.arrayType = "char" then (.ok, [f.mem.getD index.toNat 0])
  else if f.arrayType = "varchar" then
    (.ok, (f.mem.drop index.toNat).takeWhile (fun b => b != 0))
  else (.ok, value)

/-- One call on the array, with the clock values the call reads. -/
inductive Op where
  | write (index : Int) (value : List Nat) (now1 now2 : Int)
  | read (index : Int) (value : List Nat) (now : Int)
deriving DecidableEq, Repr

/-- The index of a call. -/
def Op.index : Op → Int
  | .write index _ _ _ => index
  | .read index _ _ => index

/-- What the caller observes of one call: the returned `bool` (as a status) and, for
`readValue`, the content of the output string. -/
inductive Obs where
  | wrote (status : Status)
  | read (status : Status) (value : List Nat)
deriving DecidableEq, Repr

/-- One call on the virtual array. -/
def VirtualMemory.step (vm : VirtualMemory) : Op → Option (Obs × VirtualMemory)
  | .write index value now1 now2 =>
    match vm.writeValue index value now1 now2 with
    | none => none
    | some (st, vm1) => some (.wrote st, vm1)
  | .read index value now =>
    match vm.readValue index value now with
    | none => none
    | some (st, out, vm1) => some (.read st out, vm1)

/-- A sequence of calls on the virtual array: the observations, in order. -/
def VirtualMemory.run (vm : VirtualMemory) : List Op → Option (List Obs)
  | [] => some []
  | op :: ops =>
    match vm.step op with
    | none => none
    | some (o, vm1) =>
      match vm1.run ops with
      | none => none
      | some os => some (o :: os)

/-- One call on the plain array. -/
def FlatArray.step (f : FlatArray) : Op → Obs × FlatArray
  | .write index value _ _ => (.wrote (f.writeValue index value).1, (f.writeValue index value).2)
  | .read index value _ => (.read (f.readValue index value).1 (f.readValue index value).2, f)

/-- A sequence of calls on the plain array: the observations, in order. -/
def FlatArray.run (f : FlatArray) : List Op → List Obs
  | [] => []
  | op :: ops => (f.step op).1 :: (f.step op).2.run ops

/-- The bytes a write stores at `index`, when it stores any, end inside the page of
`index`. -/
def fieldFits (index : Int) : Except Status (Option (List Nat)) → Prop
  | .ok (some bytes) => index.toNat % 512 + bytes.length ≤ 512
  | .ok none => True
  | .error _ => True

instance (index : Int) : (r : Except Status (Option (List Nat))) → Decidable (fieldFits index r)
  | .ok (some bytes) => inferInstanceAs (Decidable (index.toNat % 512 + bytes.length ≤ 512))
  | .ok none => inferInstanceAs (Decidable True)
  | .error _ => inferInstanceAs (Decidable True)

/-- The field a call encodes or decodes lies inside one page: the bytes stored by a
write, the four bytes of an `int` read, and for a `varchar` read the string with its
terminating zero byte. -/
def FlatArray.fieldInside (f : FlatArray) : Op → Prop
  | .write index value _ _ => fieldFits index (fieldBytes f.arrayType f.stringLength value)
  | .read index _ _ =>
    (f.arrayType = "int" → index.toNat % 512 + 4 ≤ 512) ∧
    (f.arrayType = "varchar" →
      0 ∈ (f.mem.drop index.toNat).take (512 - index.toNat % 512))

/-- Every call of the sequence has its field inside one page. -/
def FlatArray.fieldsInside (f : FlatArray) : List Op → Prop
  | [] => True
  | op :: ops => f.fieldInside op ∧ (f.step op).2.fieldsInside ops

/-- The simulation relation between the virtual array and the plain array: the state is
coherent, the file and the plain array hold `numPages` pages, every valid index lies in
one of them, the parameters agree, and the logical content of every page is the
corresponding slice of the plain array. -/
def Sim (vm : VirtualMemory) (f : FlatArray) : Prop :=
  Coherent vm ∧ vm.file.length = 2 + vm.numPages.toNat * 512 ∧
    f.mem.length = vm.numPages.toNat * 512 ∧ vm.numPages < 2147483648 ∧
    vm.arraySize ≤ vm.numPages * 512 ∧ f.arraySize = vm.arraySize ∧
    f.arrayType = vm.arrayType ∧ f.stringLength = vm.stringLength ∧
    ∀ p : Nat, (p : Int) < vm.numPages → Views vm p (pageOf f.mem p)

instance (f : FlatArray) (op : Op) : Decidable (f.fieldInside op) := by
  cases op with
  | write index value now1 now2 =>
    unfold FlatArray.fieldInside
    infer_instance
  | read index value now =>
    unfold FlatArray.fieldInside
    infer_instance

/-- Decision procedure for `FlatArray.fieldsInside`. -/
def FlatArray.decFieldsInside : (f : FlatArray) → (ops : List Op) → Decidable (f.fieldsInside ops)
  | _, [] => isTrue trivial
  | f, op :: ops =>
    have := FlatArray.decFieldsInside (f.step op).2 ops
    (inferInstance : Decidable (f.fieldInside op ∧ (f.step op).2.fieldsInside ops))

instance (f : FlatArray) (ops : List Op) : Decidable (f.fieldsInside ops) :=
  FlatArray.decFieldsInside f ops

/-- The plain zero-initialised byte array of `numPages * PAGE_SIZE` bytes with the
parameters of the virtual array. -/
def FlatArray.zero (vm : VirtualMemory) : FlatArray :=
  { mem := List.replicate (vm.numPages.toNat * PAGE_SIZE) 0, arraySize := vm.arraySize,
    arrayType := vm.arrayType, stringLength := vm.stringLength }

/-- The final state of a sequence of calls on the virtual array. -/
def VirtualMemory.runState (vm : VirtualMemory) : List Op → Option VirtualMemory
  | [] => some vm
  | op :: ops =>
    match vm.step op with
    | none => none
    | some (_, vm1) => vm1.runState ops

/-- Example: a freshly created `int` array of size 2048 (four pages). -/
def exampleInt : VirtualMemory :=
  { file := VirtualMemory.createFile 4, fileGood := true, buffer := [], arraySize := 2048,
    numPages := 4, arrayType := "int", stringLength := 0 }

/-- Example: writes to four distinct pages, then a read of the first index. -/
def exampleOps : List Op :=
  [.write 0 (ascii "42") 10 10, .write 600 (ascii "7") 11 11, .write 1200 (ascii "8") 12 12,
   .write 1800 (ascii "9") 13 13, .read 0 [] 14]

/-- The states the object can be in: the constructor's result, and what any call of
`writeValue`, `readValue`, `operator[]` or `flushBuffer` leaves, successful or not. -/
inductive Reachable : VirtualMemory → Prop
  | ctor (disk : Option (List Nat)) (size : Int) (type : String) (strLen : Int)
      (vm : VirtualMemory) :
      VirtualMemory.ctor disk size type strLen = some vm → Reachable vm
  | writeValue (vm : VirtualMemory) (index : Int) (value : List Nat) (now1 now2 : Int)
      (st : Status) (vm1 : VirtualMemory) :
      Reachable vm → vm.writeValue index value now1 now2 = some (st, vm1) → Reachable vm1
  | readValue (vm : VirtualMemory) (index : Int) (value : List Nat) (now : Int)
      (st : Status) (out : List Nat) (vm1 : VirtualMemory) :
      Reachable vm → vm.readValue index value now = some (st, out, vm1) → Reachable vm1
  | operatorIndex (vm : VirtualMemory) (index : Int) (now : Int) (out : List Nat)
      (vm1 : VirtualMemory) :
      Reachable vm → vm.operatorIndex index now = some (out, vm1) → Reachable vm1
  | flushBuffer (vm : VirtualMemory) : Reachable vm → Reachable vm.flushBuffer

/-- The buffer holds at most `bufferCapacity` pages and no page number twice. -/
def BufInv (buf : List Page) : Prop :=
  buf.length ≤ bufferCapacity ∧ (buf.map (fun pg => pg.absoluteNumber)).Nodup

instance (buf : List Page) : Decidable (BufInv buf) := by
  unfold BufInv; infer_instance

/-- Example: the state after the four writes of `exampleOps`; the buffer is full. -/
def exampleAfter : VirtualMemory :=
  (exampleInt.runState (exampleOps.take 4)).getD exampleInt

/-- Example: a `char` array of size 4096 (eight pages) opened on an existing, correctly
signed file that holds four pages only. -/
def exampleShort : VirtualMemory :=
  { file := VirtualMemory.createFile 4, fileGood := true, buffer := [], arraySize := 4096,
    numPages := 8, arrayType := "char", stringLength := 0 }

/-- Example: `exampleShort` after reads on pages 0, 1 and 2; the buffer is full. -/
def exampleShortFull : VirtualMemory :=
  (exampleShort.runState [.read 0 [] 10, .read 512 [] 11, .read 1024 [] 12]).getD exampleShort

/-- Example: page 1 as the four writes of `exampleOps` leave it in the buffer. -/
def examplePage1 : Page :=
  { absoluteNumber := 1, modified := true, lastAccess := 11,
    bitmap := (List.replicate 512 false).set 88 true,
    data := writeBytes (List.replicate 512 0) 88 (intBytes 7) }

/-- What a call that does not fail the stream keeps: coherence, the length and the
signature bytes of the file, and the parameters. -/
def Kept (vm vm1 : VirtualMemory) : Prop :=
  Coherent vm1 ∧ vm1.file.length = vm.file.length ∧ vm1.file.take 2 = vm.file.take 2 ∧
    SameParams vm1 vm

/-- Example: a freshly created `int` array of size 100 (one page). -/
def exampleSmall : VirtualMemory :=
  { file := VirtualMemory.createFile 1, fileGood := true, buffer := [], arraySize := 100,
    numPages := 1, arrayType := "int", stringLength := 0 }

/-- Example: a freshly created `varchar(5)` array of size 100 (one page). -/
def exampleVarchar : VirtualMemory :=
  { file := VirtualMemory.createFile 1, fileGood := true, buffer := [], arraySize := 100,
    numPages := 1, arrayType := "varchar", stringLength := 5 }

/-- The two `catch` clauses of `writeValue`: the status reported for each exception of
`std::stoi`. -/
def stoiStatus : StoiError → Status
  | .invalid_argument => .invalidInteger
  | .out_of_range => .integerOutOfRange

/-- The state of an array constructed with the given parameters, as long as no call has
failed the stream: it is coherent, the file starts with the signature, and the
parameters are those of the constructor call. -/
def Opened (size : Int) (type : String) (strLen : Int) (vm : VirtualMemory) : Prop :=
  Coherent vm ∧ vm.file.take 2 = SIGNATURE ∧ vm.arraySize = size ∧ vm.arrayType = type ∧
    vm.stringLength = strLen

/-- Example: `exampleSmall` after `writeValue(0, "42")`. -/
def exampleWritten : VirtualMemory :=
  ((exampleSmall.writeValue 0 (ascii "42") 1 2).map Prod.snd).getD exampleSmall

/-- Example: a freshly created `varchar(3)` array of size 100 (one page). -/
def exampleVarchar3 : VirtualMemory :=
  { file := VirtualMemory.createFile 1, fileGood := true, buffer := [], arraySize := 100,
    numPages := 1, arrayType := "varchar", stringLength := 3 }

/-- Example: `exampleVarchar3` after write index 0 = "abc" and write index 3 = "de". -/
def exampleOverlap : VirtualMemory :=
  (exampleVarchar3.runState
    [.write 0 (ascii "abc") 1 1, .write 3 (ascii "de") 2 2]).getD exampleVarchar3

/-- The states that a state `vm0` can evolve into by calls of `writeValue`, `readValue`,
`operator[]`, `flushBuffer` and by evictions, successful or failing. -/
inductive Steps (vm0 : VirtualMemory) : VirtualMemory → Prop
  | start : Steps vm0 vm0
  | writeValue (vm : VirtualMemory) (index : Int) (value : List Nat) (now1 now2 : Int)
      (st : Status) (vm1 : VirtualMemory) :
      Steps vm0 vm → vm.writeValue index value now1 now2 = some (st, vm1) → Steps vm0 vm1
  | readValue (vm : VirtualMemory) (index : Int) (value : List Nat) (now : Int)
      (st : Status) (out : List Nat) (vm1 : VirtualMemory) :
      Steps vm0 vm → vm.readValue index value now = some (st, out, vm1) → Steps vm0 vm1
  | operatorIndex (vm : VirtualMemory) (index : Int) (now : Int) (out : List Nat)
      (vm1 : VirtualMemory) :
      Steps vm0 vm → vm.operatorIndex index now = some (out, vm1) → Steps vm0 vm1
  | flushBuffer (vm : VirtualMemory) : Steps vm0 vm → Steps vm0 vm.flushBuffer
  | evictPage (vm : VirtualMemory) : Steps vm0 vm → Steps vm0 vm.evictPage

/-- The shape of the file is kept: its length and its two first bytes. -/
def FileKept (vm vm1 : VirtualMemory) : Prop :=
  vm1.file.length = vm.file.length ∧ vm1.file.take 2 = vm.file.take 2

/-- Every resident page has `PAGE_SIZE` data bytes and `PAGE_SIZE` markers. -/
def Sized (buf : List Page) : Prop :=
  ∀ pg ∈ buf, pg.data.length = 512 ∧ pg.bitmap.length = 512

instance (buf : List Page) : Decidable (Sized buf) := by
  unfold Sized; infer_instance

/-- Example: `exampleShort` after a read on page 0 and a read on page 5, which the file
does not hold: the stream has failed and page 0 is resident. -/
def exampleFailed : VirtualMemory :=
  (exampleShort.runState [.read 0 [] 10, .read 2560 [] 11]).getD exampleShort

/-- Example: `exampleFailed` after `writeValue(0, "x")`. -/
def exampleFailedWritten : VirtualMemory :=
  ((exampleFailed.writeValue 0 (ascii "x") 12 13).map Prod.snd).getD exampleFailed

/-- Example: a `varchar(5)` array of size 4096 (eight pages) opened on an existing,
correctly signed file that holds four pages only. -/
def exampleVarcharShort : VirtualMemory :=
  { file := VirtualMemory.createFile 4, fileGood := true, buffer := [], arraySize := 4096,
    numPages := 8, arrayType := "varchar", stringLength := 5 }

/-- Example: `exampleVarcharShort` after a read on page 0 and a read on page 5, which
the file does not hold: the stream has failed and page 0 is resident. -/
def exampleVarcharFailed : VirtualMemory :=
  (exampleVarcharShort.runState [.read 0 [] 10, .read 2560 [] 11]).getD exampleVarcharShort

theorem writeBytes_length (mem : List Nat) (pos : Nat) (src : List Nat)
    (h : pos + src.length ≤ mem.length) : (writeBytes mem pos src).length = mem.length := by
  simp only [writeBytes, List.length_append, List.length_take, List.length_drop]
  omega

theorem getElem?_writeBytes (mem : List Nat) (pos : Nat) (src : List Nat) (j : Nat)
    (h : pos ≤ mem.length) :
    (writeBytes mem pos src)[j]? =
      if j < pos then mem[j]? else if j < pos + src.length then src[j - pos]? else mem[j]? := by
  have hl : (mem.take pos).length = pos := by simp [List.length_take]; omega
  unfold writeBytes
  by_cases h1 : j < pos
  · rw [if_pos h1, List.append_assoc, List.getElem?_append_left (by omega),
      List.getElem?_take_of_lt h1]
  · rw [if_neg h1, List.append_assoc, List.getElem?_append_right (by omega), hl]
    by_cases h2 : j < pos + src.length
    · rw [if_pos h2, List.getElem?_append_left (by omega)]
    · rw [if_neg h2, List.getElem?_append_right (by omega), List.getElem?_drop]
      congr 1
      omega

theorem fileWrite_eq_writeBytes (content : List Nat) (pos : Nat) (src : List Nat)
    (h : pos ≤ content.length) : fileWrite content pos src = writeBytes content pos src := by
  unfold fileWrite writeBytes
  have : pos - content.length = 0 := by omega
  simp [this]

theorem getElem?_pageOf (mem : List Nat) (p j : Nat) :
    (pageOf mem p)[j]? = if j < 512 then mem[p * 512 + j]? else none := by
  simp [pageOf, PAGE_SIZE, List.getElem?_take, List.getElem?_drop]

theorem length_pageOf (mem : List Nat) (p : Nat) (h : (p + 1) * 512 ≤ mem.length) :
    (pageOf mem p).length = 512 := by
  simp only [pageOf, PAGE_SIZE, List.length_take, List.length_drop]
  omega

theorem pageOf_writeBytes_same (mem : List Nat) (p o : Nat) (src : List Nat)
    (ho : o + src.length ≤ 512) (hm : (p + 1) * 512 ≤ mem.length) :
    pageOf (writeBytes mem (p * 512 + o) src) p = writeBytes (pageOf mem p) o src := by
  apply List.ext_getElem?
  intro j
  rw [getElem?_pageOf, getElem?_writeBytes _ _ _ _ (by omega),
    getElem?_writeBytes _ _ _ _ (by rw [length_pageOf _ _ hm]; omega), getElem?_pageOf]
  by_cases h1 : j < 512
  · simp only [h1, if_true]
    by_cases h2 : j < o
    · simp [h2, show p * 512 + j < p * 512 + o by omega]
    · by_cases h3 : j < o + src.length
      · simp only [h2, h3, if_true, if_false, show ¬ (p * 512 + j < p * 512 + o) by omega,
          show p * 512 + j < p * 512 + o + src.length by omega]
        congr 1
        omega
      · simp [h2, h3, show ¬ (p * 512 + j < p * 512 + o) by omega,
          show ¬ (p * 512 + j < p * 512 + o + src.length) by omega]
  · simp only [h1, if_false, show ¬ (j < o) by omega, show ¬ (j < o + src.length) by omega]

theorem pageOf_writeBytes_other (mem : List Nat) (p q o : Nat) (src : List Nat)
    (ho : o + src.length ≤ 512) (hm : (p + 1) * 512 ≤ mem.length) (hq : q ≠ p) :
    pageOf (writeBytes mem (p * 512 + o) src) q = pageOf mem q := by
  apply List.ext_getElem?
  intro j
  rw [getElem?_pageOf, getElem?_writeBytes _ _ _ _ (by omega), getElem?_pageOf]
  by_cases h1 : j < 512
  · simp only [h1, if_true]
    rcases Nat.lt_or_gt_of_ne hq with h | h
    · rw [if_pos (by nlinarith)]
    · rw [if_neg (by nlinarith), if_neg (by nlinarith)]
  · simp [h1]

theorem fileRegion_fileWrite_same (content : List Nat) (p : Int) (src : List Nat)
    (hs : src.length = 512) :
    fileRegion (fileWrite content (2 + p * 512).toNat src) p = src := by
  unfold fileRegion fileWrite PAGE_SIZE
  generalize (2 + p * 512).toNat = pos
  have hl : ((content ++ List.replicate (pos - content.length) 0).take pos).length = pos := by
    simp only [List.length_take, List.length_append, List.length_replicate]
    omega
  rw [List.append_assoc, List.drop_append_of_le_length (by omega),
    List.drop_of_length_le (by omega), List.nil_append,
    List.take_append_of_le_length (by omega), List.take_of_length_le (by omega)]

theorem length_fileWrite (content : List Nat) (pos : Nat) (src : List Nat)
    (h : pos + src.length ≤ content.length) :
    (fileWrite content pos src).length = content.length := by
  rw [fileWrite_eq_writeBytes _ _ _ (by omega), writeBytes_length _ _ _ h]

theorem fileRegion_eq_pageOf (content : List Nat) (p : Int) (hp : 0 ≤ p) :
    fileRegion content p = pageOf (content.drop 2) p.toNat := by
  unfold fileRegion pageOf
  rw [List.drop_drop]
  congr 2
  simp only [PAGE_SIZE]
  omega

theorem fileRegion_fileWrite_other (content : List Nat) (p q : Int) (src : List Nat)
    (hp : 0 ≤ p) (hq : 0 ≤ q) (hne : q ≠ p) (hs : src.length = 512)
    (hin : (2 + p * 512).toNat + 512 ≤ content.length) :
    fileRegion (fileWrite content (2 + p * 512).toNat src) q = fileRegion content q := by
  rw [fileWrite_eq_writeBytes _ _ _ (by omega)]
  apply List.ext_getElem?
  intro j
  simp only [fileRegion, PAGE_SIZE, List.getElem?_take, List.getElem?_drop]
  by_cases h1 : j < 512
  · simp only [h1, if_true]
    rw [getElem?_writeBytes _ _ _ _ (by omega)]
    rcases lt_or_gt_of_ne hne with h | h
    · rw [if_pos (by omega)]
    · rw [if_neg (by omega), if_neg (by omega)]
  · simp [h1]

namespace VirtualMemory

theorem findPageInBuffer_none (now p : Int) (buf : List Page) :
    findPageInBuffer now p buf = none ↔ ∀ pg ∈ buf, pg.absoluteNumber ≠ p := by
  induction buf with
  | nil => simp [findPageInBuffer]
  | cons a as ih =>
    by_cases h : a.absoluteNumber = p
    · simp [findPageInBuffer, h]
    · simp only [findPageInBuffer, h, if_false, List.mem_cons, forall_eq_or_imp, ne_eq,
        not_false_eq_true, true_and]
      rw [← ih]
      cases findPageInBuffer now p as with
      | none => simp
      | some r => simp

theorem findPageInBuffer_some (now p : Int) (buf : List Page) (i : Nat) (buf' : List Page)
    (h : findPageInBuffer now p buf = some (i, buf')) :
    ∃ pg, buf[i]? = some pg ∧ pg.absoluteNumber = p ∧
      buf' = buf.set i { pg with lastAccess := now } ∧
      ∀ j < i, ∀ q, buf[j]? = some q → q.absoluteNumber ≠ p := by
  induction buf generalizing i buf' with
  | nil => simp [findPageInBuffer] at h
  | cons a as ih =>
    by_cases ha : a.absoluteNumber = p
    · simp only [findPageInBuffer, ha, if_true, Option.some.injEq, Prod.mk.injEq] at h
      obtain ⟨rfl, rfl⟩ := h
      exact ⟨a, by simp, ha, by simp [ha], by intro j hj; omega⟩
    · simp only [findPageInBuffer, ha, if_false] at h
      cases hr : findPageInBuffer now p as with
      | none => simp [hr] at h
      | some r =>
        obtain ⟨k, ps'⟩ := r
        simp only [hr, Option.some.injEq, Prod.mk.injEq] at h
        obtain ⟨rfl, rfl⟩ := h
        obtain ⟨pg, h1, h2, h3, h4⟩ := ih k ps' hr
        refine ⟨pg, by simpa using h1, h2, by simp [h3], ?_⟩
        intro j hj q hq
        cases j with
        | zero =>
          simp only [List.getElem?_cons_zero, Option.some.injEq] at hq
          subst hq
          exact ha
        | succ j =>
          simp only [List.getElem?_cons_succ] at hq
          exact h4 j (by omega) q hq

/-- What the loop of `std::min_element` returns: a position `m` that is `best` or lies in
the scanned part, whose element is not larger than any candidate and strictly
smaller than every earlier candidate. -/
theorem minElementFrom_spec (ps : List Page) (best : Nat) (bestAccess : Int) (i : Nat)
    (hb : best < i) :
    let m := minElementFrom best bestAccess i ps
    (m = best ∨ (i ≤ m ∧ m < i + ps.length)) ∧
    (m = best → ∀ q ∈ ps, bestAccess ≤ q.lastAccess) ∧
    (∀ k pg, i ≤ m → ps[m - i]? = some pg →
      pg.lastAccess < bestAccess ∧
      (∀ q, ps[k]? = some q → pg.lastAccess ≤ q.lastAccess) ∧
      (∀ q, k < m - i → ps[k]? = some q → pg.lastAccess < q.lastAccess)) := by
  induction ps generalizing best bestAccess i with
  | nil =>
    simp [minElementFrom]
  | cons a as ih =>
    simp only [minElementFrom]
    by_cases h : a.lastAccess < bestAccess
    · simp only [h, if_true]
      have := ih i a.lastAccess (i + 1) (by omega)
      simp only at this
      obtain ⟨h1, h2, h3⟩ := this
      refine ⟨?_, ?_, ?_⟩
      · right
        rcases h1 with h1 | h1
        · rw [h1]; simp
        · simp only [List.length_cons]; omega
      · intro hm
        rcases h1 with h1 | h1 <;> omega
      · intro k pg hle hpg
        rcases h1 with h1 | h1
        · rw [h1] at hpg ⊢
          simp only [Nat.sub_self, List.getElem?_cons_zero, Option.some.injEq] at hpg
          subst hpg
          refine ⟨h, ?_, ?_⟩
          · intro q hq
            cases k with
            | zero => simp at hq; subst hq; exact le_refl _
            | succ k =>
              simp only [List.getElem?_cons_succ] at hq
              exact h2 h1 q (List.mem_iff_getElem?.2 ⟨k, hq⟩)
          · intro q hk; omega
        · have e : minElementFrom i a.lastAccess (i + 1) as - i
              = (minElementFrom i a.lastAccess (i + 1) as - (i + 1)) + 1 := by omega
          rw [e, List.getElem?_cons_succ] at hpg
          obtain ⟨g1, g2, g3⟩ := h3 (k - 1) pg (by omega) hpg
          refine ⟨by omega, ?_, ?_⟩
          · intro q hq
            cases k with
            | zero => simp at hq; subst hq; omega
            | succ k =>
              simp only [List.getElem?_cons_succ] at hq
              exact (h3 k pg (by omega) hpg).2.1 q hq
          · intro q hk hq
            cases k with
            | zero => simp at hq; subst hq; omega
            | succ k =>
              simp only [List.getElem?_cons_succ] at hq
              exact (h3 k pg (by omega) hpg).2.2 q (by omega) hq
    · simp only [h, if_false]
      have := ih best bestAccess (i + 1) (by omega)
      simp only at this
      obtain ⟨h1, h2, h3⟩ := this
      refine ⟨?_, ?_, ?_⟩
      · rcases h1 with h1 | h1
        · left; exact h1
        · right; simp only [List.length_cons]; omega
      · intro hm q hq
        rcases List.mem_cons.1 hq with rfl | hq
        · omega
        · exact h2 hm q hq
      · intro k pg hle hpg
        rcases h1 with h1 | h1
        · omega
        · have e : minElementFrom best bestAccess (i + 1) as - i
              = (minElementFrom best bestAccess (i + 1) as - (i + 1)) + 1 := by omega
          rw [e, List.getElem?_cons_succ] at hpg
          obtain ⟨g1, g2, g3⟩ := h3 (k - 1) pg (by omega) hpg
          refine ⟨g1, ?_, ?_⟩
          · intro q hq
            cases k with
            | zero => simp at hq; subst hq; omega
            | succ k =>
              simp only [List.getElem?_cons_succ] at hq
              exact (h3 k pg (by omega) hpg).2.1 q hq
          · intro q hk hq
            cases k with
            | zero => simp at hq; subst hq; omega
            | succ k =>
              simp only [List.getElem?_cons_succ] at hq
              exact (h3 k pg (by omega) hpg).2.2 q (by omega) hq

/-- The position returned by `std::min_element` on a non-empty buffer: it is inside the
buffer, its page has the smallest `lastAccess`, and every earlier page has a strictly
larger one. -/
theorem minElement_spec (buf : List Page) (hne : buf ≠ []) :
    ∃ pg, buf[minElement buf]? = some pg ∧
      (∀ q ∈ buf, pg.lastAccess ≤ q.lastAccess) ∧
      (∀ k q, k < minElement buf → buf[k]? = some q → pg.lastAccess < q.lastAccess) := by
  cases buf with
  | nil => exact absurd rfl hne
  | cons a as =>
    simp only [minElement]
    have := minElementFrom_spec as 0 a.lastAccess 1 (by omega)
    simp only at this
    obtain ⟨h1, h2, h3⟩ := this
    rcases h1 with h1 | h1
    · rw [h1]
      refine ⟨a, by simp, ?_, ?_⟩
      · intro q hq
        rcases List.mem_cons.1 hq with rfl | hq
        · exact le_refl _
        · exact h2 h1 q hq
      · intro k q hk; omega
    · generalize minElementFrom 0 a.lastAccess 1 as = m at h1 h2 h3
      obtain ⟨m', rfl⟩ : ∃ m', m = m' + 1 := ⟨m - 1, by omega⟩
      simp only [Nat.add_sub_cancel] at h3
      have hlt : m' < as.length := by omega
      have hpg := List.getElem?_eq_getElem hlt
      refine ⟨as[m'], ?_, ?_, ?_⟩
      · rw [List.getElem?_cons_succ]
        exact hpg
      · intro q hq
        rcases List.mem_cons.1 hq with rfl | hq
        · exact le_of_lt (h3 0 _ (by omega) hpg).1
        · obtain ⟨k, hk⟩ := List.mem_iff_getElem?.1 hq
          exact (h3 k _ (by omega) hpg).2.1 q hk
      · intro k q hk hq
        cases k with
        | zero => simp at hq; subst hq; exact (h3 0 _ (by omega) hpg).1
        | succ k =>
          simp only [List.getElem?_cons_succ] at hq
          exact (h3 k _ (by omega) hpg).2.2 q (by omega) hq

end VirtualMemory

theorem List.split_at_getElem? {α : Type} (l : List α) (i : Nat) (x : α) (h : l[i]? = some x) :
    ∃ A B, l = A ++ x :: B ∧ A.length = i := by
  induction l generalizing i with
  | nil => simp at h
  | cons a as ih =>
    cases i with
    | zero =>
      simp only [List.getElem?_cons_zero, Option.some.injEq] at h
      exact ⟨[], as, by simp [h], rfl⟩
    | succ i =>
      simp only [List.getElem?_cons_succ] at h
      obtain ⟨A, B, h1, h2⟩ := ih i h
      exact ⟨a :: A, B, by simp [h1], by simp [h2]⟩

theorem List.eraseIdx_append_cons {α : Type} (A B : List α) (x : α) :
    (A ++ x :: B).eraseIdx A.length = A ++ B := by
  induction A with
  | nil => simp
  | cons a as ih => simp [ih]

theorem List.set_append_cons {α : Type} (A B : List α) (x y : α) :
    (A ++ x :: B).set A.length y = A ++ y :: B := by
  induction A with
  | nil => simp
  | cons a as ih => simp [ih]

theorem List.getElem?_append_cons {α : Type} (A B : List α) (x : α) :
    (A ++ x :: B)[A.length]? = some x := by
  rw [List.getElem?_append_right (le_refl _)]
  simp

theorem Views_resident (vm : VirtualMemory) (hc : Coherent vm) (pg : Page)
    (hpg : pg ∈ vm.buffer) (d : List Nat) (hv : Views vm pg.absoluteNumber d) : pg.data = d := by
  rcases hv with ⟨pg', h1, h2, h3⟩ | ⟨h1, _⟩
  · have := List.inj_on_of_nodup_map hc.2.2 hpg h1 h2.symm
    rw [this]; exact h3
  · exact absurd rfl (h1 pg hpg)

theorem streamRead_inFile (content : List Nat) (p : Int) (h : InFile content p) :
    streamRead content true (2 + p * 512) PAGE_SIZE = some (fileRegion content p) := by
  unfold streamRead fileRegion
  have h1 : (0 : Int) ≤ 2 + p * 512 := by have := h.1; omega
  have h2 : (2 + p * 512).toNat + PAGE_SIZE ≤ content.length := h.2
  simp [h1, h2]

theorem streamRead_not_inFile (content : List Nat) (good : Bool) (p : Int)
    (h : ¬ InFile content p) :
    streamRead content good (2 + p * 512) PAGE_SIZE = none := by
  unfold streamRead
  rw [if_neg]
  rintro ⟨_, h1, h2⟩
  apply h
  refine ⟨?_, h2⟩
  by_contra hneg
  have : (2 + p * 512).toNat = 0 := by omega
  omega

theorem length_fileRegion (content : List Nat) (p : Int) (h : InFile content p) :
    (fileRegion content p).length = 512 := by
  have := h.2
  simp only [fileRegion, PAGE_SIZE, List.length_take, List.length_drop]
  omega

namespace VirtualMemory

theorem evictPage_eq (vm : VirtualMemory) (A B : List Page) (old : Page)
    (h : vm.buffer = A ++ old :: B) (hm : minElement vm.buffer = A.length) :
    evictPage vm =
      { vm with
        file := (if old.modified = true then
            streamWrite vm.file vm.fileGood (2 + old.absoluteNumber * 512) old.data
          else (vm.file, vm.fileGood)).1
        fileGood := (if old.modified = true then
            streamWrite vm.file vm.fileGood (2 + old.absoluteNumber * 512) old.data
          else (vm.file, vm.fileGood)).2
        buffer := A ++ B } := by
  unfold evictPage
  rw [hm, h, List.getElem?_append_cons, List.eraseIdx_append_cons]

/-- Eviction in a coherent state keeps the state coherent, keeps the length of the
file, and keeps the logical content of every page. -/
theorem evictPage_coherent (vm : VirtualMemory) (hc : Coherent vm) (hne : vm.buffer ≠ []) :
    Coherent (evictPage vm) ∧ (evictPage vm).file.length = vm.file.length ∧
      (evictPage vm).file.take 2 = vm.file.take 2 ∧
      (∀ q d, 0 ≤ q → Views vm q d → Views (evictPage vm) q d) ∧
      (evictPage vm).buffer = vm.buffer.eraseIdx (minElement vm.buffer) ∧
      (evictPage vm).arraySize = vm.arraySize ∧ (evictPage vm).numPages = vm.numPages ∧
      (evictPage vm).arrayType = vm.arrayType ∧
      (evictPage vm).stringLength = vm.stringLength := by
  obtain ⟨old, hold, -, -⟩ := minElement_spec vm.buffer hne
  obtain ⟨A, B, hAB, hlen⟩ := List.split_at_getElem? _ _ _ hold
  have he := evictPage_eq vm A B old hAB hlen.symm
  obtain ⟨hg, hpages, hnd⟩ := hc
  rw [hAB] at hpages hnd
  have hold_ok : PageOk vm.file old := hpages old (by simp)
  have hnum : ∀ pg, pg ∈ A ++ B → pg.absoluteNumber ≠ old.absoluteNumber := by
    intro pg hpg heq
    simp only [List.map_append, List.map_cons] at hnd
    have := List.nodup_middle.1 hnd
    rw [List.nodup_cons] at this
    apply this.1
    rw [← heq, ← List.map_append]
    exact List.mem_map_of_mem _ hpg
  have hnd' : ((A ++ B).map (fun pg => pg.absoluteNumber)).Nodup := by
    simp only [List.map_append, List.map_cons] at hnd ⊢
    exact (List.nodup_cons.1 (List.nodup_middle.1 hnd)).2
  have hpos : (0 : Int) ≤ 2 + old.absoluteNumber * 512 := by have := hold_ok.2.2.1.1; omega
  by_cases hmod : old.modified = true
  · -- the page is written back
    have hfile : (evictPage vm).file
        = fileWrite vm.file (2 + old.absoluteNumber * 512).toNat old.data := by
      rw [he]; simp [hmod, streamWrite, hg, hpos]
    have hgood : (evictPage vm).fileGood = true := by
      rw [he]; simp [hmod, streamWrite, hg, hpos]
    have hbuf : (evictPage vm).buffer = A ++ B := by rw [he]
    have hlen' : (evictPage vm).file.length = vm.file.length := by
      rw [hfile, length_fileWrite]
      have := hold_ok.2.2.1.2
      rw [hold_ok.1]; exact this
    have hreg : ∀ q, 0 ≤ q → q ≠ old.absoluteNumber →
        fileRegion (evictPage vm).file q = fileRegion vm.file q := by
      intro q hq hne
      rw [hfile]
      exact fileRegion_fileWrite_other _ _ _ _ hold_ok.2.2.1.1 hq hne hold_ok.1 hold_ok.2.2.1.2
    refine ⟨⟨hgood, ?_, by rw [hbuf]; exact hnd'⟩, hlen', ?_, ?_, ?_, ?_⟩
    · intro pg hpg
      rw [hbuf] at hpg
      have hok := hpages pg (by
        rcases List.mem_append.1 hpg with h | h
        · exact List.mem_append_left _ h
        · exact List.mem_append_right _ (List.mem_cons_of_mem _ h))
      refine ⟨hok.1, hok.2.1, ⟨hok.2.2.1.1, by rw [hlen']; exact hok.2.2.1.2⟩, ?_⟩
      intro hcl
      rw [hreg _ hok.2.2.1.1 (hnum pg hpg)]
      exact hok.2.2.2 hcl
    · rw [hfile, fileWrite_eq_writeBytes _ _ _ (by have := hold_ok.2.2.1.2; omega)]
      apply List.ext_getElem?
      intro j
      simp only [List.getElem?_take]
      by_cases hj : j < 2
      · rw [if_pos hj, if_pos hj, getElem?_writeBytes _ _ _ _
          (by have := hold_ok.2.2.1.2; omega), if_pos (by have := hold_ok.2.2.1.1; omega)]
      · rw [if_neg hj, if_neg hj]
    · intro q d hq hv
      by_cases hqo : q = old.absoluteNumber
      · right
        refine ⟨by rw [hbuf, hqo]; exact hnum, ?_⟩
        have hd : old.data = d := by
          rcases hv with ⟨pg', h1, h2, h3⟩ | ⟨h1, _⟩
          · have : pg' = old := by
              by_contra hne'
              rw [hAB] at h1
              have : pg' ∈ A ++ B := by
                rcases List.mem_append.1 h1 with h | h
                · exact List.mem_append_left _ h
                · rcases List.mem_cons.1 h with h | h
                  · exact absurd h hne'
                  · exact List.mem_append_right _ h
              exact hnum pg' this (by rw [h2, hqo])
            rw [← this]; exact h3
          · exact absurd hqo.symm (h1 old (by rw [hAB]; simp))
        rw [hqo, hfile, fileRegion_fileWrite_same _ _ _ hold_ok.1, hd]
      · rcases hv with ⟨pg', h1, h2, h3⟩ | ⟨h1, h2⟩
        · left
          refine ⟨pg', ?_, h2, h3⟩
          rw [hbuf]
          rw [hAB] at h1
          rcases List.mem_append.1 h1 with h | h
          · exact List.mem_append_left _ h
          · rcases List.mem_cons.1 h with h | h
            · exact absurd (by rw [← h2, h]) hqo
            · exact List.mem_append_right _ h
        · right
          refine ⟨?_, by rw [hreg q hq hqo]; exact h2⟩
          intro pg hpg
          rw [hbuf] at hpg
          apply h1
          rw [hAB]
          rcases List.mem_append.1 hpg with h | h
          · exact List.mem_append_left _ h
          · exact List.mem_append_right _ (List.mem_cons_of_mem _ h)
    · have hlen2 : minElement (A ++ old :: B) = A.length := by rw [← hAB]; exact hlen.symm
      rw [hbuf, hAB, hlen2, List.eraseIdx_append_cons]
    · rw [he]; simp
  · -- the page is clean and dropped
    have hcl : old.modified = false := by simpa using hmod
    have hfile : (evictPage vm).file = vm.file := by rw [he]; simp [hmod]
    have hgood : (evictPage vm).fileGood = true := by rw [he]; simp [hmod, hg]
    have hbuf : (evictPage vm).buffer = A ++ B := by rw [he]
    refine ⟨⟨hgood, ?_, by rw [hbuf]; exact hnd'⟩, by rw [hfile], by rw [hfile], ?_, ?_, ?_⟩
    · intro pg hpg
      rw [hbuf] at hpg
      rw [hfile]
      exact hpages pg (by
        rcases List.mem_append.1 hpg with h | h
        · exact List.mem_append_left _ h
        · exact List.mem_append_right _ (List.mem_cons_of_mem _ h))
    · intro q d hq hv
      rcases hv with ⟨pg', h1, h2, h3⟩ | ⟨h1, h2⟩
      · rw [hAB] at h1
        by_cases hpo : pg' = old
        · right
          refine ⟨by rw [hbuf, ← h2, hpo]; exact hnum, ?_⟩
          rw [hfile, ← h3, hpo, ← h2, hpo]
          exact (hold_ok.2.2.2 hcl).symm
        · left
          refine ⟨pg', ?_, h2, h3⟩
          rw [hbuf]
          rcases List.mem_append.1 h1 with h | h
          · exact List.mem_append_left _ h
          · rcases List.mem_cons.1 h with h | h
            · exact absurd h hpo
            · exact List.mem_append_right _ h
      · right
        refine ⟨?_, by rw [hfile]; exact h2⟩
        intro pg hpg
        rw [hbuf] at hpg
        apply h1
        rw [hAB]
        rcases List.mem_append.1 hpg with h | h
        · exact List.mem_append_left _ h
        · exact List.mem_append_right _ (List.mem_cons_of_mem _ h)
    · have hlen2 : minElement (A ++ old :: B) = A.length := by rw [← hAB]; exact hlen.symm
      rw [hbuf, hAB, hlen2, List.eraseIdx_append_cons]
    · rw [he]; simp

theorem getPage_hit (vm : VirtualMemory) (p now : Int) (i : Nat) (buf : List Page)
    (h : findPageInBuffer now p vm.buffer = some (i, buf)) :
    getPage vm p now = ({ vm with buffer := buf }, some i) := by
  unfold getPage; rw [h]

theorem getPage_miss (vm : VirtualMemory) (p now : Int)
    (h : findPageInBuffer now p vm.buffer = none) :
    getPage vm p now =
      match streamRead (if vm.buffer.length ≥ bufferCapacity then evictPage vm else vm).file
          (if vm.buffer.length ≥ bufferCapacity then evictPage vm else vm).fileGood
          (2 + p * 512) PAGE_SIZE with
      | none =>
        ({ (if vm.buffer.length ≥ bufferCapacity then evictPage vm else vm) with
            fileGood := false }, none)
      | some bytes =>
        ({ (if vm.buffer.length ≥ bufferCapacity then evictPage vm else vm) with
            buffer := (if vm.buffer.length ≥ bufferCapacity then evictPage vm else vm).buffer ++
              [{ Page.new PAGE_SIZE with absoluteNumber := p, lastAccess := now, data := bytes }] },
          some (if vm.buffer.length ≥ bufferCapacity then evictPage vm else vm).buffer.length) := by
  unfold getPage; rw [h]

/-- In a coherent state, `getPage` for a page that lies inside the file returns a page:
it has the requested number, its data are the logical content of that page, the state
stays coherent and the logical content of every page is kept. -/
theorem getPage_coherent (vm : VirtualMemory) (hc : Coherent vm) (p now : Int)
    (hin : InFile vm.file p) :
    ∃ k pg, (getPage vm p now).2 = some k ∧ (getPage vm p now).1.buffer[k]? = some pg ∧
      pg.absoluteNumber = p ∧ Views vm p pg.data ∧ pg.lastAccess = now ∧
      Coherent (getPage vm p now).1 ∧
      (getPage vm p now).1.file.length = vm.file.length ∧
      (getPage vm p now).1.file.take 2 = vm.file.take 2 ∧
      (∀ q d, 0 ≤ q → Views vm q d → Views (getPage vm p now).1 q d) ∧
      SameParams (getPage vm p now).1 vm := by
  cases hf : findPageInBuffer now p vm.buffer with
  | some r =>
    obtain ⟨i, buf⟩ := r
    rw [getPage_hit vm p now i buf hf]
    obtain ⟨pg, h1, h2, h3, -⟩ := findPageInBuffer_some now p vm.buffer i buf hf
    obtain ⟨A, B, hAB, hlen⟩ := List.split_at_getElem? _ _ _ h1
    have hbuf : buf = A ++ { pg with lastAccess := now } :: B := by
      rw [h3, hAB, ← hlen, List.set_append_cons]
    obtain ⟨hg, hpages, hnd⟩ := hc
    refine ⟨i, { pg with lastAccess := now }, rfl, ?_, h2, ?_, rfl, ?_, rfl, rfl, ?_,
      ⟨rfl, rfl, rfl, rfl⟩⟩
    · simp only [hbuf, ← hlen]; exact List.getElem?_append_cons _ _ _
    · left; exact ⟨pg, by rw [hAB]; simp, h2, rfl⟩
    · refine ⟨hg, ?_, ?_⟩
      · intro q hq
        simp only [hbuf] at hq
        rcases List.mem_append.1 hq with h | h
        · exact hpages q (by rw [hAB]; exact List.mem_append_left _ h)
        · rcases List.mem_cons.1 h with h | h
          · rw [h]; exact hpages pg (by rw [hAB]; simp)
          · exact hpages q (by rw [hAB]; exact List.mem_append_right _ (List.mem_cons_of_mem _ h))
      · simp only [hbuf]
        rw [hAB] at hnd
        simpa using hnd
    · intro q d _ hv
      rcases hv with ⟨pg', g1, g2, g3⟩ | ⟨g1, g2⟩
      · left
        rw [hAB] at g1
        simp only [hbuf]
        rcases List.mem_append.1 g1 with h | h
        · exact ⟨pg', List.mem_append_left _ h, g2, g3⟩
        · rcases List.mem_cons.1 h with h | h
          · exact ⟨{ pg with lastAccess := now }, by simp, by rw [← g2, h], by rw [← g3, h]⟩
          · exact ⟨pg', List.mem_append_right _ (List.mem_cons_of_mem _ h), g2, g3⟩
      · right
        refine ⟨?_, g2⟩
        intro pg' hpg'
        simp only [hbuf] at hpg'
        rcases List.mem_append.1 hpg' with h | h
        · exact g1 pg' (by rw [hAB]; exact List.mem_append_left _ h)
        · rcases List.mem_cons.1 h with h | h
          · rw [h]; exact g1 pg (by rw [hAB]; simp)
          · exact g1 pg' (by rw [hAB]; exact List.mem_append_right _ (List.mem_cons_of_mem _ h))
  | none =>
    rw [getPage_miss vm p now hf]
    have hmiss := (findPageInBuffer_none now p vm.buffer).1 hf
    -- the state after the optional eviction
    have key : ∃ vm1, (if vm.buffer.length ≥ bufferCapacity then evictPage vm else vm) = vm1 ∧
        Coherent vm1 ∧ vm1.file.length = vm.file.length ∧ vm1.file.take 2 = vm.file.take 2 ∧
        (∀ q d, 0 ≤ q → Views vm q d → Views vm1 q d) ∧
        (∀ pg ∈ vm1.buffer, pg ∈ vm.buffer) ∧ SameParams vm1 vm := by
      by_cases hfull : vm.buffer.length ≥ bufferCapacity
      · have hne : vm.buffer ≠ [] := by
          intro h0; rw [h0] at hfull; simp [bufferCapacity] at hfull
        obtain ⟨e1, e2, e3, e4, e5, e6, e7, e8, e9⟩ := evictPage_coherent vm hc hne
        refine ⟨evictPage vm, by rw [if_pos hfull], e1, e2, e3, e4, ?_, ⟨e6, e7, e8, e9⟩⟩
        intro pg hpg
        rw [e5] at hpg
        exact (List.eraseIdx_sublist _ _).subset hpg
      · exact ⟨vm, by rw [if_neg hfull], hc, rfl, rfl, fun _ _ _ h => h, fun _ h => h,
          ⟨rfl, rfl, rfl, rfl⟩⟩
    obtain ⟨vm1, hvm1, hc1, hl1, ht1, hv1, hsub, hsp⟩ := key
    rw [hvm1]
    have hin1 : InFile vm1.file p := ⟨hin.1, by rw [hl1]; exact hin.2⟩
    have hmiss1 : ∀ pg ∈ vm1.buffer, pg.absoluteNumber ≠ p := fun pg h => hmiss pg (hsub pg h)
    rw [hc1.1, streamRead_inFile _ _ hin1]
    have hreg : fileRegion vm1.file p = fileRegion vm.file p := by
      have := hv1 p (fileRegion vm.file p) hin.1 (Or.inr ⟨hmiss, rfl⟩)
      rcases this with ⟨pg', g1, g2, _⟩ | ⟨_, g2⟩
      · exact absurd g2 (hmiss1 pg' g1)
      · exact g2
    refine ⟨vm1.buffer.length,
      { Page.new PAGE_SIZE with absoluteNumber := p, lastAccess := now,
                                data := fileRegion vm1.file p },
      rfl, ?_, rfl, ?_, rfl, ?_, hl1, ht1, ?_, hsp⟩
    · simp
    · right; exact ⟨hmiss, hreg.symm⟩
    · refine ⟨hc1.1, ?_, ?_⟩
      · intro q hq
        simp only at hq
        rcases List.mem_append.1 hq with h | h
        · exact hc1.2.1 q h
        · rw [List.mem_singleton.1 h]
          exact ⟨length_fileRegion _ _ hin1, List.length_replicate _ _, hin1, fun _ => rfl⟩
      · simp only [List.map_append, List.map_cons, List.map_nil]
        rw [List.nodup_append]
        refine ⟨hc1.2.2, List.nodup_singleton _, ?_⟩
        intro a ha hb
        rw [List.mem_singleton] at hb
        obtain ⟨pg', g1, g2⟩ := List.mem_map.1 ha
        exact hmiss1 pg' g1 (by rw [g2, hb])
    · intro q d hq hv
      rcases hv1 q d hq hv with ⟨pg', g1, g2, g3⟩ | ⟨g1, g2⟩
      · left; exact ⟨pg', List.mem_append_left _ g1, g2, g3⟩
      · by_cases hqp : q = p
        · left
          exact ⟨_, List.mem_append_right _ (List.mem_singleton.2 rfl), hqp.symm, by rw [← g2, hqp]⟩
        · right
          refine ⟨?_, g2⟩
          intro pg' hpg'
          rcases List.mem_append.1 hpg' with h | h
          · exact g1 pg' h
          · rw [List.mem_singleton.1 h]; exact fun h => hqp h.symm

end VirtualMemory

theorem length_intBytes (n : Int) : (intBytes n).length = 4 := rfl

namespace VirtualMemory

theorem encode_eq (arrayType : String) (stringLength : Int) (data : List Nat) (offset : Nat)
    (value : List Nat) :
    encode arrayType stringLength data offset value =
      match fieldBytes arrayType stringLength value with
      | .error e => some (.error e)
      | .ok none => some (.ok data)
      | .ok (some bytes) =>
        if offset + bytes.length ≤ data.length then some (.ok (writeBytes data offset bytes))
        else none := by
  unfold encode fieldBytes
  by_cases h1 : arrayType = "int"
  · simp only [if_pos h1]
    cases hs : stoi value with
    | error e => cases e <;> rfl
    | ok n => simp [length_intBytes]
  · by_cases h2 : arrayType = "char"
    · simp only [if_neg h1, if_pos h2, List.length_singleton]
      by_cases h : offset < data.length
      · rw [if_pos h, if_pos (by omega)]
      · rw [if_neg h, if_neg (by omega)]
    · by_cases h3 : arrayType = "varchar"
      · simp only [if_neg h1, if_neg h2, if_pos h3]
        by_cases h : (value.length : Int) > toSizeT stringLength
        · simp only [if_pos h]
        · simp only [if_neg h, List.length_append, List.length_singleton]
      · simp only [if_neg h1, if_neg h2, if_neg h3]

end VirtualMemory

theorem List.takeWhile_append_of_stop {α : Type} (p : α → Bool) (xs ys : List α)
    (h : ∃ x ∈ xs, p x = false) : (xs ++ ys).takeWhile p = xs.takeWhile p := by
  induction xs with
  | nil => simp at h
  | cons a as ih =>
    by_cases ha : p a = true
    · have : ∃ x ∈ as, p x = false := by
        obtain ⟨x, hx, hpx⟩ := h
        rcases List.mem_cons.1 hx with rfl | hx
        · rw [ha] at hpx; cases hpx
        · exact ⟨x, hx, hpx⟩
      simp [List.takeWhile_cons, ha, ih this]
    · simp [List.takeWhile_cons, ha]

theorem drop_pageOf (mem : List Nat) (p o : Nat) :
    (pageOf mem p).drop o = (mem.drop (p * 512 + o)).take (512 - o) := by
  unfold pageOf PAGE_SIZE
  rw [List.drop_take, List.drop_drop]

/-- Decoding at offset `o` of page `p` of a plain array gives what the plain array
gives at index `p * 512 + o`, when the field lies inside the page. -/
theorem decode_pageOf (f : FlatArray) (index : Int) (value : List Nat) (p o : Nat)
    (hidx : index.toNat = p * 512 + o) (ho : o < 512) (hm : (p + 1) * 512 ≤ f.mem.length)
    (hv : 0 ≤ index ∧ index < f.arraySize) (hin : f.fieldInside (.read index value 0)) :
    VirtualMemory.decode f.arrayType (pageOf f.mem p) o value
      = some (f.readValue index value).2 ∧ (f.readValue index value).1 = .ok := by
  have hmod : index.toNat % 512 = o := by rw [hidx]; omega
  have hlen := length_pageOf f.mem p hm
  have hrange : ¬ (index < 0 ∨ index ≥ f.arraySize) := by omega
  unfold VirtualMemory.decode FlatArray.readValue
  simp only [FlatArray.fieldInside, hmod] at hin
  rw [if_neg hrange]
  by_cases h1 : f.arrayType = "int"
  · have h4 := hin.1 h1
    simp only [if_pos h1, hlen, if_pos h4, and_true]
    rw [drop_pageOf, List.take_take, hidx, show min 4 (512 - o) = 4 by omega]
  · by_cases h2 : f.arrayType = "char"
    · simp only [if_neg h1, if_pos h2, hlen, if_pos ho, and_true]
      rw [List.getD_eq_getElem?_getD, List.getD_eq_getElem?_getD, getElem?_pageOf, if_pos ho,
        hidx]
    · by_cases h3 : f.arrayType = "varchar"
      · have hz := hin.2 h3
        rw [hidx] at hz
        simp only [if_neg h1, if_neg h2, if_pos h3, hlen, and_true]
        rw [drop_pageOf, if_pos ⟨hz, ho⟩, hidx]
        congr 1
        conv_rhs => rw [← List.take_append_drop (512 - o) (List.drop (p * 512 + o) f.mem)]
        rw [List.takeWhile_append_of_stop]
        exact ⟨0, hz, by simp⟩
      · simp only [if_neg h1, if_neg h2, if_neg h3, and_true]

namespace VirtualMemory

/-- Replacing the page at position `k` by a modified page with the same number keeps
the state coherent; the logical content of that page becomes the new data and the
logical content of every other page is kept. -/
theorem setPage_coherent (vm : VirtualMemory) (hc : Coherent vm) (k : Nat) (pg pg1 : Page)
    (hk : vm.buffer[k]? = some pg) (hnum : pg1.absoluteNumber = pg.absoluteNumber)
    (hd : pg1.data.length = 512) (hb : pg1.bitmap.length = 512) (hmod : pg1.modified = true) :
    Coherent { vm with buffer := vm.buffer.set k pg1 } ∧
      Views { vm with buffer := vm.buffer.set k pg1 } pg.absoluteNumber pg1.data ∧
      (∀ q d, q ≠ pg.absoluteNumber → Views vm q d →
        Views { vm with buffer := vm.buffer.set k pg1 } q d) := by
  obtain ⟨A, B, hAB, hlen⟩ := List.split_at_getElem? _ _ _ hk
  have hbuf : vm.buffer.set k pg1 = A ++ pg1 :: B := by
    rw [hAB, ← hlen, List.set_append_cons]
  obtain ⟨hg, hpages, hnd⟩ := hc
  rw [hbuf]
  refine ⟨⟨hg, ?_, ?_⟩, ?_, ?_⟩
  · intro q hq
    simp only at hq
    rcases List.mem_append.1 hq with h | h
    · exact hpages q (by rw [hAB]; exact List.mem_append_left _ h)
    · rcases List.mem_cons.1 h with h | h
      · have hok := hpages pg (by rw [hAB]; simp)
        rw [h]
        exact ⟨hd, hb, by rw [hnum]; exact hok.2.2.1, fun hcl => by rw [hmod] at hcl; cases hcl⟩
      · exact hpages q (by rw [hAB]; exact List.mem_append_right _ (List.mem_cons_of_mem _ h))
  · rw [hAB] at hnd
    simpa [hnum] using hnd
  · left; exact ⟨pg1, by simp, hnum, rfl⟩
  · intro q d hq hv
    rcases hv with ⟨pg', g1, g2, g3⟩ | ⟨g1, g2⟩
    · left
      rw [hAB] at g1
      rcases List.mem_append.1 g1 with h | h
      · exact ⟨pg', List.mem_append_left _ h, g2, g3⟩
      · rcases List.mem_cons.1 h with h | h
        · exact absurd (by rw [← g2, h]) hq
        · exact ⟨pg', List.mem_append_right _ (List.mem_cons_of_mem _ h), g2, g3⟩
    · right
      refine ⟨?_, g2⟩
      intro pg' hpg'
      simp only at hpg'
      rcases List.mem_append.1 hpg' with h | h
      · exact g1 pg' (by rw [hAB]; exact List.mem_append_left _ h)
      · rcases List.mem_cons.1 h with h | h
        · rw [h, hnum]; exact g1 pg (by rw [hAB]; simp)
        · exact g1 pg' (by rw [hAB]; exact List.mem_append_right _ (List.mem_cons_of_mem _ h))

end VirtualMemory

theorem Views_unique (vm : VirtualMemory) (hc : Coherent vm) (q : Int) (d d' : List Nat)
    (h : Views vm q d) (h' : Views vm q d') : d = d' := by
  rcases h with ⟨pg, g1, g2, g3⟩ | ⟨g1, g2⟩
  · rw [← g3]
    exact Views_resident vm hc pg g1 d' (by rw [g2]; exact h')
  · rcases h' with ⟨pg, k1, k2, _⟩ | ⟨_, k2⟩
    · exact absurd k2 (g1 pg k1)
    · rw [← g2, ← k2]

namespace VirtualMemory

/-- For a valid index of an array whose page count fits an `int`, the page number and
the offset are the quotient and the remainder of the index by the page size. -/
theorem index_split (index n : Int) (h0 : 0 ≤ index) (h1 : index < n * 512)
    (hn : n < 2147483648) :
    getPageIndex index = index / 512 ∧ getOffset index = index % 512 ∧
      index / 512 < n ∧ 0 ≤ index / 512 ∧
      index.toNat = (index / 512).toNat * 512 + (index % 512).toNat ∧
      (index % 512).toNat < 512 ∧ index.toNat % 512 = (index % 512).toNat := by
  unfold getPageIndex getOffset wrap32 toSizeT
  omega

/-- `getPage` under the simulation relation. -/
theorem getPage_sim (vm : VirtualMemory) (f : FlatArray) (hs : Sim vm f) (p : Nat) (now : Int)
    (hp : (p : Int) < vm.numPages) :
    ∃ vm1 k pg, getPage vm p now = (vm1, some k) ∧ vm1.buffer[k]? = some pg ∧
      pg.absoluteNumber = p ∧ pg.data = pageOf f.mem p ∧ pg.bitmap.length = 512 ∧
      Sim vm1 f ∧ SameParams vm1 vm := by
  obtain ⟨hc, hfl, hml, hn, has, e1, e2, e3, hviews⟩ := hs
  have hin : InFile vm.file p := by
    refine ⟨by omega, ?_⟩
    rw [hfl]
    omega
  obtain ⟨k, pg, g1, g2, g3, g4, -, g6, g7, -, g9, g10⟩ := getPage_coherent vm hc p now hin
  refine ⟨(getPage vm p now).1, k, pg, ?_, g2, g3, ?_, ?_, ?_, g10⟩
  · rw [← g1]
  · exact Views_unique vm hc p _ _ g4 (hviews p hp)
  · exact (g6.2.1 pg (List.mem_iff_getElem?.2 ⟨k, g2⟩)).2.1
  · obtain ⟨s1, s2, s3, s4⟩ := g10
    refine ⟨g6, by rw [g7, s2, hfl], by rw [s2, hml], by rw [s2]; exact hn,
      by rw [s1, s2]; exact has, by rw [s1, e1], by rw [s3, e2], by rw [s4, e3], ?_⟩
    intro q hq
    rw [s2] at hq
    exact g9 q _ (by omega) (hviews q hq)

/-- Storing new data in the page at position `k` re-establishes the simulation relation
with the plain array whose slice for that page is the new data. -/
theorem sim_set (vm : VirtualMemory) (f f' : FlatArray) (hs : Sim vm f) (k : Nat) (p : Nat)
    (pg pg1 : Page) (hk : vm.buffer[k]? = some pg) (hp : pg.absoluteNumber = p)
    (hnum : pg1.absoluteNumber = pg.absoluteNumber)
    (hd : pg1.data.length = 512) (hb : pg1.bitmap.length = 512) (hmod : pg1.modified = true)
    (hl : f'.mem.length = f.mem.length) (ha : f'.arraySize = f.arraySize)
    (ht : f'.arrayType = f.arrayType) (hsl : f'.stringLength = f.stringLength)
    (hsame : pageOf f'.mem p = pg1.data)
    (hother : ∀ q, q ≠ p → pageOf f'.mem q = pageOf f.mem q) :
    Sim { vm with buffer := vm.buffer.set k pg1 } f' := by
  obtain ⟨hc, hfl, hml, hn, has, e1, e2, e3, hviews⟩ := hs
  obtain ⟨c1, c2, c3⟩ := setPage_coherent vm hc k pg pg1 hk hnum hd hb hmod
  refine ⟨c1, hfl, by rw [hl, hml], hn, has, by rw [ha, e1], by rw [ht, e2], by rw [hsl, e3], ?_⟩
  intro q hq
  by_cases hqp : q = p
  · rw [hqp, hsame, ← hp]; exact c2
  · rw [hother q hqp]
    exact c3 q _ (by rw [hp]; exact fun h => hqp (by exact_mod_cast h)) (hviews q hq)

/-- One `writeValue` under the simulation relation: the virtual array returns what the
plain array returns and the relation is kept. -/
theorem writeValue_sim (vm : VirtualMemory) (f : FlatArray) (hs : Sim vm f)
    (index : Int) (value : List Nat) (now1 now2 : Int)
    (hv : 0 ≤ index ∧ index < vm.arraySize)
    (hin : f.fieldInside (.write index value now1 now2)) :
    ∃ vm1, vm.writeValue index value now1 now2 = some ((f.writeValue index value).1, vm1) ∧
      Sim vm1 (f.writeValue index value).2 := by
  have hs0 := hs
  obtain ⟨hc, hfl, hml, hn, has, e1, e2, e3, hviews⟩ := hs
  obtain ⟨i1, i2, i3, i4, i5, i6, i7⟩ :=
    index_split index vm.numPages hv.1 (by omega) hn
  obtain ⟨vm1, k, pg, g1, g2, g3, g4, g5, g6, s1, s2, s3, s4⟩ :=
    getPage_sim vm f hs0 (index / 512).toNat now1 (by omega)
  have hpi : ((index / 512).toNat : Int) = index / 512 := by omega
  rw [hpi] at g1 g3
  have hr : ¬ (index < 0 ∨ index ≥ vm.arraySize) := by omega
  have hrf : ¬ (index < 0 ∨ index ≥ f.arraySize) := by rw [e1]; exact hr
  have hmemlen : ((index / 512).toNat + 1) * 512 ≤ f.mem.length := by rw [hml]; omega
  have hdl : pg.data.length = 512 := by rw [g4]; exact length_pageOf _ _ hmemlen
  have hfb' : fieldBytes vm1.arrayType vm1.stringLength value
      = fieldBytes f.arrayType f.stringLength value := by rw [s3, s4, e2, e3]
  unfold writeValue FlatArray.writeValue
  rw [if_neg hr, if_neg hrf]
  simp only [i1, i2, g1, g2, encode_eq, hfb']
  simp only [FlatArray.fieldInside] at hin
  cases hfb : fieldBytes f.arrayType f.stringLength value with
  | error e => exact ⟨vm1, rfl, g6⟩
  | ok ob =>
    cases ob with
    | none =>
      simp only [g5, i6, if_true]
      refine ⟨_, rfl, ?_⟩
      refine sim_set vm1 f f g6 k (index / 512).toNat pg _ g2 (by rw [g3, hpi]) ?_ ?_ ?_ ?_
        rfl rfl rfl rfl ?_ (fun _ _ => rfl)
      · rfl
      · exact hdl
      · simp [g5]
      · rfl
      · simp only; rw [g4]
    | some bytes =>
      rw [hfb] at hin
      have hfit : (index % 512).toNat + bytes.length ≤ 512 := by rw [← i7]; exact hin
      simp only [hdl, hfit, g5, i6, if_true]
      refine ⟨_, rfl, ?_⟩
      refine sim_set vm1 f _ g6 k (index / 512).toNat pg _ g2 (by rw [g3, hpi]) ?_ ?_
        ?_ ?_ ?_ rfl rfl rfl ?_ ?_
      · rfl
      · simp only; rw [writeBytes_length _ _ _ (by omega)]; exact hdl
      · simp [g5]
      · rfl
      · simp only; rw [writeBytes_length _ _ _ (by omega)]
      · simp only
        rw [i5, pageOf_writeBytes_same _ _ _ _ hfit hmemlen, g4]
      · intro q hq
        simp only
        rw [i5, pageOf_writeBytes_other _ _ _ _ _ hfit hmemlen hq]

/-- One `readValue` under the simulation relation: the virtual array returns what the
plain array returns and the relation is kept. -/
theorem readValue_sim (vm : VirtualMemory) (f : FlatArray) (hs : Sim vm f)
    (index : Int) (value : List Nat) (now : Int)
    (hv : 0 ≤ index ∧ index < vm.arraySize)
    (hin : f.fieldInside (.read index value now)) :
    ∃ vm1, vm.readValue index value now
        = some ((f.readValue index value).1, (f.readValue index value).2, vm1) ∧
      Sim vm1 f := by
  have hs0 := hs
  obtain ⟨hc, hfl, hml, hn, has, e1, e2, e3, hviews⟩ := hs
  obtain ⟨i1, i2, i3, i4, i5, i6, i7⟩ :=
    index_split index vm.numPages hv.1 (by omega) hn
  obtain ⟨vm1, k, pg, g1, g2, g3, g4, g5, g6, s1, s2, s3, s4⟩ :=
    getPage_sim vm f hs0 (index / 512).toNat now (by omega)
  have hpi : ((index / 512).toNat : Int) = index / 512 := by omega
  rw [hpi] at g1 g3
  have hr : ¬ (index < 0 ∨ index ≥ vm.arraySize) := by omega
  have hmemlen : ((index / 512).toNat + 1) * 512 ≤ f.mem.length := by rw [hml]; omega
  obtain ⟨d1, d2⟩ := decode_pageOf f index value (index / 512).toNat (index % 512).toNat i5 i6
    hmemlen (by rw [e1]; exact hv) hin
  unfold readValue
  rw [if_neg hr]
  simp only [i1, i2, g1, g2, s3, ← e2, g4, d1, d2]
  exact ⟨vm1, rfl, g6⟩

end VirtualMemory

namespace VirtualMemory

/-- The constructor on a file whose first byte is not `'V'`: the second byte is not
looked at and the file is recreated. -/
theorem ctor_first (content : List Nat) (b0 : Nat) (size : Int) (type : String)
    (strLen : Int) (h0 : content[0]? = some b0) (hne : b0 ≠ 86) :
    ctor (some content) size type strLen = ctor none size type strLen := by
  have hne' : b0 ≠ SIGNATURE.getD 0 0 := hne
  simp only [ctor, h0, if_pos hne']

/-- The constructor on a file whose first byte is `'V'` and whose second byte is not
`'M'`: the file is recreated. -/
theorem ctor_second (content : List Nat) (b1 : Nat) (size : Int) (type : String)
    (strLen : Int) (h0 : content[0]? = some 86) (h1 : content[1]? = some b1) (hne : b1 ≠ 77) :
    ctor (some content) size type strLen = ctor none size type strLen := by
  have hne' : b1 ≠ SIGNATURE.getD 1 0 := hne
  have he : ¬ ((86 : Nat) ≠ SIGNATURE.getD 0 0) := by decide
  simp only [ctor, h0, h1, if_neg he, if_pos hne']

/-- The constructor on a file that starts with the signature: the file is kept. -/
theorem ctor_signed (c : List Nat) (size : Int) (type : String) (strLen : Int)
    (h : c.take 2 = SIGNATURE) :
    ctor (some c) size type strLen = some
      { file := c, fileGood := true, buffer := [], arraySize := size,
        numPages := wrap32 (toSizeT (toSizeT size + 512 - 1) / 512), arrayType := type,
        stringLength := strLen } := by
  match c, h with
  | a :: b :: rest, h =>
    simp only [List.take_succ_cons, List.take_zero, SIGNATURE, List.cons.injEq, and_true] at h
    obtain ⟨ha, hb⟩ := h
    subst ha hb
    have he0 : ¬ ((86 : Nat) ≠ SIGNATURE.getD 0 0) := by decide
    have he1 : ¬ ((77 : Nat) ≠ SIGNATURE.getD 1 0) := by decide
    simp only [ctor, List.getElem?_cons_zero, List.getElem?_cons_succ, if_neg he0, if_neg he1]

/-- What the constructor leaves: a good stream, an empty buffer, the given parameters
and a page count that is an `int`. -/
theorem ctor_fields (disk : Option (List Nat)) (size : Int) (type : String) (strLen : Int)
    (vm : VirtualMemory) (h : ctor disk size type strLen = some vm) :
    vm.fileGood = true ∧ vm.buffer = [] ∧ vm.arraySize = size ∧ vm.arrayType = type ∧
      vm.stringLength = strLen ∧
      vm.numPages = wrap32 (toSizeT (toSizeT size + 512 - 1) / 512) ∧
      vm.numPages < 2147483648 ∧
      (vm.file = createFile vm.numPages ∨ disk = some vm.file) ∧
      vm.file.take 2 = SIGNATURE := by
  have hw : wrap32 (toSizeT (toSizeT size + 512 - 1) / 512) < 2147483648 := by
    unfold wrap32; omega
  have hsig : ∀ n : Int, (createFile n).take 2 = SIGNATURE := by
    intro n; simp [createFile, SIGNATURE]
  have hfresh : ∀ vm : VirtualMemory, ctor none size type strLen = some vm →
      vm.fileGood = true ∧ vm.buffer = [] ∧ vm.arraySize = size ∧ vm.arrayType = type ∧
      vm.stringLength = strLen ∧
      vm.numPages = wrap32 (toSizeT (toSizeT size + 512 - 1) / 512) ∧
      vm.numPages < 2147483648 ∧
      vm.file = createFile vm.numPages ∧ vm.file.take 2 = SIGNATURE := by
    intro vm h
    unfold ctor at h
    simp only [Option.some.injEq] at h
    subst h
    exact ⟨rfl, rfl, rfl, rfl, rfl, rfl, hw, rfl, hsig _⟩
  cases disk with
  | none =>
    obtain ⟨a1, a2, a3, a4, a5, a6, a7, a8, a9⟩ := hfresh vm h
    exact ⟨a1, a2, a3, a4, a5, a6, a7, Or.inl a8, a9⟩
  | some content =>
    cases h0 : content[0]? with
    | none =>
      simp only [ctor, h0] at h
      cases h
    | some b0 =>
      by_cases hb0 : b0 = 86
      · subst hb0
        cases h1 : content[1]? with
        | none =>
          have he : ¬ ((86 : Nat) ≠ SIGNATURE.getD 0 0) := by decide
          simp only [ctor, h0, h1, if_neg he] at h
          cases h
        | some b1 =>
          by_cases hb1 : b1 = 77
          · subst hb1
            have hs : content.take 2 = SIGNATURE := by
              match content, h0, h1 with
              | a :: b :: rest, h0, h1 =>
                simp only [List.getElem?_cons_zero, List.getElem?_cons_succ,
                  Option.some.injEq] at h0 h1
                subst h0 h1
                rfl
            rw [ctor_signed content size type strLen hs] at h
            simp only [Option.some.injEq] at h
            subst h
            exact ⟨rfl, rfl, rfl, rfl, rfl, rfl, hw, Or.inr rfl, hs⟩
          · rw [ctor_second content b1 size type strLen h0 h1 hb1] at h
            obtain ⟨a1, a2, a3, a4, a5, a6, a7, a8, a9⟩ := hfresh vm h
            exact ⟨a1, a2, a3, a4, a5, a6, a7, Or.inl a8, a9⟩
      · rw [ctor_first content b0 size type strLen h0 hb0] at h
        obtain ⟨a1, a2, a3, a4, a5, a6, a7, a8, a9⟩ := hfresh vm h
        exact ⟨a1, a2, a3, a4, a5, a6, a7, Or.inl a8, a9⟩

/-- A freshly created array is related to the zero-initialised plain array. -/
theorem sim_fresh (disk : Option (List Nat)) (size : Int) (type : String) (strLen : Int)
    (vm : VirtualMemory) (h : ctor disk size type strLen = some vm)
    (hfresh : vm.file = createFile vm.numPages) (hcover : vm.arraySize ≤ vm.numPages * 512) :
    Sim vm (FlatArray.zero vm) := by
  obtain ⟨c1, c2, -, -, -, -, c7, -, -⟩ := ctor_fields disk size type strLen vm h
  refine ⟨⟨c1, by rw [c2]; simp, by rw [c2]; simp⟩, ?_, ?_, c7, hcover, rfl, rfl, rfl, ?_⟩
  · rw [hfresh]; simp [createFile, SIGNATURE, PAGE_SIZE]; omega
  · simp [FlatArray.zero, PAGE_SIZE]
  · intro p _
    right
    refine ⟨by rw [c2]; simp, ?_⟩
    rw [fileRegion_eq_pageOf _ _ (by omega), hfresh]
    simp [createFile, SIGNATURE, FlatArray.zero]

/-- A sequence of calls under the simulation relation: the virtual array makes the
observations of the plain array. -/
theorem run_sim (ops : List Op) (vm : VirtualMemory) (f : FlatArray) (hs : Sim vm f)
    (hvalid : ∀ op ∈ ops, 0 ≤ op.index ∧ op.index < vm.arraySize)
    (hinside : f.fieldsInside ops) : vm.run ops = some (f.run ops) := by
  induction ops generalizing vm f with
  | nil => rfl
  | cons op ops ih =>
    obtain ⟨hin, hrest⟩ := hinside
    have hv := hvalid op (by simp)
    cases op with
    | write index value now1 now2 =>
      obtain ⟨vm1, h1, h2⟩ := writeValue_sim vm f hs index value now1 now2 hv hin
      have hsize : vm1.arraySize = vm.arraySize := by
        rw [← h2.2.2.2.2.2.1, ← hs.2.2.2.2.2.1]
        simp only [FlatArray.writeValue]
        split
        · rfl
        · split <;> rfl
      have := ih vm1 _ h2 (fun o ho => by rw [hsize]; exact hvalid o (by simp [ho])) hrest
      simp only [run, step, h1, this, FlatArray.run, FlatArray.step]
    | read index value now =>
      obtain ⟨vm1, h1, h2⟩ := readValue_sim vm f hs index value now hv hin
      have hsize : vm1.arraySize = vm.arraySize := by
        rw [← h2.2.2.2.2.2.1, ← hs.2.2.2.2.2.1]
      have := ih vm1 _ h2 (fun o ho => by rw [hsize]; exact hvalid o (by simp [ho])) hrest
      simp only [run, step, h1, this, FlatArray.run, FlatArray.step]

end VirtualMemory

/-- C1 (cache transparency): on a freshly created array whose pages cover every valid
index, any sequence of `writeValue` / `readValue` calls with valid indices, every
encoded field inside its page and any clock values returns exactly what the same
sequence returns on the plain zero-initialised array of `numPages * PAGE_SIZE` bytes. -/
theorem cache_transparency (disk : Option (List Nat)) (size : Int) (type : String)
    (strLen : Int) (vm : VirtualMemory) (ops : List Op)
    (hctor : VirtualMemory.ctor disk size type strLen = some vm)
    (hfresh : vm.file = VirtualMemory.createFile vm.numPages)
    (hcover : vm.arraySize ≤ vm.numPages * 512)
    (hvalid : ∀ op ∈ ops, 0 ≤ op.index ∧ op.index < vm.arraySize)
    (hinside : (FlatArray.zero vm).fieldsInside ops) :
    vm.run ops = some ((FlatArray.zero vm).run ops) :=
  VirtualMemory.run_sim ops vm (FlatArray.zero vm)
    (VirtualMemory.sim_fresh disk size type strLen vm hctor hfresh hcover) hvalid hinside

/-- Witness of C1: four writes to four distinct pages of a fresh four-page `int` array
evict page 0 (buffer capacity 3); the later read of index 0 still returns "42". -/
theorem cache_transparency_witness :
    exampleInt.run exampleOps = some ((FlatArray.zero exampleInt).run exampleOps) ∧
    (FlatArray.zero exampleInt).run exampleOps
      = [.wrote .ok, .wrote .ok, .wrote .ok, .wrote .ok, .read .ok (ascii "42")] ∧
    (exampleInt.runState (exampleOps.take 4)).map
      (fun vm => vm.buffer.map (fun pg => pg.absoluteNumber)) = some [1, 2, 3] :=
  ⟨cache_transparency none 2048 "int" 0 exampleInt exampleOps rfl rfl
    (by decide) (by decide) (by decide), by decide, by decide!⟩

namespace VirtualMemory

theorem evictPage_buffer (vm : VirtualMemory) :
    (evictPage vm).buffer = vm.buffer.eraseIdx (minElement vm.buffer) := by
  unfold evictPage
  cases h : vm.buffer[minElement vm.buffer]? with
  | none =>
    simp only
    rw [List.eraseIdx_of_length_le]
    exact List.getElem?_eq_none_iff.1 h
  | some old => rfl

theorem minElement_lt (buf : List Page) (hne : buf ≠ []) : minElement buf < buf.length := by
  obtain ⟨pg, h, -, -⟩ := minElement_spec buf hne
  by_contra hge
  rw [List.getElem?_eq_none (by omega)] at h
  cases h

/-- The buffer after `getPage`, in every state and whether or not the load succeeds. -/
theorem getPage_bufInv (vm : VirtualMemory) (p now : Int) (h : BufInv vm.buffer) :
    BufInv (getPage vm p now).1.buffer := by
  obtain ⟨hlen, hnd⟩ := h
  cases hf : findPageInBuffer now p vm.buffer with
  | some r =>
    obtain ⟨i, buf⟩ := r
    rw [getPage_hit vm p now i buf hf]
    obtain ⟨pg, h1, h2, h3, -⟩ := findPageInBuffer_some now p vm.buffer i buf hf
    obtain ⟨A, B, hAB, hl⟩ := List.split_at_getElem? _ _ _ h1
    have hbuf : buf = A ++ { pg with lastAccess := now } :: B := by
      rw [h3, hAB, ← hl, List.set_append_cons]
    simp only [hbuf]
    rw [hAB] at hlen hnd
    exact ⟨by simpa using hlen, by simpa using hnd⟩
  | none =>
    rw [getPage_miss vm p now hf]
    have hmiss := (findPageInBuffer_none now p vm.buffer).1 hf
    have key : BufInv (if vm.buffer.length ≥ bufferCapacity then evictPage vm else vm).buffer ∧
        (if vm.buffer.length ≥ bufferCapacity then evictPage vm else vm).buffer.length
          < bufferCapacity ∧
        ∀ pg ∈ (if vm.buffer.length ≥ bufferCapacity then evictPage vm else vm).buffer,
          pg.absoluteNumber ≠ p := by
      by_cases hfull : vm.buffer.length ≥ bufferCapacity
      · have hne : vm.buffer ≠ [] := by
          intro h0; rw [h0] at hfull; simp [bufferCapacity] at hfull
        have hm := minElement_lt vm.buffer hne
        rw [if_pos hfull, evictPage_buffer]
        have hl : (vm.buffer.eraseIdx (minElement vm.buffer)).length < bufferCapacity := by
          rw [List.length_eraseIdx, if_pos hm]; omega
        refine ⟨⟨le_of_lt hl, ?_⟩, hl, ?_⟩
        · exact ((List.eraseIdx_sublist _ _).map _).nodup hnd
        · intro pg hpg
          exact hmiss pg ((List.eraseIdx_sublist _ _).subset hpg)
      · rw [if_neg hfull]
        exact ⟨⟨hlen, hnd⟩, by omega, hmiss⟩
    generalize (if vm.buffer.length ≥ bufferCapacity then evictPage vm else vm) = vm1 at key
    obtain ⟨⟨k1, k2⟩, k3, k4⟩ := key
    cases streamRead vm1.file vm1.fileGood (2 + p * 512) PAGE_SIZE with
    | none => exact ⟨k1, k2⟩
    | some bytes =>
      refine ⟨by simp only [List.length_append, List.length_singleton]; omega, ?_⟩
      simp only [List.map_append, List.map_cons, List.map_nil]
      rw [List.nodup_append]
      refine ⟨k2, List.nodup_singleton _, ?_⟩
      intro a ha hb
      rw [List.mem_singleton] at hb
      obtain ⟨pg', g1, g2⟩ := List.mem_map.1 ha
      exact k4 pg' g1 (by rw [g2, hb])

/-- The page `getPage` returns is in the buffer and has the requested number. -/
theorem getPage_result (vm : VirtualMemory) (p now : Int) (k : Nat)
    (h : (getPage vm p now).2 = some k) :
    ∃ pg, (getPage vm p now).1.buffer[k]? = some pg ∧ pg.absoluteNumber = p := by
  cases hf : findPageInBuffer now p vm.buffer with
  | some r =>
    obtain ⟨i, buf⟩ := r
    rw [getPage_hit vm p now i buf hf] at h ⊢
    obtain ⟨pg, h1, h2, h3, -⟩ := findPageInBuffer_some now p vm.buffer i buf hf
    obtain ⟨A, B, hAB, hl⟩ := List.split_at_getElem? _ _ _ h1
    have hbuf : buf = A ++ { pg with lastAccess := now } :: B := by
      rw [h3, hAB, ← hl, List.set_append_cons]
    simp only [Option.some.injEq] at h
    subst h
    exact ⟨{ pg with lastAccess := now }, by
      simp only [hbuf, ← hl]; exact List.getElem?_append_cons _ _ _, h2⟩
  | none =>
    rw [getPage_miss vm p now hf] at h ⊢
    generalize (if vm.buffer.length ≥ bufferCapacity then evictPage vm else vm) = vm1 at h ⊢
    cases hr : streamRead vm1.file vm1.fileGood (2 + p * 512) PAGE_SIZE with
    | none => rw [hr] at h; cases h
    | some bytes =>
      rw [hr] at h
      simp only [Option.some.injEq] at h
      subst h
      exact ⟨{ Page.new PAGE_SIZE with absoluteNumber := p, lastAccess := now, data := bytes },
        by simp, rfl⟩

theorem bufInv_set (buf : List Page) (k : Nat) (pg pg1 : Page) (h : BufInv buf)
    (hk : buf[k]? = some pg) (hnum : pg1.absoluteNumber = pg.absoluteNumber) :
    BufInv (buf.set k pg1) := by
  obtain ⟨A, B, hAB, hl⟩ := List.split_at_getElem? _ _ _ hk
  rw [hAB, ← hl, List.set_append_cons]
  rw [hAB] at h
  obtain ⟨h1, h2⟩ := h
  exact ⟨by simpa using h1, by simpa [hnum] using h2⟩

theorem writeValue_bufInv (vm : VirtualMemory) (index : Int) (value : List Nat)
    (now1 now2 : Int) (st : Status) (vm1 : VirtualMemory) (h : BufInv vm.buffer)
    (hw : vm.writeValue index value now1 now2 = some (st, vm1)) : BufInv vm1.buffer := by
  unfold writeValue at hw
  by_cases hr : index < 0 ∨ index ≥ vm.arraySize
  · rw [if_pos hr] at hw
    simp only [Option.some.injEq, Prod.mk.injEq] at hw
    rw [← hw.2]; exact h
  · rw [if_neg hr] at hw
    have hg := getPage_bufInv vm (getPageIndex index) now1 h
    dsimp only at hw
    cases hgp : getPage vm (getPageIndex index) now1 with
    | mk vm2 r =>
      rw [hgp] at hw hg
      cases r with
      | none =>
        simp only [Option.some.injEq, Prod.mk.injEq] at hw
        rw [← hw.2]; exact hg
      | some k =>
        simp only at hw
        cases hpage : vm2.buffer[k]? with
        | none => rw [hpage] at hw; cases hw
        | some page =>
          rw [hpage] at hw
          simp only at hw
          cases he : encode vm2.arrayType vm2.stringLength page.data (getOffset index).toNat
              value with
          | none => rw [he] at hw; cases hw
          | some r =>
            rw [he] at hw
            cases r with
            | error e =>
              simp only [Option.some.injEq, Prod.mk.injEq] at hw
              rw [← hw.2]; exact hg
            | ok data =>
              simp only at hw
              split at hw
              · simp only [Option.some.injEq, Prod.mk.injEq] at hw
                rw [← hw.2]
                exact bufInv_set _ _ page _ hg hpage rfl
              · cases hw

theorem readValue_bufInv (vm : VirtualMemory) (index : Int) (value : List Nat)
    (now : Int) (st : Status) (out : List Nat) (vm1 : VirtualMemory) (h : BufInv vm.buffer)
    (hr : vm.readValue index value now = some (st, out, vm1)) : BufInv vm1.buffer := by
  unfold readValue at hr
  by_cases hrg : index < 0 ∨ index ≥ vm.arraySize
  · rw [if_pos hrg] at hr
    simp only [Option.some.injEq, Prod.mk.injEq] at hr
    rw [← hr.2.2]; exact h
  · rw [if_neg hrg] at hr
    have hg := getPage_bufInv vm (getPageIndex index) now h
    dsimp only at hr
    cases hgp : getPage vm (getPageIndex index) now with
    | mk vm2 r =>
      rw [hgp] at hr hg
      cases r with
      | none =>
        simp only [Option.some.injEq, Prod.mk.injEq] at hr
        rw [← hr.2.2]; exact hg
      | some k =>
        simp only at hr
        cases hpage : vm2.buffer[k]? with
        | none => rw [hpage] at hr; cases hr
        | some page =>
          rw [hpage] at hr
          simp only at hr
          cases hd : decode vm2.arrayType page.data (getOffset index).toNat value with
          | none => rw [hd] at hr; cases hr
          | some r =>
            rw [hd] at hr
            simp only [Option.some.injEq, Prod.mk.injEq] at hr
            rw [← hr.2.2]; exact hg

end VirtualMemory

/-- C5 (resident-buffer invariant): in every state reachable from construction by
`writeValue`, `readValue`, `operator[]` and `flushBuffer` calls, successful or failing,
the buffer holds at most `bufferCapacity` = 3 pages and no two resident pages have the
same page number. -/
theorem resident_buffer_invariant (vm : VirtualMemory) (h : Reachable vm) :
    vm.buffer.length ≤ 3 ∧ (vm.buffer.map (fun pg => pg.absoluteNumber)).Nodup := by
  have key : BufInv vm.buffer := by
    induction h with
    | ctor disk size type strLen vm hc =>
      obtain ⟨-, c2, -⟩ := VirtualMemory.ctor_fields disk size type strLen vm hc
      rw [c2]; exact ⟨by simp, by simp⟩
    | writeValue vm index value now1 now2 st vm1 _ hw ih =>
      exact VirtualMemory.writeValue_bufInv vm index value now1 now2 st vm1 ih hw
    | readValue vm index value now st out vm1 _ hr ih =>
      exact VirtualMemory.readValue_bufInv vm index value now st out vm1 ih hr
    | operatorIndex vm index now out vm1 _ ho ih =>
      unfold VirtualMemory.operatorIndex at ho
      split at ho
      · cases ho
      · rename_i st value vm2 heq
        have := VirtualMemory.readValue_bufInv vm index [] now st value vm2 ih heq
        split at ho <;>
        · simp only [Option.some.injEq, Prod.mk.injEq] at ho
          rw [← ho.2]; exact this
    | flushBuffer vm _ ih => exact ih
  exact key

theorem Option.eq_some_getD_of_isSome {α : Type} (o : Option α) (d : α)
    (h : o.isSome = true) : o = some (o.getD d) := by
  cases o with
  | none => cases h
  | some a => rfl

theorem runState_reachable (ops : List Op) (vm vm1 : VirtualMemory) (h : Reachable vm)
    (hr : vm.runState ops = some vm1) : Reachable vm1 := by
  induction ops generalizing vm with
  | nil =>
    simp only [VirtualMemory.runState, Option.some.injEq] at hr
    rw [← hr]; exact h
  | cons op ops ih =>
    simp only [VirtualMemory.runState] at hr
    cases hs : vm.step op with
    | none => rw [hs] at hr; cases hr
    | some r =>
      obtain ⟨o, vm2⟩ := r
      rw [hs] at hr
      refine ih vm2 ?_ hr
      cases op with
      | write index value now1 now2 =>
        simp only [VirtualMemory.step] at hs
        cases hw : vm.writeValue index value now1 now2 with
        | none => rw [hw] at hs; cases hs
        | some r =>
          obtain ⟨st, vm3⟩ := r
          rw [hw] at hs
          simp only [Option.some.injEq, Prod.mk.injEq] at hs
          rw [← hs.2]
          exact Reachable.writeValue vm index value now1 now2 st vm3 h hw
      | read index value now =>
        simp only [VirtualMemory.step] at hs
        cases hw : vm.readValue index value now with
        | none => rw [hw] at hs; cases hs
        | some r =>
          obtain ⟨st, out, vm3⟩ := r
          rw [hw] at hs
          simp only [Option.some.injEq, Prod.mk.injEq] at hs
          rw [← hs.2]
          exact Reachable.readValue vm index value now st out vm3 h hw

/-- Witness of C5: the state after four writes to four distinct pages is reachable; its
buffer holds exactly three pages with distinct numbers. -/
theorem resident_buffer_invariant_witness :
    Reachable exampleAfter ∧ exampleAfter.buffer.length = 3 ∧
      (exampleAfter.buffer.length ≤ 3 ∧
        (exampleAfter.buffer.map (fun pg => pg.absoluteNumber)).Nodup) :=
  have h : Reachable exampleAfter :=
    runState_reachable (exampleOps.take 4) exampleInt exampleAfter
      (Reachable.ctor none 2048 "int" 0 exampleInt rfl)
      (Option.eq_some_getD_of_isSome _ _ (by decide!))
  ⟨h, by decide!, resident_buffer_invariant exampleAfter h⟩

/-- C6 (eviction choice, amended): when the buffer holds `bufferCapacity` pages and
`getPage` is called for a page number that is not resident, exactly one resident page
is removed: the first page in buffer order with the smallest `lastAccess`; the other
residents stay in the same order, unchanged. When the load of the requested page
succeeds, that page is appended and the size is again `bufferCapacity`; when the load
fails, nothing is appended. -/
theorem eviction_choice (vm : VirtualMemory) (p now : Int)
    (hfull : vm.buffer.length = bufferCapacity)
    (hmiss : ∀ pg ∈ vm.buffer, pg.absoluteNumber ≠ p) :
    ∃ m victim, vm.buffer[m]? = some victim ∧
      (∀ q ∈ vm.buffer, victim.lastAccess ≤ q.lastAccess) ∧
      (∀ k q, k < m → vm.buffer[k]? = some q → victim.lastAccess < q.lastAccess) ∧
      match streamRead (VirtualMemory.evictPage vm).file (VirtualMemory.evictPage vm).fileGood
          (2 + p * 512) PAGE_SIZE with
      | some bytes =>
        (VirtualMemory.getPage vm p now).2 = some (bufferCapacity - 1) ∧
        (VirtualMemory.getPage vm p now).1.buffer = vm.buffer.eraseIdx m ++
          [{ absoluteNumber := p, modified := false, lastAccess := now,
             bitmap := List.replicate PAGE_SIZE false, data := bytes }] ∧
        (VirtualMemory.getPage vm p now).1.buffer.length = bufferCapacity
      | none =>
        (VirtualMemory.getPage vm p now).2 = none ∧
        (VirtualMemory.getPage vm p now).1.buffer = vm.buffer.eraseIdx m ∧
        (VirtualMemory.getPage vm p now).1.buffer.length = bufferCapacity - 1 := by
  have hne : vm.buffer ≠ [] := by
    intro h0; rw [h0] at hfull; simp [bufferCapacity] at hfull
  obtain ⟨victim, h1, h2, h3⟩ := VirtualMemory.minElement_spec vm.buffer hne
  have hm := VirtualMemory.minElement_lt vm.buffer hne
  have hf := (VirtualMemory.findPageInBuffer_none now p vm.buffer).2 hmiss
  have hlen : (vm.buffer.eraseIdx (VirtualMemory.minElement vm.buffer)).length
      = bufferCapacity - 1 := by
    rw [List.length_eraseIdx, if_pos hm, hfull]
  refine ⟨VirtualMemory.minElement vm.buffer, victim, h1, h2, h3, ?_⟩
  rw [VirtualMemory.getPage_miss vm p now hf, if_pos (by omega)]
  cases streamRead (VirtualMemory.evictPage vm).file (VirtualMemory.evictPage vm).fileGood
      (2 + p * 512) PAGE_SIZE with
  | none =>
    simp only
    rw [VirtualMemory.evictPage_buffer]
    exact ⟨trivial, rfl, hlen⟩
  | some bytes =>
    simp only
    rw [VirtualMemory.evictPage_buffer]
    refine ⟨by rw [hlen], rfl, ?_⟩
    simp only [List.length_append, List.length_singleton, hlen, bufferCapacity]

/-- Witness of C6: in the full buffer left by four writes (pages 1, 2, 3), a request
for page 0 removes page 1, the least recently used, and appends page 0. -/
theorem eviction_choice_witness :
    exampleAfter.buffer.length = bufferCapacity ∧
    (∀ pg ∈ exampleAfter.buffer, pg.absoluteNumber ≠ 0) ∧
    ((VirtualMemory.getPage exampleAfter 0 20).1.buffer.map (fun pg => pg.absoluteNumber)
      = [2, 3, 0]) ∧
    ∃ m victim, exampleAfter.buffer[m]? = some victim ∧
      (∀ q ∈ exampleAfter.buffer, victim.lastAccess ≤ q.lastAccess) ∧
      (∀ k q, k < m → exampleAfter.buffer[k]? = some q → victim.lastAccess < q.lastAccess) ∧
      match streamRead (VirtualMemory.evictPage exampleAfter).file
          (VirtualMemory.evictPage exampleAfter).fileGood (2 + 0 * 512) PAGE_SIZE with
      | some bytes =>
        (VirtualMemory.getPage exampleAfter 0 20).2 = some (bufferCapacity - 1) ∧
        (VirtualMemory.getPage exampleAfter 0 20).1.buffer = exampleAfter.buffer.eraseIdx m ++
          [{ absoluteNumber := 0, modified := false, lastAccess := 20,
             bitmap := List.replicate PAGE_SIZE false, data := bytes }] ∧
        (VirtualMemory.getPage exampleAfter 0 20).1.buffer.length = bufferCapacity
      | none =>
        (VirtualMemory.getPage exampleAfter 0 20).2 = none ∧
        (VirtualMemory.getPage exampleAfter 0 20).1.buffer = exampleAfter.buffer.eraseIdx m ∧
        (VirtualMemory.getPage exampleAfter 0 20).1.buffer.length = bufferCapacity - 1 :=
  ⟨by decide!, by decide!, by decide!,
    eviction_choice exampleAfter 0 20 (by decide!) (by decide!)⟩

/-- Counterexample to C6 as stated: the array is opened on a correctly signed file that
holds four pages; the buffer is full (pages 0, 1, 2) and page 5 is not resident, yet
after `getPage` for page 5 the buffer holds two pages and page 5 is not among them. -/
theorem eviction_choice_counterexample :
    VirtualMemory.ctor (some (VirtualMemory.createFile 4)) 4096 "char" 0 = some exampleShort ∧
    exampleShort.runState [.read 0 [] 10, .read 512 [] 11, .read 1024 [] 12]
      = some exampleShortFull ∧
    exampleShortFull.buffer.length = bufferCapacity ∧
    (∀ pg ∈ exampleShortFull.buffer, pg.absoluteNumber ≠ 5) ∧
    (VirtualMemory.getPage exampleShortFull 5 20).2 = none ∧
    (VirtualMemory.getPage exampleShortFull 5 20).1.buffer.map (fun pg => pg.absoluteNumber)
      = [1, 2] :=
  ⟨by decide!, Option.eq_some_getD_of_isSome _ _ (by decide!), by decide!, by decide!,
    by decide!, by decide!⟩

theorem take_two_fileWrite (content : List Nat) (p : Int) (src : List Nat)
    (hin : InFile content p) :
    (fileWrite content (2 + p * 512).toNat src).take 2 = content.take 2 := by
  have h1 := hin.1
  have h2 := hin.2
  rw [fileWrite_eq_writeBytes _ _ _ (by omega)]
  apply List.ext_getElem?
  intro j
  simp only [List.getElem?_take]
  by_cases hj : j < 2
  · rw [if_pos hj, if_pos hj, getElem?_writeBytes _ _ _ _ (by omega), if_pos (by omega)]
  · rw [if_neg hj, if_neg hj]

namespace VirtualMemory

/-- The loop of `flushBuffer` on a good stream, over well-formed pages with distinct
numbers: the stream stays good, the file keeps its length and signature, the region of
every modified page holds the page's data and every other region is unchanged. -/
theorem flushPages_spec (ps : List Page) (c : List Nat)
    (hok : ∀ pg ∈ ps, pg.data.length = 512 ∧ InFile c pg.absoluteNumber)
    (hnd : (ps.map (fun pg => pg.absoluteNumber)).Nodup) :
    (flushPages ps (c, true)).2 = true ∧ (flushPages ps (c, true)).1.length = c.length ∧
      (flushPages ps (c, true)).1.take 2 = c.take 2 ∧
      (∀ pg ∈ ps, pg.modified = true →
        fileRegion (flushPages ps (c, true)).1 pg.absoluteNumber = pg.data) ∧
      (∀ q, 0 ≤ q → (∀ pg ∈ ps, pg.modified = true → pg.absoluteNumber ≠ q) →
        fileRegion (flushPages ps (c, true)).1 q = fileRegion c q) := by
  induction ps generalizing c with
  | nil => simp [flushPages]
  | cons a as ih =>
    have ha := hok a (by simp)
    have hpos : (0 : Int) ≤ 2 + a.absoluteNumber * 512 := by have := ha.2.1; omega
    simp only [List.map_cons, List.nodup_cons] at hnd
    have hfresh : ∀ pg ∈ as, pg.absoluteNumber ≠ a.absoluteNumber := by
      intro pg hpg heq
      exact hnd.1 (by rw [← heq]; exact List.mem_map_of_mem _ hpg)
    -- the file after the head page
    have key : ∃ c1, (if a.modified = true then
          streamWrite c true (2 + a.absoluteNumber * 512) a.data else (c, true)) = (c1, true) ∧
        c1.length = c.length ∧ c1.take 2 = c.take 2 ∧
        (a.modified = true → fileRegion c1 a.absoluteNumber = a.data) ∧
        (∀ q, 0 ≤ q → (a.modified = true → a.absoluteNumber ≠ q) →
          fileRegion c1 q = fileRegion c q) := by
      by_cases hm : a.modified = true
      · refine ⟨fileWrite c (2 + a.absoluteNumber * 512).toNat a.data, ?_, ?_, ?_, ?_, ?_⟩
        · simp [hm, streamWrite, hpos]
        · rw [length_fileWrite]; rw [ha.1]; exact ha.2.2
        · exact take_two_fileWrite _ _ _ ha.2
        · intro _; exact fileRegion_fileWrite_same _ _ _ ha.1
        · intro q hq hne
          exact fileRegion_fileWrite_other _ _ _ _ ha.2.1 hq (fun h => hne hm h.symm) ha.1 ha.2.2
      · exact ⟨c, by simp [hm], rfl, rfl, fun h => absurd h hm, fun _ _ _ => rfl⟩
    obtain ⟨c1, k1, k2, k3, k4, k5⟩ := key
    have hok1 : ∀ pg ∈ as, pg.data.length = 512 ∧ InFile c1 pg.absoluteNumber := by
      intro pg hpg
      have := hok pg (List.mem_cons_of_mem _ hpg)
      exact ⟨this.1, this.2.1, by rw [k2]; exact this.2.2⟩
    obtain ⟨i1, i2, i3, i4, i5⟩ := ih c1 hok1 hnd.2
    simp only [flushPages, k1]
    refine ⟨i1, by rw [i2, k2], by rw [i3, k3], ?_, ?_⟩
    · intro pg hpg hmod
      rcases List.mem_cons.1 hpg with rfl | hpg
      · rw [i5 _ ha.2.1 (fun q hq _ => hfresh q hq)]
        exact k4 hmod
      · exact i4 pg hpg hmod
    · intro q hq hne
      rw [i5 q hq (fun pg hpg hmod => hne pg (List.mem_cons_of_mem _ hpg) hmod)]
      exact k5 q hq (fun hmod => hne a (by simp) hmod)

/-- `flushBuffer` in a coherent state: the state stays coherent, the buffer and the
parameters are untouched, the file keeps its length and signature, and every page
region of the file holds the logical content of its page. -/
theorem flushBuffer_coherent (vm : VirtualMemory) (hc : Coherent vm) :
    Coherent (flushBuffer vm) ∧ (flushBuffer vm).buffer = vm.buffer ∧
      (flushBuffer vm).file.length = vm.file.length ∧
      (flushBuffer vm).file.take 2 = vm.file.take 2 ∧
      (∀ q d, 0 ≤ q → Views vm q d → fileRegion (flushBuffer vm).file q = d) ∧
      SameParams (flushBuffer vm) vm := by
  obtain ⟨hg, hpages, hnd⟩ := hc
  obtain ⟨f1, f2, f3, f4, f5⟩ := flushPages_spec vm.buffer vm.file
    (fun pg hpg => ⟨(hpages pg hpg).1, (hpages pg hpg).2.2.1⟩) hnd
  have hfile : (flushBuffer vm).file = (flushPages vm.buffer (vm.file, true)).1 := by
    simp [flushBuffer, hg]
  have hgood : (flushBuffer vm).fileGood = true := by
    simp only [flushBuffer, hg]; exact f1
  have hviews : ∀ q d, 0 ≤ q → Views vm q d → fileRegion (flushBuffer vm).file q = d := by
    intro q d hq hv
    rw [hfile]
    rcases hv with ⟨pg, g1, g2, g3⟩ | ⟨g1, g2⟩
    · by_cases hm : pg.modified = true
      · rw [← g2, f4 pg g1 hm, g3]
      · rw [f5 q hq (fun pg' hpg' hm' heq => by
          have := List.inj_on_of_nodup_map hnd hpg' g1 (by rw [heq, g2])
          rw [this] at hm'; exact hm hm')]
        rw [← g3, ← g2]
        exact ((hpages pg g1).2.2.2 (by simpa using hm)).symm
    · rw [f5 q hq (fun pg' hpg' _ => g1 pg' hpg')]
      exact g2
  refine ⟨⟨hgood, ?_, hnd⟩, rfl, by rw [hfile, f2], by rw [hfile, f3], hviews,
    ⟨rfl, rfl, rfl, rfl⟩⟩
  intro pg hpg
  have hok := hpages pg hpg
  refine ⟨hok.1, hok.2.1, ⟨hok.2.2.1.1, by rw [hfile, f2]; exact hok.2.2.1.2⟩, ?_⟩
  intro _
  exact (hviews pg.absoluteNumber pg.data hok.2.2.1.1 (Or.inl ⟨pg, hpg, rfl, rfl⟩)).symm

/-- Loading a page that is not resident, in a coherent state whose file holds it:
`getPage` returns a page whose data are the bytes of the file region. -/
theorem getPage_load (vm : VirtualMemory) (hc : Coherent vm) (p now : Int)
    (hin : InFile vm.file p) (hmiss : ∀ pg ∈ vm.buffer, pg.absoluteNumber ≠ p) :
    ∃ k pg, (getPage vm p now).2 = some k ∧ (getPage vm p now).1.buffer[k]? = some pg ∧
      pg.absoluteNumber = p ∧ pg.data = fileRegion vm.file p := by
  obtain ⟨k, pg, g1, g2, g3, g4, -⟩ := getPage_coherent vm hc p now hin
  refine ⟨k, pg, g1, g2, g3, ?_⟩
  exact Views_unique vm hc p _ _ g4 (Or.inr ⟨hmiss, rfl⟩)

end VirtualMemory

/-- C7 (write-back fidelity): in a coherent state (good stream, so no write fails)
(1) when `evictPage` evicts a modified page, the file region of that page afterwards
holds the page's data, and a subsequent `getPage` for that page loads exactly these
data; (2) after `flushBuffer`, the file region of every modified resident page holds the
page's data, and `getPage` for that page, in any coherent state on this file where the
page is not resident, loads exactly these data. -/
theorem write_back_fidelity (vm : VirtualMemory) (hc : Coherent vm) :
    (∀ victim, vm.buffer[VirtualMemory.minElement vm.buffer]? = some victim →
      victim.modified = true →
      (VirtualMemory.evictPage vm).fileGood = true ∧
      fileRegion (VirtualMemory.evictPage vm).file victim.absoluteNumber = victim.data ∧
      ∀ now, ∃ k pg,
        (VirtualMemory.getPage (VirtualMemory.evictPage vm) victim.absoluteNumber now).2
          = some k ∧
        (VirtualMemory.getPage (VirtualMemory.evictPage vm) victim.absoluteNumber now).1.buffer[k]?
          = some pg ∧
        pg.absoluteNumber = victim.absoluteNumber ∧ pg.data = victim.data) ∧
    (∀ page ∈ vm.buffer, page.modified = true →
      (VirtualMemory.flushBuffer vm).fileGood = true ∧
      fileRegion (VirtualMemory.flushBuffer vm).file page.absoluteNumber = page.data ∧
      ∀ vm2 now, Coherent vm2 → vm2.file = (VirtualMemory.flushBuffer vm).file →
        (∀ pg ∈ vm2.buffer, pg.absoluteNumber ≠ page.absoluteNumber) →
        ∃ k pg, (VirtualMemory.getPage vm2 page.absoluteNumber now).2 = some k ∧
          (VirtualMemory.getPage vm2 page.absoluteNumber now).1.buffer[k]? = some pg ∧
          pg.absoluteNumber = page.absoluteNumber ∧ pg.data = page.data) := by
  constructor
  · intro victim hv _
    have hne : vm.buffer ≠ [] := by
      intro h0; rw [h0] at hv; simp at hv
    have hmem : victim ∈ vm.buffer := List.mem_iff_getElem?.2 ⟨_, hv⟩
    have hok := hc.2.1 victim hmem
    obtain ⟨e1, e2, -, e4, e5, -⟩ := VirtualMemory.evictPage_coherent vm hc hne
    have hin : InFile (VirtualMemory.evictPage vm).file victim.absoluteNumber :=
      ⟨hok.2.2.1.1, by rw [e2]; exact hok.2.2.1.2⟩
    -- the victim is no longer resident
    have hgone : ∀ pg ∈ (VirtualMemory.evictPage vm).buffer,
        pg.absoluteNumber ≠ victim.absoluteNumber := by
      obtain ⟨A, B, hAB, hl⟩ := List.split_at_getElem? _ _ _ hv
      rw [e5, ← hl, hAB, List.eraseIdx_append_cons]
      have hnd := hc.2.2
      rw [hAB] at hnd
      simp only [List.map_append, List.map_cons] at hnd
      have h2 := (List.nodup_cons.1 (List.nodup_middle.1 hnd)).1
      intro pg hpg heq
      apply h2
      rw [← heq, ← List.map_append]
      exact List.mem_map_of_mem _ hpg
    have hreg : fileRegion (VirtualMemory.evictPage vm).file victim.absoluteNumber
        = victim.data := by
      have := e4 victim.absoluteNumber victim.data hok.2.2.1.1 (Or.inl ⟨victim, hmem, rfl, rfl⟩)
      rcases this with ⟨pg, g1, g2, _⟩ | ⟨_, g2⟩
      · exact absurd g2 (hgone pg g1)
      · exact g2
    refine ⟨e1.1, hreg, ?_⟩
    intro now
    obtain ⟨k, pg, g1, g2, g3, g4⟩ :=
      VirtualMemory.getPage_load _ e1 victim.absoluteNumber now hin hgone
    exact ⟨k, pg, g1, g2, g3, by rw [g4, hreg]⟩
  · intro page hpage _
    have hok := hc.2.1 page hpage
    obtain ⟨f1, -, f3, -, f5, -⟩ := VirtualMemory.flushBuffer_coherent vm hc
    have hreg := f5 page.absoluteNumber page.data hok.2.2.1.1 (Or.inl ⟨page, hpage, rfl, rfl⟩)
    refine ⟨f1.1, hreg, ?_⟩
    intro vm2 now hc2 hfile hmiss
    have hin : InFile vm2.file page.absoluteNumber :=
      ⟨hok.2.2.1.1, by rw [hfile, f3]; exact hok.2.2.1.2⟩
    obtain ⟨k, pg, g1, g2, g3, g4⟩ :=
      VirtualMemory.getPage_load vm2 hc2 page.absoluteNumber now hin hmiss
    exact ⟨k, pg, g1, g2, g3, by rw [g4, hfile, hreg]⟩

/-- Witness of C7: in the coherent state left by four writes, `evictPage` evicts the
modified page 1; afterwards the file region of page 1 holds the page's data. -/
theorem write_back_fidelity_witness :
    Coherent exampleAfter ∧
    exampleAfter.buffer[VirtualMemory.minElement exampleAfter.buffer]? = some examplePage1 ∧
    examplePage1.modified = true ∧
    fileRegion (VirtualMemory.evictPage exampleAfter).file 1 = examplePage1.data ∧
    fileRegion (VirtualMemory.flushBuffer exampleAfter).file 1 = examplePage1.data :=
  ⟨by decide!, by decide!, by decide!,
    ((write_back_fidelity exampleAfter (by decide!)).1 examplePage1 (by decide!)
      (by decide!)).2.1,
    ((write_back_fidelity exampleAfter (by decide!)).2 examplePage1 (by decide!)
      (by decide!)).2.1⟩

namespace VirtualMemory

/-- `getPage` in a coherent state for a page that does not lie inside the file: the
load fails, no page is returned and the stream is failed. -/
theorem getPage_not_inFile (vm : VirtualMemory) (hc : Coherent vm) (p now : Int)
    (hin : ¬ InFile vm.file p) :
    (getPage vm p now).2 = none ∧ (getPage vm p now).1.fileGood = false ∧
      SameParams (getPage vm p now).1 vm := by
  have hmiss : ∀ pg ∈ vm.buffer, pg.absoluteNumber ≠ p := by
    intro pg hpg heq
    apply hin
    rw [← heq]
    exact (hc.2.1 pg hpg).2.2.1
  have hf := (findPageInBuffer_none now p vm.buffer).2 hmiss
  rw [getPage_miss vm p now hf]
  have key : ∃ vm1, (if vm.buffer.length ≥ bufferCapacity then evictPage vm else vm) = vm1 ∧
      vm1.file.length = vm.file.length ∧ SameParams vm1 vm := by
    by_cases hfull : vm.buffer.length ≥ bufferCapacity
    · have hne : vm.buffer ≠ [] := by
        intro h0; rw [h0] at hfull; simp [bufferCapacity] at hfull
      obtain ⟨-, e2, -, -, -, e6, e7, e8, e9⟩ := evictPage_coherent vm hc hne
      exact ⟨evictPage vm, by rw [if_pos hfull], e2, ⟨e6, e7, e8, e9⟩⟩
    · exact ⟨vm, by rw [if_neg hfull], rfl, ⟨rfl, rfl, rfl, rfl⟩⟩
  obtain ⟨vm1, hvm1, hl, hsp⟩ := key
  rw [hvm1]
  have hin1 : ¬ InFile vm1.file p := by
    intro h; exact hin ⟨h.1, by rw [← hl]; exact h.2⟩
  rw [streamRead_not_inFile _ _ _ hin1]
  exact ⟨rfl, rfl, hsp⟩

end VirtualMemory

theorem Views_length (vm : VirtualMemory) (hc : Coherent vm) (q : Int) (d : List Nat)
    (hin : InFile vm.file q) (hv : Views vm q d) : d.length = 512 := by
  rcases hv with ⟨pg, g1, _, g3⟩ | ⟨_, g2⟩
  · rw [← g3]; exact (hc.2.1 pg g1).1
  · rw [← g2]; exact length_fileRegion _ _ hin

namespace VirtualMemory

theorem getOffset_range (index : Int) :
    0 ≤ getOffset index ∧ getOffset index < 512 ∧ (getOffset index).toNat < 512 := by
  unfold getOffset wrap32 toSizeT
  omega

/-- `writeValue` at a valid index in a coherent state whose file holds the page: the
outcome is that of the codec on the logical content `d` of the page; a stored value
becomes the logical content of the page and no other page changes. -/
theorem writeValue_coherent (vm : VirtualMemory) (hc : Coherent vm) (index : Int)
    (value : List Nat) (now1 now2 : Int) (hv : 0 ≤ index ∧ index < vm.arraySize)
    (hin : InFile vm.file (getPageIndex index)) (d : List Nat)
    (hd : Views vm (getPageIndex index) d) :
    match encode vm.arrayType vm.stringLength d (getOffset index).toNat value with
    | none => vm.writeValue index value now1 now2 = none
    | some (.error e) =>
      vm.writeValue index value now1 now2 = some (e, (getPage vm (getPageIndex index) now1).1) ∧
        Kept vm (getPage vm (getPageIndex index) now1).1 ∧
        (∀ q c, 0 ≤ q → Views vm q c → Views (getPage vm (getPageIndex index) now1).1 q c)
    | some (.ok data) =>
      ∃ vm1, vm.writeValue index value now1 now2 = some (.ok, vm1) ∧ Kept vm vm1 ∧
        Views vm1 (getPageIndex index) data ∧
        (∀ q c, 0 ≤ q → q ≠ getPageIndex index → Views vm q c → Views vm1 q c) := by
  obtain ⟨k, pg, g1, g2, g3, g4, -, g6, g7, g8, g9, g10⟩ :=
    getPage_coherent vm hc (getPageIndex index) now1 hin
  have hdata : pg.data = d := Views_unique vm hc _ _ _ g4 hd
  have hpg : PageOk (getPage vm (getPageIndex index) now1).1.file pg :=
    g6.2.1 pg (List.mem_iff_getElem?.2 ⟨k, g2⟩)
  have hr : ¬ (index < 0 ∨ index ≥ vm.arraySize) := by omega
  have hoff := getOffset_range index
  have hkept : Kept vm (getPage vm (getPageIndex index) now1).1 := ⟨g6, g7, g8, g10⟩
  have hw : vm.writeValue index value now1 now2 =
      match encode vm.arrayType vm.stringLength d (getOffset index).toNat value with
      | none => none
      | some (.error e) => some (e, (getPage vm (getPageIndex index) now1).1)
      | some (.ok data) =>
        some (.ok, { (getPage vm (getPageIndex index) now1).1 with
          buffer := (getPage vm (getPageIndex index) now1).1.buffer.set k
            { pg with data := data, modified := true, lastAccess := now2,
                      bitmap := pg.bitmap.set (getOffset index).toNat true } }) := by
    unfold writeValue
    rw [if_neg hr]
    dsimp only
    cases hgp : getPage vm (getPageIndex index) now1 with
    | mk vm2 r =>
      rw [hgp] at g1 g2 g10
      simp only at g1 g2
      subst g1
      have ht : vm2.arrayType = vm.arrayType := g10.2.2.1
      have hs : vm2.stringLength = vm.stringLength := g10.2.2.2
      simp only [g2, ht, hs, hdata]
      generalize encode vm.arrayType vm.stringLength d (getOffset index).toNat value = enc
      cases enc with
      | none => rfl
      | some r =>
        cases r with
        | error e => rfl
        | ok data => simp only [hpg.2.1, hoff.2.2, if_true]
  rw [hw]
  cases he : encode vm.arrayType vm.stringLength d (getOffset index).toNat value with
  | none => rfl
  | some r =>
    cases r with
    | error e => exact ⟨rfl, hkept, g9⟩
    | ok data =>
      have hlen : data.length = 512 := by
        rw [encode_eq] at he
        have hdl : d.length = 512 := Views_length vm hc _ d hin hd
        cases hfb : fieldBytes vm.arrayType vm.stringLength value with
        | error e => rw [hfb] at he; simp at he
        | ok ob =>
          rw [hfb] at he
          cases ob with
          | none =>
            simp only [Option.some.injEq, Except.ok.injEq] at he
            rw [← he]; exact hdl
          | some bytes =>
            simp only at he
            split at he
            · rename_i hfit
              simp only [Option.some.injEq, Except.ok.injEq] at he
              rw [← he, writeBytes_length _ _ _ hfit]; exact hdl
            · cases he
      obtain ⟨c1, c2, c3⟩ := setPage_coherent _ g6 k pg
        { pg with data := data, modified := true, lastAccess := now2,
                  bitmap := pg.bitmap.set (getOffset index).toNat true }
        g2 rfl hlen (by simp [hpg.2.1]) rfl
      refine ⟨_, rfl, ⟨c1, g7, g8, g10⟩, ?_, ?_⟩
      · exact (congrArg (fun q => Views _ q data) g3).mp c2
      · intro q c hq hne hvq
        exact c3 q c (by rw [g3]; exact hne) (g9 q c hq hvq)

/-- `readValue` at a valid index in a coherent state whose file holds the page: the
result is that of the codec on the logical content `d` of the page, and no logical
content changes. -/
theorem readValue_coherent (vm : VirtualMemory) (hc : Coherent vm) (index : Int)
    (value : List Nat) (now : Int) (hv : 0 ≤ index ∧ index < vm.arraySize)
    (hin : InFile vm.file (getPageIndex index)) (d : List Nat)
    (hd : Views vm (getPageIndex index) d) :
    vm.readValue index value now =
      (decode vm.arrayType d (getOffset index).toNat value).map
        (fun out => (Status.ok, out, (getPage vm (getPageIndex index) now).1)) ∧
      Kept vm (getPage vm (getPageIndex index) now).1 ∧
      (∀ q c, 0 ≤ q → Views vm q c → Views (getPage vm (getPageIndex index) now).1 q c) := by
  obtain ⟨k, pg, g1, g2, g3, g4, -, g6, g7, g8, g9, g10⟩ :=
    getPage_coherent vm hc (getPageIndex index) now hin
  have hdata : pg.data = d := Views_unique vm hc _ _ _ g4 hd
  have hr : ¬ (index < 0 ∨ index ≥ vm.arraySize) := by omega
  refine ⟨?_, ⟨g6, g7, g8, g10⟩, g9⟩
  unfold readValue
  rw [if_neg hr]
  dsimp only
  cases hgp : getPage vm (getPageIndex index) now with
  | mk vm2 r =>
    rw [hgp] at g1 g2 g10
    simp only at g1 g2
    subst g1
    have ht : vm2.arrayType = vm.arrayType := g10.2.2.1
    simp only [g2, ht, hdata]
    generalize decode vm.arrayType d (getOffset index).toNat value = dec
    cases dec with
    | none => rfl
    | some out => rfl

/-- `writeValue` and `readValue` at a valid index in a coherent state whose file does
not hold the page: the load fails and the call reports it. -/
theorem no_page (vm : VirtualMemory) (hc : Coherent vm) (index : Int)
    (value : List Nat) (now1 now2 : Int) (hv : 0 ≤ index ∧ index < vm.arraySize)
    (hin : ¬ InFile vm.file (getPageIndex index)) :
    vm.writeValue index value now1 now2
      = some (.noPage, (getPage vm (getPageIndex index) now1).1) ∧
    vm.readValue index value now1
      = some (.noPage, value, (getPage vm (getPageIndex index) now1).1) := by
  obtain ⟨g1, -, -⟩ := getPage_not_inFile vm hc (getPageIndex index) now1 hin
  have hr : ¬ (index < 0 ∨ index ≥ vm.arraySize) := by omega
  unfold writeValue readValue
  rw [if_neg hr, if_neg hr]
  dsimp only
  cases hgp : getPage vm (getPageIndex index) now1 with
  | mk vm2 r =>
    rw [hgp] at g1
    simp only at g1
    subst g1
    exact ⟨rfl, rfl⟩

end VirtualMemory

/-! ## Codec round trips -/

theorem take_drop_writeBytes (d : List Nat) (o : Nat) (bs : List Nat)
    (h : o + bs.length ≤ d.length) :
    ((writeBytes d o bs).drop o).take bs.length = bs := by
  unfold writeBytes
  have hl : (d.take o).length = o := by simp only [List.length_take]; omega
  rw [List.append_assoc, List.drop_append_of_le_length (by omega),
    List.drop_of_length_le (by omega), List.nil_append,
    List.take_append_of_le_length (by omega), List.take_of_length_le (by omega)]

theorem drop_writeBytes (d : List Nat) (o : Nat) (bs : List Nat)
    (h : o + bs.length ≤ d.length) :
    (writeBytes d o bs).drop o = bs ++ d.drop (o + bs.length) := by
  unfold writeBytes
  have hl : (d.take o).length = o := by simp only [List.length_take]; omega
  rw [List.append_assoc, List.drop_append_of_le_length (by omega),
    List.drop_of_length_le (by omega), List.nil_append]

theorem bytesInt_intBytes (n : Int) (h1 : -2147483648 ≤ n) (h2 : n ≤ 2147483647) :
    bytesInt (intBytes n) = n := by
  simp only [bytesInt, intBytes, List.getD_cons_zero, List.getD_cons_succ, wrap32]
  omega

theorem stoi_range (value : List Nat) (n : Int) (h : stoi value = .ok n) :
    -2147483648 ≤ n ∧ n ≤ 2147483647 := by
  unfold stoi at h
  simp only at h
  generalize List.takeWhile isdigit
    (if ((List.dropWhile isspace value).head? == some 45
        || (List.dropWhile isspace value).head? == some 43) = true
      then (List.dropWhile isspace value).tail else List.dropWhile isspace value) = ds at h
  by_cases he : ds.isEmpty = true
  · rw [if_pos he] at h; cases h
  · rw [if_neg he] at h
    generalize (if ((List.dropWhile isspace value).head? == some 45) = true
      then -(digitsValue ds : Int) else (digitsValue ds : Int)) = v at h
    by_cases hr : v < -2147483648 ∨ 2147483647 < v
    · rw [if_pos hr] at h; cases h
    · rw [if_neg hr] at h
      simp only [Except.ok.injEq] at h
      omega

theorem takeWhile_terminated (v rest : List Nat) (hz : 0 ∉ v) :
    (v ++ 0 :: rest).takeWhile (fun b => b != 0) = v := by
  induction v with
  | nil => simp
  | cons a as ih =>
    have ha : a ≠ 0 := fun h => hz (by simp [h])
    have has : 0 ∉ as := fun h => hz (List.mem_cons_of_mem _ h)
    simp [List.takeWhile_cons, ha, ih has]

theorem Views_exists (vm : VirtualMemory) (q : Int) : ∃ d, Views vm q d := by
  by_cases h : ∃ pg ∈ vm.buffer, pg.absoluteNumber = q
  · obtain ⟨pg, h1, h2⟩ := h
    exact ⟨pg.data, Or.inl ⟨pg, h1, h2, rfl⟩⟩
  · refine ⟨fileRegion vm.file q, Or.inr ⟨?_, rfl⟩⟩
    intro pg hpg heq
    exact h ⟨pg, hpg, heq⟩

namespace VirtualMemory

/-- A write that stores `bytes` inside the page, followed by a read of the same index:
the write succeeds and the read decodes the page content with `bytes` at the offset. -/
theorem write_then_read (vm : VirtualMemory) (hc : Coherent vm) (index : Int)
    (value out : List Nat) (now1 now2 now3 : Int) (hv : 0 ≤ index ∧ index < vm.arraySize)
    (hin : InFile vm.file (getPageIndex index)) (bytes : List Nat)
    (hfb : fieldBytes vm.arrayType vm.stringLength value = .ok (some bytes))
    (hfit : (getOffset index).toNat + bytes.length ≤ 512) :
    ∃ vm1 d, d.length = 512 ∧ vm.writeValue index value now1 now2 = some (.ok, vm1) ∧
      Kept vm vm1 ∧
      vm1.readValue index out now3 =
        (decode vm.arrayType (writeBytes d (getOffset index).toNat bytes)
          (getOffset index).toNat out).map
          (fun r => (Status.ok, r, (getPage vm1 (getPageIndex index) now3).1)) := by
  obtain ⟨d, hd⟩ := Views_exists vm (getPageIndex index)
  have hdl := Views_length vm hc _ d hin hd
  have hw := writeValue_coherent vm hc index value now1 now2 hv hin d hd
  rw [encode_eq, hfb] at hw
  simp only [hdl, hfit, if_true] at hw
  obtain ⟨vm1, w1, w2, w3, -⟩ := hw
  obtain ⟨k1, k2, k3, k4⟩ := w2
  have hin1 : InFile vm1.file (getPageIndex index) := ⟨hin.1, by rw [k2]; exact hin.2⟩
  obtain ⟨r1, -, -⟩ := readValue_coherent vm1 k1 index out now3 (by rw [k4.1]; exact hv) hin1
    _ w3
  refine ⟨vm1, d, hdl, w1, ⟨k1, k2, k3, k4⟩, ?_⟩
  rw [r1, k4.2.2.1]

end VirtualMemory

/-- C2 (integer round trip, amended): for an array of type `int` in a coherent state,
for every valid index whose page the file holds and whose four-byte field lies inside
its page, and every string that `std::stoi` parses as the 32-bit integer `n`,
`writeValue` succeeds and an immediately following `readValue` of the index succeeds
and returns the decimal rendering of `n`. -/
theorem int_round_trip (vm : VirtualMemory) (hc : Coherent vm) (index : Int)
    (value out : List Nat) (n : Int) (now1 now2 now3 : Int)
    (ht : vm.arrayType = "int") (hv : 0 ≤ index ∧ index < vm.arraySize)
    (hin : InFile vm.file (VirtualMemory.getPageIndex index))
    (hfield : index % 512 + 4 ≤ 512)
    (hs : stoi value = .ok n) :
    ∃ vm1 vm2, vm.writeValue index value now1 now2 = some (.ok, vm1) ∧
      vm1.readValue index out now3 = some (.ok, to_string n, vm2) := by
  have hfit : (VirtualMemory.getOffset index).toNat + 4 ≤ 512 := by
    unfold VirtualMemory.getOffset wrap32 toSizeT; omega
  have hfb : fieldBytes vm.arrayType vm.stringLength value = .ok (some (intBytes n)) := by
    simp [fieldBytes, ht, hs]
  obtain ⟨vm1, d, hdl, w1, -, r1⟩ := VirtualMemory.write_then_read vm hc index value out
    now1 now2 now3 hv hin (intBytes n) hfb (by rw [length_intBytes]; exact hfit)
  refine ⟨vm1, (VirtualMemory.getPage vm1 (VirtualMemory.getPageIndex index) now3).1, w1, ?_⟩
  rw [r1]
  have hl : (writeBytes d (VirtualMemory.getOffset index).toNat (intBytes n)).length = 512 := by
    rw [writeBytes_length _ _ _ (by rw [length_intBytes]; omega)]; exact hdl
  have htd := take_drop_writeBytes d (VirtualMemory.getOffset index).toNat (intBytes n)
    (by rw [length_intBytes]; omega)
  rw [length_intBytes] at htd
  obtain ⟨h1, h2⟩ := stoi_range value n hs
  simp only [VirtualMemory.decode, ht, if_true, hl, hfit, htd, bytesInt_intBytes n h1 h2,
    Option.map_some']

/-- C3 (varchar round trip, amended): for an array of type `varchar` with maximum
length `stringLength` in a coherent state, for every valid index whose page the file
holds, and every string without zero byte, of length at most the maximum, that lies
with its terminating zero byte inside the page, `writeValue` succeeds and an
immediately following `readValue` of the index succeeds and returns the string. -/
theorem varchar_round_trip (vm : VirtualMemory) (hc : Coherent vm) (index : Int)
    (value out : List Nat) (now1 now2 now3 : Int)
    (ht : vm.arrayType = "varchar") (hv : 0 ≤ index ∧ index < vm.arraySize)
    (hin : InFile vm.file (VirtualMemory.getPageIndex index))
    (hmax : vm.stringLength ≤ 2147483647)
    (hlen : (value.length : Int) ≤ vm.stringLength) (hz : 0 ∉ value)
    (hfield : index % 512 + (value.length + 1) ≤ 512) :
    ∃ vm1 vm2, vm.writeValue index value now1 now2 = some (.ok, vm1) ∧
      vm1.readValue index out now3 = some (.ok, value, vm2) := by
  have hfit : (VirtualMemory.getOffset index).toNat + (value.length + 1) ≤ 512 := by
    unfold VirtualMemory.getOffset wrap32 toSizeT; omega
  have hfb : fieldBytes vm.arrayType vm.stringLength value = .ok (some (value ++ [0])) := by
    have h1 : ¬ ((value.length : Int) > toSizeT vm.stringLength) := by
      unfold toSizeT; omega
    simp only [fieldBytes, ht, if_neg h1]
    rfl
  have hbl : (value ++ [0]).length = value.length + 1 := by simp
  obtain ⟨vm1, d, hdl, w1, -, r1⟩ := VirtualMemory.write_then_read vm hc index value out
    now1 now2 now3 hv hin (value ++ [0]) hfb (by rw [hbl]; exact hfit)
  refine ⟨vm1, (VirtualMemory.getPage vm1 (VirtualMemory.getPageIndex index) now3).1, w1, ?_⟩
  rw [r1]
  have hl : (writeBytes d (VirtualMemory.getOffset index).toNat (value ++ [0])).length
      = 512 := by
    rw [writeBytes_length _ _ _ (by rw [hbl]; omega)]; exact hdl
  have hdrop := drop_writeBytes d (VirtualMemory.getOffset index).toNat (value ++ [0])
    (by rw [hbl]; omega)
  have hoff := (VirtualMemory.getOffset_range index).2.2
  have hne1 : ¬ (vm.arrayType = "int") := by rw [ht]; decide
  have hne2 : ¬ (vm.arrayType = "char") := by rw [ht]; decide
  simp only [VirtualMemory.decode, if_neg hne1, if_neg hne2, if_pos ht, hdrop, hl]
  rw [if_pos ⟨by simp, hoff⟩]
  simp only [List.append_assoc, List.singleton_append, takeWhile_terminated _ _ hz,
    Option.map_some']

/-- Witness of C2: size 100, write index 0 = "42", read index 0 returns "42". -/
theorem int_round_trip_witness :
    VirtualMemory.ctor none 100 "int" 0 = some exampleSmall ∧
    to_string 42 = ascii "42" ∧
    ∃ vm1 vm2, exampleSmall.writeValue 0 (ascii "42") 1 1 = some (.ok, vm1) ∧
      vm1.readValue 0 [] 2 = some (.ok, to_string 42, vm2) :=
  ⟨by decide!, by decide,
    int_round_trip exampleSmall (by decide!) 0 (ascii "42") [] 42 1 1 2 rfl (by decide)
      (by decide!) (by decide) rfl⟩

/-- Counterexample to C2 as stated: (1) an `int` array of size 100 opened on a correctly
signed file without pages: index 0 is valid, yet `writeValue(0, "42")` fails because the
page cannot be loaded; (2) a fresh `int` array of size 1000: index 509 is valid, yet
`writeValue(509, "42")` copies four bytes to offsets 509..512 of a 512-byte page, which
is outside the page (no result in the model). -/
theorem int_round_trip_counterexample :
    (VirtualMemory.ctor (some SIGNATURE) 100 "int" 0).bind
        (fun vm => (vm.writeValue 0 (ascii "42") 1 1).map Prod.fst) = some .noPage ∧
    (VirtualMemory.ctor none 1000 "int" 0).bind
        (fun vm => vm.writeValue 509 (ascii "42") 1 1) = none := by
  decide!

/-- Witness of C3: `varchar(5)`, write index 0 = "hello", read index 0 returns
"hello". -/
theorem varchar_round_trip_witness :
    VirtualMemory.ctor none 100 "varchar" 5 = some exampleVarchar ∧
    ∃ vm1 vm2, exampleVarchar.writeValue 0 (ascii "hello") 1 1 = some (.ok, vm1) ∧
      vm1.readValue 0 [] 2 = some (.ok, ascii "hello", vm2) :=
  ⟨by decide!,
    varchar_round_trip exampleVarchar (by decide!) 0 (ascii "hello") [] 1 1 2 rfl (by decide)
      (by decide!) (by decide) (by decide) (by decide) (by decide)⟩

/-- Counterexample to C3 as stated: (1) a `varchar(5)` array of size 100 opened on a
correctly signed file without pages: `writeValue(0, "hello")` fails because the page
cannot be loaded; (2) a fresh `varchar(5)` array of size 1000: `writeValue(510, "hello")`
copies six bytes to offsets 510..515 of a 512-byte page, outside the page (no result in
the model). -/
theorem varchar_round_trip_counterexample :
    (VirtualMemory.ctor (some SIGNATURE) 100 "varchar" 5).bind
        (fun vm => (vm.writeValue 0 (ascii "hello") 1 1).map Prod.fst) = some .noPage ∧
    (VirtualMemory.ctor none 1000 "varchar" 5).bind
        (fun vm => vm.writeValue 510 (ascii "hello") 1 1) = none := by
  decide!

namespace VirtualMemory

theorem getOffset_eq (index : Int) : getOffset index = index % 512 := by
  unfold getOffset wrap32 toSizeT
  omega

theorem evictPage_params (vm : VirtualMemory) : SameParams (evictPage vm) vm := by
  unfold evictPage
  split
  · exact ⟨rfl, rfl, rfl, rfl⟩
  · exact ⟨rfl, rfl, rfl, rfl⟩

/-- `getPage` never changes the parameters of the array. -/
theorem getPage_params (vm : VirtualMemory) (p now : Int) :
    SameParams (getPage vm p now).1 vm := by
  cases hf : findPageInBuffer now p vm.buffer with
  | some r =>
    obtain ⟨i, buf⟩ := r
    rw [getPage_hit vm p now i buf hf]
    exact ⟨rfl, rfl, rfl, rfl⟩
  | none =>
    rw [getPage_miss vm p now hf]
    have key : SameParams (if vm.buffer.length ≥ bufferCapacity then evictPage vm else vm) vm := by
      split
      · exact evictPage_params vm
      · exact ⟨rfl, rfl, rfl, rfl⟩
    generalize (if vm.buffer.length ≥ bufferCapacity then evictPage vm else vm) = vm1 at key
    cases streamRead vm1.file vm1.fileGood (2 + p * 512) PAGE_SIZE with
    | none => exact key
    | some bytes => exact key

/-- The pages in the buffer after `getPage`: each is a page that was resident, with the
same number, data, markers and modified flag, or it is the requested page, freshly
loaded and not modified. -/
theorem getPage_pages (vm : VirtualMemory) (p now : Int) :
    ∀ pg' ∈ (getPage vm p now).1.buffer,
      (∃ pg ∈ vm.buffer, pg'.absoluteNumber = pg.absoluteNumber ∧ pg'.modified = pg.modified ∧
        pg'.data = pg.data ∧ pg'.bitmap = pg.bitmap) ∨
      ((∀ pg ∈ vm.buffer, pg.absoluteNumber ≠ p) ∧ pg'.absoluteNumber = p ∧
        pg'.modified = false) := by
  cases hf : findPageInBuffer now p vm.buffer with
  | some r =>
    obtain ⟨i, buf⟩ := r
    rw [getPage_hit vm p now i buf hf]
    obtain ⟨pg, h1, h2, h3, -⟩ := findPageInBuffer_some now p vm.buffer i buf hf
    obtain ⟨A, B, hAB, hl⟩ := List.split_at_getElem? _ _ _ h1
    have hbuf : buf = A ++ { pg with lastAccess := now } :: B := by
      rw [h3, hAB, ← hl, List.set_append_cons]
    intro pg' hpg'
    simp only [hbuf] at hpg'
    left
    rcases List.mem_append.1 hpg' with h | h
    · exact ⟨pg', by rw [hAB]; exact List.mem_append_left _ h, rfl, rfl, rfl, rfl⟩
    · rcases List.mem_cons.1 h with h | h
      · exact ⟨pg, by rw [hAB]; simp, by rw [h], by rw [h], by rw [h], by rw [h]⟩
      · exact ⟨pg', by rw [hAB]; exact List.mem_append_right _ (List.mem_cons_of_mem _ h),
          rfl, rfl, rfl, rfl⟩
  | none =>
    rw [getPage_miss vm p now hf]
    have hmiss := (findPageInBuffer_none now p vm.buffer).1 hf
    have key : ∀ pg ∈ (if vm.buffer.length ≥ bufferCapacity then evictPage vm else vm).buffer,
        pg ∈ vm.buffer := by
      split
      · intro pg hpg
        rw [evictPage_buffer] at hpg
        exact (List.eraseIdx_sublist _ _).subset hpg
      · exact fun _ h => h
    generalize (if vm.buffer.length ≥ bufferCapacity then evictPage vm else vm) = vm1 at key
    cases streamRead vm1.file vm1.fileGood (2 + p * 512) PAGE_SIZE with
    | none =>
      intro pg' hpg'
      exact Or.inl ⟨pg', key pg' hpg', rfl, rfl, rfl, rfl⟩
    | some bytes =>
      intro pg' hpg'
      rcases List.mem_append.1 hpg' with h | h
      · exact Or.inl ⟨pg', key pg' h, rfl, rfl, rfl, rfl⟩
      · rw [List.mem_singleton.1 h]
        exact Or.inr ⟨hmiss, rfl, rfl⟩

/-- `writeValue` at a valid index, in any state, spelled out along the result of
`getPage`. -/
theorem writeValue_valid (vm : VirtualMemory) (index : Int) (value : List Nat)
    (now1 now2 : Int) (hv : 0 ≤ index ∧ index < vm.arraySize) :
    ((getPage vm (getPageIndex index) now1).2 = none ∧
      vm.writeValue index value now1 now2
        = some (.noPage, (getPage vm (getPageIndex index) now1).1)) ∨
    (∃ k pg, (getPage vm (getPageIndex index) now1).2 = some k ∧
      (getPage vm (getPageIndex index) now1).1.buffer[k]? = some pg ∧
      pg.absoluteNumber = getPageIndex index ∧
      vm.writeValue index value now1 now2 =
        match encode vm.arrayType vm.stringLength pg.data (getOffset index).toNat value with
        | none => none
        | some (.error e) => some (e, (getPage vm (getPageIndex index) now1).1)
        | some (.ok data) =>
          if (getOffset index).toNat < pg.bitmap.length then
            some (.ok, { (getPage vm (getPageIndex index) now1).1 with
              buffer := (getPage vm (getPageIndex index) now1).1.buffer.set k
                { pg with data := data, modified := true, lastAccess := now2,
                          bitmap := pg.bitmap.set (getOffset index).toNat true } })
          else none) := by
  have hr : ¬ (index < 0 ∨ index ≥ vm.arraySize) := by omega
  have hp := getPage_params vm (getPageIndex index) now1
  cases hgp : (getPage vm (getPageIndex index) now1).2 with
  | none =>
    left
    refine ⟨rfl, ?_⟩
    unfold writeValue
    rw [if_neg hr]
    dsimp only
    cases hg : getPage vm (getPageIndex index) now1 with
    | mk vm2 r =>
      rw [hg] at hgp
      simp only at hgp
      subst hgp
      rfl
  | some k =>
    right
    obtain ⟨pg, g1, g2⟩ := getPage_result vm (getPageIndex index) now1 k hgp
    refine ⟨k, pg, rfl, g1, g2, ?_⟩
    unfold writeValue
    rw [if_neg hr]
    dsimp only
    cases hg : getPage vm (getPageIndex index) now1 with
    | mk vm2 r =>
      rw [hg] at hgp g1 hp
      simp only at hgp g1
      subst hgp
      have ht : vm2.arrayType = vm.arrayType := hp.2.2.1
      have hs : vm2.stringLength = vm.stringLength := hp.2.2.2
      simp only [g1, ht, hs]

end VirtualMemory

theorem fieldBytes_error (arrayType : String) (stringLength : Int) (value : List Nat)
    (e : Status) (h : fieldBytes arrayType stringLength value = .error e) :
    e = .invalidInteger ∨ e = .integerOutOfRange ∨ e = .stringTooLong := by
  unfold fieldBytes at h
  split at h
  · split at h
    · simp only [Except.error.injEq] at h; exact Or.inl h.symm
    · simp only [Except.error.injEq] at h; exact Or.inr (Or.inl h.symm)
    · cases h
  · split at h
    · cases h
    · split at h
      · split at h
        · simp only [Except.error.injEq] at h; exact Or.inr (Or.inr h.symm)
        · cases h
      · cases h

namespace VirtualMemory

/-- The possible outcomes of `writeValue` at a valid index, in any state: the page
could not be loaded; or the value was rejected by the validation of the element type;
or it was stored. Only a stored value changes the state left by `getPage`. -/
theorem writeValue_status (vm : VirtualMemory) (index : Int) (value : List Nat)
    (now1 now2 : Int) (st : Status) (vm1 : VirtualMemory)
    (hv : 0 ≤ index ∧ index < vm.arraySize)
    (hw : vm.writeValue index value now1 now2 = some (st, vm1)) :
    (st = .noPage ∧ (getPage vm (getPageIndex index) now1).2 = none ∧
        vm1 = (getPage vm (getPageIndex index) now1).1) ∨
      (fieldBytes vm.arrayType vm.stringLength value = .error st ∧
        (getPage vm (getPageIndex index) now1).2 ≠ none ∧
        vm1 = (getPage vm (getPageIndex index) now1).1) ∨
      (st = .ok ∧ ∃ stored, fieldBytes vm.arrayType vm.stringLength value = .ok stored) := by
  rcases writeValue_valid vm index value now1 now2 hv with ⟨h0, h⟩ | ⟨k, pg, h0, -, -, h⟩
  · rw [h] at hw
    simp only [Option.some.injEq, Prod.mk.injEq] at hw
    exact Or.inl ⟨hw.1.symm, h0, hw.2.symm⟩
  · right
    rw [h, encode_eq] at hw
    cases hfb : fieldBytes vm.arrayType vm.stringLength value with
    | error e =>
      rw [hfb] at hw
      simp only [Option.some.injEq, Prod.mk.injEq] at hw
      left
      exact ⟨by rw [hw.1], by rw [h0]; simp, hw.2.symm⟩
    | ok ob =>
      right
      rw [hfb] at hw
      cases ob with
      | none =>
        simp only at hw
        by_cases hb : (getOffset index).toNat < pg.bitmap.length
        · rw [if_pos hb] at hw
          simp only [Option.some.injEq, Prod.mk.injEq] at hw
          exact ⟨hw.1.symm, none, rfl⟩
        · rw [if_neg hb] at hw; cases hw
      | some bytes =>
        simp only at hw
        by_cases hf : (getOffset index).toNat + bytes.length ≤ pg.data.length
        · rw [if_pos hf] at hw
          simp only at hw
          by_cases hb : (getOffset index).toNat < pg.bitmap.length
          · rw [if_pos hb] at hw
            simp only [Option.some.injEq, Prod.mk.injEq] at hw
            exact ⟨hw.1.symm, some bytes, rfl⟩
          · rw [if_neg hb] at hw; cases hw
        · rw [if_neg hf] at hw; cases hw

end VirtualMemory

/-- When `writeValue` stores a value (for a `varchar` maximum that is a non-negative
`int`): the value of an `int` array is parsed by `std::stoi` within the 32-bit range, the
value of a `varchar` array is not longer than the maximum; every value passes for
`char` and for any other type. -/
theorem fieldBytes_ok_iff (arrayType : String) (stringLength : Int) (value : List Nat)
    (hmax : arrayType = "varchar" → 0 ≤ stringLength ∧ stringLength ≤ 2147483647) :
    (∃ stored, fieldBytes arrayType stringLength value = .ok stored) ↔
      ((arrayType = "int" →
          ∃ n, stoi value = .ok n ∧ -2147483648 ≤ n ∧ n ≤ 2147483647) ∧
        (arrayType = "varchar" → (value.length : Int) ≤ stringLength)) := by
  by_cases h1 : arrayType = "int"
  · have h3 : ¬ arrayType = "varchar" := by rw [h1]; decide
    simp only [fieldBytes, if_pos h1]
    cases hs : stoi value with
    | error e =>
      constructor
      · rintro ⟨stored, h⟩
        cases e <;> cases h
      · rintro ⟨h, -⟩
        obtain ⟨n, hn, -⟩ := h h1
        cases hn
    | ok n =>
      constructor
      · intro _
        exact ⟨fun _ => ⟨n, rfl, stoi_range value n hs⟩, fun h => absurd h h3⟩
      · intro _
        exact ⟨_, rfl⟩
  · by_cases h2 : arrayType = "char"
    · have h3 : ¬ arrayType = "varchar" := by rw [h2]; decide
      simp only [fieldBytes, if_neg h1, if_pos h2]
      exact ⟨fun _ => ⟨fun h => absurd h h1, fun h => absurd h h3⟩, fun _ => ⟨_, rfl⟩⟩
    · by_cases h3 : arrayType = "varchar"
      · obtain ⟨m0, m1⟩ := hmax h3
        have hsz : toSizeT stringLength = stringLength := by unfold toSizeT; omega
        simp only [fieldBytes, if_neg h1, if_neg h2, if_pos h3, hsz]
        by_cases hl : (value.length : Int) > stringLength
        · rw [if_pos hl]
          constructor
          · rintro ⟨stored, h⟩
            cases h
          · rintro ⟨-, h⟩
            have := h h3
            omega
        · rw [if_neg hl]
          exact ⟨fun _ => ⟨fun h => absurd h h1, fun _ => by omega⟩, fun _ => ⟨_, rfl⟩⟩
      · simp only [fieldBytes, if_neg h1, if_neg h2, if_neg h3]
        exact ⟨fun _ => ⟨fun h => absurd h h1, fun h => absurd h h3⟩, fun _ => ⟨_, rfl⟩⟩

/-- C4 (index range check, amended): `writeValue` and `readValue` report
`IndexOutOfRange` and leave the state and the output string unchanged when the index is
negative or not below `arraySize`. For every other index `writeValue` never reports
`IndexOutOfRange`, and, in a coherent state (stream not failed) whose file holds the
page, with the encoded field inside the page and, for `varchar`, a maximum length that
is not negative, it succeeds exactly when the value passes the validation of the
element type: for `int`, `std::stoi` parses the value within the 32-bit range; for
`varchar`, the length of the value is within the maximum; for `char` and any other
type, always. -/
theorem index_range_check (vm : VirtualMemory) (index : Int) (value out : List Nat)
    (now1 now2 : Int) :
    ((index < 0 ∨ index ≥ vm.arraySize) →
      vm.writeValue index value now1 now2 = some (.indexOutOfBounds, vm) ∧
      vm.readValue index out now1 = some (.indexOutOfBounds, out, vm)) ∧
    ((0 ≤ index ∧ index < vm.arraySize) →
      (∀ st vm1, vm.writeValue index value now1 now2 = some (st, vm1) →
        st ≠ .indexOutOfBounds) ∧
      (Coherent vm → InFile vm.file (VirtualMemory.getPageIndex index) →
        fieldFits index (fieldBytes vm.arrayType vm.stringLength value) →
        (vm.arrayType = "varchar" → 0 ≤ vm.stringLength ∧ vm.stringLength ≤ 2147483647) →
        ((∃ vm1, vm.writeValue index value now1 now2 = some (.ok, vm1)) ↔
          ((vm.arrayType = "int" →
              ∃ n, stoi value = .ok n ∧ -2147483648 ≤ n ∧ n ≤ 2147483647) ∧
            (vm.arrayType = "varchar" → (value.length : Int) ≤ vm.stringLength))))) := by
  constructor
  · intro h
    unfold VirtualMemory.writeValue VirtualMemory.readValue
    rw [if_pos h, if_pos h]
    exact ⟨rfl, rfl⟩
  · intro hv
    constructor
    · intro st vm1 hw
      rcases VirtualMemory.writeValue_status vm index value now1 now2 st vm1 hv hw with
        ⟨h, -, -⟩ | ⟨h, -, -⟩ | ⟨h, -⟩
      · rw [h]; decide
      · rcases fieldBytes_error _ _ _ st h with h | h | h <;> rw [h] <;> decide
      · rw [h]; decide
    · intro hc hin hfit hmax
      refine Iff.trans ?_ (fieldBytes_ok_iff vm.arrayType vm.stringLength value hmax)
      obtain ⟨d, hd⟩ := Views_exists vm (VirtualMemory.getPageIndex index)
      have hdl := Views_length vm hc _ d hin hd
      have hw := VirtualMemory.writeValue_coherent vm hc index value now1 now2 hv hin d hd
      rw [VirtualMemory.encode_eq] at hw
      have hoff : index.toNat % 512 = (VirtualMemory.getOffset index).toNat := by
        rw [VirtualMemory.getOffset_eq]; omega
      cases hfb : fieldBytes vm.arrayType vm.stringLength value with
      | error e =>
        rw [hfb] at hw
        simp only at hw
        constructor
        · rintro ⟨vm1, h1⟩
          rw [hw.1] at h1
          simp only [Option.some.injEq, Prod.mk.injEq] at h1
          rcases fieldBytes_error _ _ _ e hfb with h | h | h <;> rw [h] at h1 <;>
            exact absurd h1.1 (by decide)
        · rintro ⟨ob, h⟩
          cases h
      | ok ob =>
        rw [hfb] at hw hfit
        cases ob with
        | none =>
          simp only at hw
          obtain ⟨vm1, h1, -⟩ := hw
          exact ⟨fun _ => ⟨none, rfl⟩, fun _ => ⟨vm1, h1⟩⟩
        | some bytes =>
          have hfit' : (VirtualMemory.getOffset index).toNat + bytes.length ≤ d.length := by
            rw [hdl, ← hoff]; exact hfit
          simp only [hfit', if_true] at hw
          obtain ⟨vm1, h1, -⟩ := hw
          exact ⟨fun _ => ⟨some bytes, rfl⟩, fun _ => ⟨vm1, h1⟩⟩

/-- Witness of C4: on a fresh `int` array of size 100, index 100 is reported out of range
by both calls; at index 0 the write of "42" succeeds and the write of "abc" does not;
on a fresh `varchar(5)` array the write of "hello" succeeds and the write of "toolong"
does not. -/
theorem index_range_check_witness :
    (exampleSmall.writeValue 100 (ascii "42") 1 1 = some (.indexOutOfBounds, exampleSmall) ∧
      exampleSmall.readValue 100 [] 1 = some (.indexOutOfBounds, [], exampleSmall)) ∧
    (∃ vm1, exampleSmall.writeValue 0 (ascii "42") 1 1 = some (.ok, vm1)) ∧
    (¬ ∃ vm1, exampleSmall.writeValue 0 (ascii "abc") 1 1 = some (.ok, vm1)) ∧
    (∃ vm1, exampleVarchar.writeValue 0 (ascii "hello") 1 1 = some (.ok, vm1)) ∧
    (¬ ∃ vm1, exampleVarchar.writeValue 0 (ascii "toolong") 1 1 = some (.ok, vm1)) :=
  ⟨(index_range_check exampleSmall 100 (ascii "42") [] 1 1).1 (by decide),
    ((((index_range_check exampleSmall 0 (ascii "42") [] 1 1).2 (by decide)).2 (by decide!)
      (by decide!) (by decide) (by decide)).2
        ⟨fun _ => ⟨42, rfl, by decide, by decide⟩, fun h => absurd h (by decide)⟩),
    (fun h => absurd
      (((((index_range_check exampleSmall 0 (ascii "abc") [] 1 1).2 (by decide)).2 (by decide!)
        (by decide!) (by decide) (by decide)).1 h).1 rfl)
      (by
        rintro ⟨n, hn, -⟩
        have h0 : stoi (ascii "abc") = .error .invalid_argument := rfl
        rw [h0] at hn
        cases hn)),
    ((((index_range_check exampleVarchar 0 (ascii "hello") [] 1 1).2 (by decide)).2
      (by decide!) (by decide!) (by decide) (by decide)).2
        ⟨fun h => absurd h (by decide), fun _ => by decide⟩),
    (fun h => absurd
      (((((index_range_check exampleVarchar 0 (ascii "toolong") [] 1 1).2 (by decide)).2
        (by decide!) (by decide!) (by decide) (by decide)).1 h).2 rfl) (by decide))⟩

/-- Counterexample to C4 as stated: (1) on a fresh `int` array of size 100 the index 0 is
in range, yet `writeValue(0, "abc")` fails (invalid integer); (2) on a fresh
`varchar(5)` array of size 100, `writeValue(0, "toolong")` fails (string too long);
(3) on an `int` array opened on a correctly signed file without pages,
`writeValue(0, "42")` fails (the page cannot be loaded). -/
theorem index_range_check_counterexample :
    VirtualMemory.ctor none 100 "int" 0 = some exampleSmall ∧
    (0 ≤ (0 : Int) ∧ (0 : Int) < exampleSmall.arraySize) ∧
    (exampleSmall.writeValue 0 (ascii "abc") 1 1).map Prod.fst = some .invalidInteger ∧
    VirtualMemory.ctor none 100 "varchar" 5 = some exampleVarchar ∧
    (exampleVarchar.writeValue 0 (ascii "toolong") 1 1).map Prod.fst = some .stringTooLong ∧
    (VirtualMemory.ctor (some SIGNATURE) 100 "int" 0).bind
        (fun vm => (vm.writeValue 0 (ascii "42") 1 1).map Prod.fst) = some .noPage := by
  decide!

/-- C8 (varchar length check, amended): for an array of type `varchar` whose maximum
length is not negative, in a coherent state, at a valid index whose page the file
holds: `writeValue` reports `StringTooLong` if and only if the length of the value
exceeds the maximum; it fails for no other reason; and when it fails, every resident
page is a page that was resident with the same data and modified flag, or the freshly
loaded, unmodified target page, and the logical content of every page is unchanged. -/
theorem varchar_length_check (vm : VirtualMemory) (hc : Coherent vm) (index : Int)
    (value : List Nat) (now1 now2 : Int)
    (ht : vm.arrayType = "varchar") (hv : 0 ≤ index ∧ index < vm.arraySize)
    (hin : InFile vm.file (VirtualMemory.getPageIndex index))
    (hmin : 0 ≤ vm.stringLength) (hmax : vm.stringLength ≤ 2147483647) :
    ((∃ vm1, vm.writeValue index value now1 now2 = some (.stringTooLong, vm1)) ↔
      (value.length : Int) > vm.stringLength) ∧
    (∀ st vm1, vm.writeValue index value now1 now2 = some (st, vm1) → st ≠ .ok →
      st = .stringTooLong ∧
      (∀ pg' ∈ vm1.buffer,
        (∃ pg ∈ vm.buffer, pg'.absoluteNumber = pg.absoluteNumber ∧
          pg'.modified = pg.modified ∧ pg'.data = pg.data) ∨ pg'.modified = false) ∧
      (∀ q c, 0 ≤ q → Views vm q c → Views vm1 q c)) := by
  have hsz : toSizeT vm.stringLength = vm.stringLength := by unfold toSizeT; omega
  have hne1 : ¬ (vm.arrayType = "int") := by rw [ht]; decide
  have hne2 : ¬ (vm.arrayType = "char") := by rw [ht]; decide
  have hfb : fieldBytes vm.arrayType vm.stringLength value =
      if (value.length : Int) > vm.stringLength then .error .stringTooLong
      else .ok (some (value ++ [0])) := by
    simp only [fieldBytes, if_neg hne1, if_neg hne2, if_pos ht, hsz]
  obtain ⟨d, hd⟩ := Views_exists vm (VirtualMemory.getPageIndex index)
  have hw := VirtualMemory.writeValue_coherent vm hc index value now1 now2 hv hin d hd
  rw [VirtualMemory.encode_eq, hfb] at hw
  by_cases hlen : (value.length : Int) > vm.stringLength
  · rw [if_pos hlen] at hw
    simp only at hw
    obtain ⟨w1, -, w3⟩ := hw
    refine ⟨⟨fun _ => hlen, fun _ => ⟨_, w1⟩⟩, ?_⟩
    intro st vm1 h _
    rw [w1] at h
    simp only [Option.some.injEq, Prod.mk.injEq] at h
    obtain ⟨h1, h2⟩ := h
    subst h1 h2
    refine ⟨rfl, ?_, w3⟩
    intro pg' hpg'
    rcases VirtualMemory.getPage_pages vm _ now1 pg' hpg' with ⟨pg, g1, g2, g3, g4, -⟩ | ⟨-, -, g⟩
    · exact Or.inl ⟨pg, g1, g2, g3, g4⟩
    · exact Or.inr g
  · rw [if_neg hlen] at hw
    simp only at hw
    by_cases hfit : (VirtualMemory.getOffset index).toNat + (value ++ [0]).length ≤ d.length
    · rw [if_pos hfit] at hw
      obtain ⟨vm1, w1, -⟩ := hw
      refine ⟨⟨?_, fun h => absurd h hlen⟩, ?_⟩
      · rintro ⟨vm2, h⟩
        rw [w1] at h
        simp only [Option.some.injEq, Prod.mk.injEq] at h
        exact absurd h.1 (by decide)
      · intro st vm2 h hst
        rw [w1] at h
        simp only [Option.some.injEq, Prod.mk.injEq] at h
        exact absurd h.1.symm hst
    · rw [if_neg hfit] at hw
      simp only at hw
      refine ⟨⟨?_, fun h => absurd h hlen⟩, ?_⟩
      · rintro ⟨vm2, h⟩
        rw [hw] at h; cases h
      · intro st vm2 h _
        rw [hw] at h; cases h

/-- Witness of C8: `varchar(5)`; writing "toolong" at index 0 reports `StringTooLong`,
writing "hello" does not. -/
theorem varchar_length_check_witness :
    ((∃ vm1, exampleVarchar.writeValue 0 (ascii "toolong") 1 1 = some (.stringTooLong, vm1)) ↔
      ((ascii "toolong").length : Int) > exampleVarchar.stringLength) ∧
    ((ascii "toolong").length : Int) > exampleVarchar.stringLength ∧
    ((∃ vm1, exampleVarchar.writeValue 0 (ascii "hello") 1 1 = some (.stringTooLong, vm1)) ↔
      ((ascii "hello").length : Int) > exampleVarchar.stringLength) ∧
    ¬ ((ascii "hello").length : Int) > exampleVarchar.stringLength :=
  ⟨(varchar_length_check exampleVarchar (by decide!) 0 (ascii "toolong") 1 1 rfl (by decide)
      (by decide!) (by decide) (by decide)).1, by decide,
    (varchar_length_check exampleVarchar (by decide!) 0 (ascii "hello") 1 1 rfl (by decide)
      (by decide!) (by decide) (by decide)).1, by decide⟩

/-- Counterexample to C8 as stated: (1) a `varchar(5)` array opened on a correctly signed
file without pages: `writeValue(0, "hi")` fails although the length 2 does not exceed
the maximum 5; (2) a fresh `varchar(-1)` array: `writeValue(0, "a")` succeeds although
the length 1 exceeds the maximum -1 (the comparison converts -1 to `size_t`). -/
theorem varchar_length_check_counterexample :
    (VirtualMemory.ctor (some SIGNATURE) 100 "varchar" 5).bind
        (fun vm => (vm.writeValue 0 (ascii "hi") 1 1).map Prod.fst) = some .noPage ∧
    (VirtualMemory.ctor none 100 "varchar" (-1)).bind
        (fun vm => (vm.writeValue 0 (ascii "a") 1 1).map Prod.fst) = some .ok := by
  decide!

/-- C9 (integer validation, amended): for an array of type `int` and a valid index,
`writeValue` fails for every value `std::stoi` rejects (no digit after the optional
white space and sign, or a digit run outside the 32-bit range): it reports the invalid
or out-of-range integer, or, when the page could not be loaded, that failure. The page with the target number keeps its modified flag and its data: if
it was resident, both are as before; if it was not, it is resident unmodified or not at
all. In a coherent state whose file holds the page the failure is the integer failure
and the logical content of every page is unchanged. -/
theorem integer_validation (vm : VirtualMemory) (index : Int) (value : List Nat)
    (now1 now2 : Int) (e : StoiError)
    (ht : vm.arrayType = "int") (hv : 0 ≤ index ∧ index < vm.arraySize)
    (hs : stoi value = .error e) :
    ∃ st vm1, vm.writeValue index value now1 now2 = some (st, vm1) ∧ st.toBool = false ∧
      (st = .noPage ∨
        st = stoiStatus e) ∧
      (∀ pg' ∈ vm1.buffer, pg'.absoluteNumber = VirtualMemory.getPageIndex index →
        (∃ pg ∈ vm.buffer, pg.absoluteNumber = VirtualMemory.getPageIndex index ∧
          pg'.modified = pg.modified ∧ pg'.data = pg.data) ∨
        ((∀ pg ∈ vm.buffer, pg.absoluteNumber ≠ VirtualMemory.getPageIndex index) ∧
          pg'.modified = false)) ∧
      (Coherent vm → InFile vm.file (VirtualMemory.getPageIndex index) →
        st ≠ .noPage ∧ ∀ q c, 0 ≤ q → Views vm q c → Views vm1 q c) := by
  have hfb : fieldBytes vm.arrayType vm.stringLength value = .error (stoiStatus e) := by
    simp only [fieldBytes, if_pos ht, hs]
    cases e <;> rfl
  have hframe : ∀ pg' ∈ (VirtualMemory.getPage vm (VirtualMemory.getPageIndex index) now1).1.buffer,
      pg'.absoluteNumber = VirtualMemory.getPageIndex index →
      (∃ pg ∈ vm.buffer, pg.absoluteNumber = VirtualMemory.getPageIndex index ∧
        pg'.modified = pg.modified ∧ pg'.data = pg.data) ∨
      ((∀ pg ∈ vm.buffer, pg.absoluteNumber ≠ VirtualMemory.getPageIndex index) ∧
        pg'.modified = false) := by
    intro pg' hpg' hnum
    rcases VirtualMemory.getPage_pages vm _ now1 pg' hpg' with
      ⟨pg, g1, g2, g3, g4, -⟩ | ⟨g1, -, g3⟩
    · exact Or.inl ⟨pg, g1, by rw [← g2, hnum], g3, g4⟩
    · exact Or.inr ⟨g1, g3⟩
  rcases VirtualMemory.writeValue_valid vm index value now1 now2 hv with
    ⟨h0, h⟩ | ⟨k, pg, h0, -, -, h⟩
  · refine ⟨.noPage, _, h, rfl, Or.inl rfl, hframe, ?_⟩
    intro hc hin
    obtain ⟨k, pg, g1, -⟩ := VirtualMemory.getPage_coherent vm hc _ now1 hin
    rw [h0] at g1; cases g1
  · rw [VirtualMemory.encode_eq, hfb] at h
    simp only at h
    refine ⟨_, _, h, by cases e <;> rfl, Or.inr rfl, hframe, ?_⟩
    intro hc hin
    obtain ⟨-, -, -, -, -, -, -, -, -, -, g9, -⟩ :=
      VirtualMemory.getPage_coherent vm hc _ now1 hin
    exact ⟨by cases e <;> decide, g9⟩

/-- Witness of C9: on a fresh `int` array, writing "abc" (no digits) at index 0 fails. -/
theorem integer_validation_witness :
    stoi (ascii "abc") = .error .invalid_argument ∧
    stoi (ascii "2147483648") = .error .out_of_range ∧
    ∃ st vm1, exampleSmall.writeValue 0 (ascii "abc") 1 1 = some (st, vm1) ∧
      st.toBool = false :=
  ⟨rfl, rfl,
    (integer_validation exampleSmall 0 (ascii "abc") 1 1 .invalid_argument rfl (by decide)
      rfl).imp fun _ h => h.imp fun _ h => ⟨h.1, h.2.1⟩⟩

/-- Counterexample to C9 as stated: "12abc", "3.9" and "0x1A" are not base-10 integers,
yet `std::stoi` parses their leading digits (12, 3 and 0) and ignores the rest; on a
fresh `int` array `writeValue(0, "12abc")` succeeds, the page is modified and holds the
bytes of 12. -/
theorem integer_validation_counterexample :
    VirtualMemory.ctor none 100 "int" 0 = some exampleSmall ∧
    stoi (ascii "12abc") = .ok 12 ∧ stoi (ascii "3.9") = .ok 3 ∧
    stoi (ascii "0x1A") = .ok 0 ∧
    (exampleSmall.writeValue 0 (ascii "12abc") 1 1).map
        (fun r => (r.1, r.2.buffer.map (fun pg => (pg.modified, pg.data.take 4))))
      = some (.ok, [(true, [12, 0, 0, 0])]) ∧
    (exampleSmall.writeValue 0 (ascii "3.9") 1 1).map
        (fun r => (r.1, r.2.buffer.map (fun pg => (pg.modified, pg.data.take 4))))
      = some (.ok, [(true, [3, 0, 0, 0])]) :=
  ⟨by decide!, rfl, rfl, rfl, by decide!, by decide!⟩

namespace VirtualMemory

theorem ctor_opened (disk : Option (List Nat)) (size : Int) (type : String) (strLen : Int)
    (vm : VirtualMemory) (h : ctor disk size type strLen = some vm) :
    Opened size type strLen vm := by
  obtain ⟨c1, c2, c3, c4, c5, -, -, -, c9⟩ := ctor_fields disk size type strLen vm h
  exact ⟨⟨c1, by rw [c2]; simp, by rw [c2]; simp⟩, c9, c3, c4, c5⟩

/-- A successful `writeValue` keeps the array opened. -/
theorem writeValue_opened (size : Int) (type : String) (strLen : Int) (vm vm1 : VirtualMemory)
    (index : Int) (value : List Nat) (now1 now2 : Int) (ho : Opened size type strLen vm)
    (hw : vm.writeValue index value now1 now2 = some (.ok, vm1)) :
    Opened size type strLen vm1 := by
  obtain ⟨hc, hsig, h1, h2, h3⟩ := ho
  have hv : 0 ≤ index ∧ index < vm.arraySize := by
    by_contra hneg
    have hr : index < 0 ∨ index ≥ vm.arraySize := by omega
    unfold writeValue at hw
    rw [if_pos hr] at hw
    simp only [Option.some.injEq, Prod.mk.injEq] at hw
    exact absurd hw.1 (by decide)
  have hin : InFile vm.file (getPageIndex index) := by
    by_contra hneg
    rw [(no_page vm hc index value now1 now2 hv hneg).1] at hw
    simp only [Option.some.injEq, Prod.mk.injEq] at hw
    exact absurd hw.1 (by decide)
  obtain ⟨d, hd⟩ := Views_exists vm (getPageIndex index)
  have hres := writeValue_coherent vm hc index value now1 now2 hv hin d hd
  have key : Kept vm vm1 := by
    cases he : encode vm.arrayType vm.stringLength d (getOffset index).toNat value with
    | none => rw [he] at hres; simp only at hres; rw [hres] at hw; cases hw
    | some r =>
      rw [he] at hres
      cases r with
      | error e =>
        simp only at hres
        rw [hres.1] at hw
        simp only [Option.some.injEq, Prod.mk.injEq] at hw
        rw [← hw.2]; exact hres.2.1
      | ok data =>
        simp only at hres
        obtain ⟨vm2, w1, w2, -⟩ := hres
        rw [w1] at hw
        simp only [Option.some.injEq, Prod.mk.injEq, true_and] at hw
        rw [← hw]; exact w2
  obtain ⟨k1, -, k3, k4⟩ := key
  exact ⟨k1, by rw [k3, hsig], by rw [k4.1, h1], by rw [k4.2.2.1, h2], by rw [k4.2.2.2, h3]⟩

/-- A sequence of calls that are all successful writes keeps the array opened. -/
theorem writes_opened (size : Int) (type : String) (strLen : Int) (ops : List Op)
    (vm0 vm : VirtualMemory) (ho : Opened size type strLen vm0)
    (hrun : vm0.run ops = some (ops.map (fun _ => Obs.wrote .ok)))
    (hstate : vm0.runState ops = some vm) : Opened size type strLen vm := by
  induction ops generalizing vm0 with
  | nil =>
    simp only [runState, Option.some.injEq] at hstate
    rw [← hstate]; exact ho
  | cons op ops ih =>
    simp only [runState, run] at hstate hrun
    cases hs : vm0.step op with
    | none => rw [hs] at hstate; cases hstate
    | some r =>
      obtain ⟨o, vm1⟩ := r
      rw [hs] at hstate hrun
      simp only at hstate hrun
      cases hr : vm1.run ops with
      | none => rw [hr] at hrun; cases hrun
      | some os =>
        rw [hr] at hrun
        simp only [List.map_cons, Option.some.injEq, List.cons.injEq] at hrun
        obtain ⟨ho1, hos⟩ := hrun
        subst ho1 hos
        refine ih vm1 ?_ hr hstate
        cases op with
        | write index value now1 now2 =>
          simp only [step] at hs
          cases hw : vm0.writeValue index value now1 now2 with
          | none => rw [hw] at hs; cases hs
          | some r =>
            obtain ⟨st, vm2⟩ := r
            rw [hw] at hs
            simp only [Option.some.injEq, Prod.mk.injEq, Obs.wrote.injEq] at hs
            obtain ⟨rfl, rfl⟩ := hs
            exact writeValue_opened size type strLen vm0 vm2 index value now1 now2 ho hw
        | read index value now =>
          simp only [step] at hs
          cases hw : vm0.readValue index value now with
          | none => rw [hw] at hs; cases hs
          | some r =>
            rw [hw] at hs
            simp only [Option.some.injEq, Prod.mk.injEq] at hs
            exact absurd hs.1 (by simp)

/-- Reading an index in two opened states with the same parameters, the same file
length and the same logical content of the target page gives the same result. -/
theorem readValue_same (size : Int) (type : String) (strLen : Int) (vm vm2 : VirtualMemory)
    (ho : Opened size type strLen vm) (ho2 : Opened size type strLen vm2)
    (hlen : vm2.file.length = vm.file.length)
    (hsame : ∀ q d, 0 ≤ q → Views vm q d → Views vm2 q d)
    (index : Int) (value : List Nat) (now now2 : Int) :
    (vm2.readValue index value now2).map (fun r => (r.1, r.2.1))
      = (vm.readValue index value now).map (fun r => (r.1, r.2.1)) := by
  obtain ⟨hc, -, h1, h2, -⟩ := ho
  obtain ⟨hc2, -, k1, k2, -⟩ := ho2
  by_cases hr : index < 0 ∨ index ≥ size
  · unfold readValue
    rw [if_pos (by rw [k1]; exact hr), if_pos (by rw [h1]; exact hr)]
    rfl
  · have hv : 0 ≤ index ∧ index < vm.arraySize := by rw [h1]; omega
    have hv2 : 0 ≤ index ∧ index < vm2.arraySize := by rw [k1]; omega
    by_cases hin : InFile vm.file (getPageIndex index)
    · have hin2 : InFile vm2.file (getPageIndex index) := ⟨hin.1, by rw [hlen]; exact hin.2⟩
      obtain ⟨d, hd⟩ := Views_exists vm (getPageIndex index)
      obtain ⟨r1, -, -⟩ := readValue_coherent vm hc index value now hv hin d hd
      obtain ⟨r2, -, -⟩ := readValue_coherent vm2 hc2 index value now2 hv2 hin2 d
        (hsame _ d hin.1 hd)
      rw [r1, r2, h2, k2]
      cases decode type d (getOffset index).toNat value <;> rfl
    · have hin2 : ¬ InFile vm2.file (getPageIndex index) := by
        intro h; exact hin ⟨h.1, by rw [← hlen]; exact h.2⟩
      rw [(no_page vm hc index value now now hv hin).2,
        (no_page vm2 hc2 index value now2 now2 hv2 hin2).2]
      rfl

end VirtualMemory

/-- C10 (persistence across reopen): after any sequence of successful writes on a
constructed array, the destructor (flush, then close) leaves a file on which the
constructor, called with the same size, type and maximum length, opens an array where
`readValue` of any index returns what `readValue` of that index returned just before
the close (same status, same output string). -/
theorem persistence_across_reopen (disk : Option (List Nat)) (size : Int) (type : String)
    (strLen : Int) (vm0 vm : VirtualMemory) (ops : List Op)
    (index : Int) (value : List Nat) (now now2 : Int)
    (hctor : VirtualMemory.ctor disk size type strLen = some vm0)
    (hrun : vm0.run ops = some (ops.map (fun _ => Obs.wrote .ok)))
    (hstate : vm0.runState ops = some vm) :
    ∃ vm2, VirtualMemory.ctor (some (VirtualMemory.dtor vm)) size type strLen = some vm2 ∧
      (vm2.readValue index value now2).map (fun r => (r.1, r.2.1))
        = (vm.readValue index value now).map (fun r => (r.1, r.2.1)) := by
  have ho := VirtualMemory.writes_opened size type strLen ops vm0 vm
    (VirtualMemory.ctor_opened disk size type strLen vm0 hctor) hrun hstate
  obtain ⟨f1, f2, f3, f4, f5, f6⟩ := VirtualMemory.flushBuffer_coherent vm ho.1
  have hsig : (VirtualMemory.dtor vm).take 2 = SIGNATURE := by
    unfold VirtualMemory.dtor; rw [f4]; exact ho.2.1
  cases hc2 : VirtualMemory.ctor (some (VirtualMemory.dtor vm)) size type strLen with
  | none =>
    rw [VirtualMemory.ctor_signed _ size type strLen hsig] at hc2
    cases hc2
  | some vm2 =>
    refine ⟨vm2, rfl, ?_⟩
    have ho2 := VirtualMemory.ctor_opened _ size type strLen vm2 hc2
    obtain ⟨-, c2, -, -, -, -, -, c8, -⟩ := VirtualMemory.ctor_fields _ size type strLen vm2 hc2
    have hfile : vm2.file = VirtualMemory.dtor vm := by
      rw [VirtualMemory.ctor_signed _ size type strLen hsig] at hc2
      simp only [Option.some.injEq] at hc2
      rw [← hc2]
    refine VirtualMemory.readValue_same size type strLen vm vm2 ho ho2 ?_ ?_ index value now now2
    · rw [hfile]; unfold VirtualMemory.dtor; exact f3
    · intro q d hq hv
      right
      refine ⟨by rw [c2]; simp, ?_⟩
      rw [hfile]
      exact f5 q d hq hv

/-- Witness of C10: after the four successful writes of the example, close and reopen:
`readValue(0)` returns "42" before the close and on the reopened array. -/
theorem persistence_across_reopen_witness :
    (exampleAfter.readValue 0 [] 20).map (fun r => (r.1, r.2.1)) = some (.ok, ascii "42") ∧
    ∃ vm2, VirtualMemory.ctor (some (VirtualMemory.dtor exampleAfter)) 2048 "int" 0 = some vm2 ∧
      (vm2.readValue 0 [] 30).map (fun r => (r.1, r.2.1))
        = (exampleAfter.readValue 0 [] 20).map (fun r => (r.1, r.2.1)) :=
  ⟨by decide!,
    persistence_across_reopen none 2048 "int" 0 exampleInt exampleAfter (exampleOps.take 4)
      0 [] 20 30 rfl (by decide!) (Option.eq_some_getD_of_isSome _ _ (by decide!))⟩

namespace VirtualMemory

theorem evictPage_good (vm : VirtualMemory) (h : (evictPage vm).fileGood = true) :
    vm.fileGood = true := by
  unfold evictPage at h
  split at h
  · exact h
  · rename_i old _
    simp only at h
    by_cases hm : old.modified = true
    · rw [if_pos hm] at h
      unfold streamWrite at h
      by_cases hg : vm.fileGood = true
      · exact hg
      · rw [if_neg hg] at h; cases h
    · rw [if_neg hm] at h; exact h

/-- A failed stream stays failed: when the stream is good after `getPage`, it was good
before. -/
theorem getPage_good (vm : VirtualMemory) (p now : Int)
    (h : (getPage vm p now).1.fileGood = true) : vm.fileGood = true := by
  cases hf : findPageInBuffer now p vm.buffer with
  | some r =>
    obtain ⟨i, buf⟩ := r
    rw [getPage_hit vm p now i buf hf] at h
    exact h
  | none =>
    rw [getPage_miss vm p now hf] at h
    have key : (if vm.buffer.length ≥ bufferCapacity then evictPage vm else vm).fileGood = true →
        vm.fileGood = true := by
      split
      · exact evictPage_good vm
      · exact fun h => h
    generalize (if vm.buffer.length ≥ bufferCapacity then evictPage vm else vm) = vm1 at key h
    cases hr : streamRead vm1.file vm1.fileGood (2 + p * 512) PAGE_SIZE with
    | none => rw [hr] at h; cases h
    | some bytes =>
      rw [hr] at h
      exact key h

theorem flushPages_bad (ps : List Page) (c : List Nat) :
    (flushPages ps (c, false)).2 = false := by
  induction ps generalizing c with
  | nil => rfl
  | cons a as ih =>
    simp only [flushPages, streamWrite]
    split
    · exact ih c
    · exact ih c

/-- One `writeValue` from a coherent state: when the stream is good afterwards, the
state is coherent again. -/
theorem writeValue_keeps_coherent (vm vm1 : VirtualMemory) (index : Int) (value : List Nat)
    (now1 now2 : Int) (st : Status) (hc : Coherent vm)
    (hw : vm.writeValue index value now1 now2 = some (st, vm1))
    (hg : vm1.fileGood = true) : Coherent vm1 := by
  by_cases hr : index < 0 ∨ index ≥ vm.arraySize
  · unfold writeValue at hw
    rw [if_pos hr] at hw
    simp only [Option.some.injEq, Prod.mk.injEq] at hw
    rw [← hw.2]; exact hc
  · have hv : 0 ≤ index ∧ index < vm.arraySize := by omega
    by_cases hin : InFile vm.file (getPageIndex index)
    · obtain ⟨d, hd⟩ := Views_exists vm (getPageIndex index)
      have hres := writeValue_coherent vm hc index value now1 now2 hv hin d hd
      cases he : encode vm.arrayType vm.stringLength d (getOffset index).toNat value with
      | none => rw [he] at hres; simp only at hres; rw [hres] at hw; cases hw
      | some r =>
        rw [he] at hres
        cases r with
        | error e =>
          simp only at hres
          rw [hres.1] at hw
          simp only [Option.some.injEq, Prod.mk.injEq] at hw
          rw [← hw.2]; exact hres.2.1.1
        | ok data =>
          simp only at hres
          obtain ⟨vm2, w1, w2, -⟩ := hres
          rw [w1] at hw
          simp only [Option.some.injEq, Prod.mk.injEq] at hw
          rw [← hw.2]; exact w2.1
    · rw [(no_page vm hc index value now1 now2 hv hin).1] at hw
      simp only [Option.some.injEq, Prod.mk.injEq] at hw
      rw [← hw.2, (getPage_not_inFile vm hc _ now1 hin).2.1] at hg
      cases hg

/-- One `readValue` from a coherent state: when the stream is good afterwards, the
state is coherent again. -/
theorem readValue_keeps_coherent (vm vm1 : VirtualMemory) (index : Int) (value out : List Nat)
    (now : Int) (st : Status) (hc : Coherent vm)
    (hw : vm.readValue index value now = some (st, out, vm1))
    (hg : vm1.fileGood = true) : Coherent vm1 := by
  by_cases hr : index < 0 ∨ index ≥ vm.arraySize
  · unfold readValue at hw
    rw [if_pos hr] at hw
    simp only [Option.some.injEq, Prod.mk.injEq] at hw
    rw [← hw.2.2]; exact hc
  · have hv : 0 ≤ index ∧ index < vm.arraySize := by omega
    by_cases hin : InFile vm.file (getPageIndex index)
    · obtain ⟨d, hd⟩ := Views_exists vm (getPageIndex index)
      obtain ⟨r1, r2, -⟩ := readValue_coherent vm hc index value now hv hin d hd
      rw [r1] at hw
      cases hdec : decode vm.arrayType d (getOffset index).toNat value with
      | none => rw [hdec] at hw; cases hw
      | some o =>
        rw [hdec] at hw
        simp only [Option.map_some', Option.some.injEq, Prod.mk.injEq] at hw
        rw [← hw.2.2]; exact r2.1
    · rw [(no_page vm hc index value now now hv hin).2] at hw
      simp only [Option.some.injEq, Prod.mk.injEq] at hw
      rw [← hw.2.2, (getPage_not_inFile vm hc _ now hin).2.1] at hg
      cases hg

/-- A failed stream stays failed across `writeValue`. -/
theorem writeValue_good (vm vm1 : VirtualMemory) (index : Int) (value : List Nat)
    (now1 now2 : Int) (st : Status)
    (hw : vm.writeValue index value now1 now2 = some (st, vm1))
    (hg : vm1.fileGood = true) : vm.fileGood = true := by
  by_cases hr : index < 0 ∨ index ≥ vm.arraySize
  · unfold writeValue at hw
    rw [if_pos hr] at hw
    simp only [Option.some.injEq, Prod.mk.injEq] at hw
    rw [← hw.2] at hg; exact hg
  · have hv : 0 ≤ index ∧ index < vm.arraySize := by omega
    apply getPage_good vm (getPageIndex index) now1
    rcases writeValue_valid vm index value now1 now2 hv with ⟨-, h⟩ | ⟨k, pg, -, -, -, h⟩
    · rw [h] at hw
      simp only [Option.some.injEq, Prod.mk.injEq] at hw
      rw [← hw.2] at hg; exact hg
    · rw [h] at hw
      cases he : encode vm.arrayType vm.stringLength pg.data (getOffset index).toNat value with
      | none => rw [he] at hw; cases hw
      | some r =>
        rw [he] at hw
        cases r with
        | error e =>
          simp only [Option.some.injEq, Prod.mk.injEq] at hw
          rw [← hw.2] at hg; exact hg
        | ok data =>
          simp only at hw
          by_cases hb : (getOffset index).toNat < pg.bitmap.length
          · rw [if_pos hb] at hw
            simp only [Option.some.injEq, Prod.mk.injEq] at hw
            rw [← hw.2] at hg; exact hg
          · rw [if_neg hb] at hw; cases hw

/-- A failed stream stays failed across `readValue`. -/
theorem readValue_good (vm vm1 : VirtualMemory) (index : Int) (value out : List Nat)
    (now : Int) (st : Status)
    (hw : vm.readValue index value now = some (st, out, vm1))
    (hg : vm1.fileGood = true) : vm.fileGood = true := by
  unfold readValue at hw
  by_cases hr : index < 0 ∨ index ≥ vm.arraySize
  · rw [if_pos hr] at hw
    simp only [Option.some.injEq, Prod.mk.injEq] at hw
    rw [← hw.2.2] at hg; exact hg
  · rw [if_neg hr] at hw
    dsimp only at hw
    apply getPage_good vm (getPageIndex index) now
    cases hgp : getPage vm (getPageIndex index) now with
    | mk vm2 r =>
      rw [hgp] at hw
      cases r with
      | none =>
        simp only [Option.some.injEq, Prod.mk.injEq] at hw
        rw [← hw.2.2] at hg; exact hg
      | some k =>
        simp only at hw
        cases hpage : vm2.buffer[k]? with
        | none => rw [hpage] at hw; cases hw
        | some page =>
          rw [hpage] at hw
          simp only at hw
          cases hd : decode vm2.arrayType page.data (getOffset index).toNat value with
          | none => rw [hd] at hw; cases hw
          | some o =>
            rw [hd] at hw
            simp only [Option.some.injEq, Prod.mk.injEq] at hw
            rw [← hw.2.2] at hg; exact hg

end VirtualMemory

/-- Every reachable state whose stream has not failed is coherent: resident pages have
`PAGE_SIZE` bytes, lie inside the file, have distinct numbers, and an unmodified
resident page holds exactly the bytes of its file region. -/
theorem coherent_of_reachable (vm : VirtualMemory) (h : Reachable vm)
    (hg : vm.fileGood = true) : Coherent vm := by
  induction h with
  | ctor disk size type strLen vm hc =>
    exact (VirtualMemory.ctor_opened disk size type strLen vm hc).1
  | writeValue vm index value now1 now2 st vm1 _ hw ih =>
    exact VirtualMemory.writeValue_keeps_coherent vm vm1 index value now1 now2 st
      (ih (VirtualMemory.writeValue_good vm vm1 index value now1 now2 st hw hg)) hw hg
  | readValue vm index value now st out vm1 _ hr ih =>
    exact VirtualMemory.readValue_keeps_coherent vm vm1 index value out now st
      (ih (VirtualMemory.readValue_good vm vm1 index value out now st hr hg)) hr hg
  | operatorIndex vm index now out vm1 _ ho ih =>
    unfold VirtualMemory.operatorIndex at ho
    cases hr : vm.readValue index [] now with
    | none => rw [hr] at ho; cases ho
    | some r =>
      obtain ⟨st, value, vm2⟩ := r
      rw [hr] at ho
      have hvm : vm2 = vm1 := by
        simp only at ho
        split at ho <;>
        · simp only [Option.some.injEq, Prod.mk.injEq] at ho
          exact ho.2
      subst hvm
      exact VirtualMemory.readValue_keeps_coherent vm vm2 index [] value now st
        (ih (VirtualMemory.readValue_good vm vm2 index [] value now st hr hg)) hr hg
  | flushBuffer vm _ ih =>
    have hg0 : vm.fileGood = true := by
      by_contra hne
      have hb : vm.fileGood = false := by simpa using hne
      simp only [VirtualMemory.flushBuffer, hb, VirtualMemory.flushPages_bad] at hg
      cases hg
    exact (VirtualMemory.flushBuffer_coherent vm (ih hg0)).1

/-- For a size between 0 and (2^31 - 1) * 512 the page count fits an `int` and the pages
cover every valid index. -/
theorem VirtualMemory.ctor_covers (disk : Option (List Nat)) (size : Int) (type : String)
    (strLen : Int) (vm : VirtualMemory) (h : VirtualMemory.ctor disk size type strLen = some vm)
    (h0 : 0 ≤ size) (h1 : size ≤ 1099511627264) : vm.arraySize ≤ vm.numPages * 512 := by
  obtain ⟨-, -, c3, -, -, c6, -⟩ := VirtualMemory.ctor_fields disk size type strLen vm h
  rw [c3, c6]
  unfold wrap32 toSizeT
  omega

/-- C11 (create / recreate layout, amended): for an array size between 0 and
(2^31 - 1) * 512, when the constructor finds no file, or a file on which the signature
comparison fails (the first byte is not 'V', or the first byte is 'V' and the second
byte is not 'M'), the file afterwards is the two signature bytes followed by
`numPages * PAGE_SIZE` zero bytes with `numPages = ceil(arraySize / PAGE_SIZE)`, whatever
the file held before; its length is `2 + numPages * PAGE_SIZE` and the buffer is empty.
When the first two bytes are the signature, the bytes of the file are left unchanged. -/
theorem create_layout (disk : Option (List Nat)) (size : Int) (type : String) (strLen : Int)
    (h0 : 0 ≤ size) (h1 : size ≤ 1099511627264) :
    ((disk = none ∨
        (∃ (content : List Nat) (b0 : Nat),
          disk = some content ∧ content[0]? = some b0 ∧ b0 ≠ 86) ∨
        (∃ (content : List Nat) (b1 : Nat),
          disk = some content ∧ content[0]? = some 86 ∧ content[1]? = some b1 ∧ b1 ≠ 77)) →
      ∃ vm, VirtualMemory.ctor disk size type strLen = some vm ∧
        vm.numPages = (size + 511) / 512 ∧
        vm.file = [86, 77] ++ List.replicate (vm.numPages.toNat * PAGE_SIZE) 0 ∧
        (vm.file.length : Int) = 2 + vm.numPages * 512 ∧ vm.buffer = []) ∧
    (∀ content, disk = some content → content.take 2 = SIGNATURE →
      ∃ vm, VirtualMemory.ctor disk size type strLen = some vm ∧ vm.file = content ∧
        vm.buffer = []) := by
  have hnum : wrap32 (toSizeT (toSizeT size + 512 - 1) / 512) = (size + 511) / 512 := by
    unfold wrap32 toSizeT; omega
  have hpos : 0 ≤ (size + 511) / 512 := by omega
  have hfresh : ∀ n : Int, 0 ≤ n →
      ((VirtualMemory.createFile n).length : Int) = 2 + n * 512 := by
    intro n hn
    simp only [VirtualMemory.createFile, SIGNATURE, PAGE_SIZE, List.length_append,
      List.length_cons, List.length_nil, List.length_replicate]
    omega
  have hnone : ∃ vm, VirtualMemory.ctor none size type strLen = some vm ∧
      vm.numPages = (size + 511) / 512 ∧
      vm.file = [86, 77] ++ List.replicate (vm.numPages.toNat * PAGE_SIZE) 0 ∧
      (vm.file.length : Int) = 2 + vm.numPages * 512 ∧ vm.buffer = [] := by
    refine ⟨_, rfl, hnum, ?_, ?_, rfl⟩
    · rfl
    · simp only [hnum]
      exact hfresh _ hpos
  constructor
  · intro h
    rcases h with h | ⟨content, b0, h, hb0, hne⟩ | ⟨content, b1, h, hb0, hb1, hne⟩
    · subst h
      exact hnone
    · subst h
      rw [VirtualMemory.ctor_first content b0 size type strLen hb0 hne]
      exact hnone
    · subst h
      rw [VirtualMemory.ctor_second content b1 size type strLen hb0 hb1 hne]
      exact hnone
  · intro content h hsig
    subst h
    exact ⟨_, VirtualMemory.ctor_signed content size type strLen hsig, rfl, rfl⟩

/-- Witness of C11: size 1000 gives two pages; a file starting with "XY" and the
one-byte file "X" are both replaced by the signature and 1024 zero bytes, and so is the
file "VX"; a file starting with the signature is kept. -/
theorem create_layout_witness :
    (∃ vm, VirtualMemory.ctor (some [88, 89, 1, 2, 3]) 1000 "int" 0 = some vm ∧
        vm.numPages = (1000 + 511) / 512 ∧
        vm.file = [86, 77] ++ List.replicate (vm.numPages.toNat * PAGE_SIZE) 0 ∧
        (vm.file.length : Int) = 2 + vm.numPages * 512 ∧ vm.buffer = []) ∧
    (∃ vm, VirtualMemory.ctor (some [88]) 1000 "int" 0 = some vm ∧
        vm.numPages = (1000 + 511) / 512 ∧
        vm.file = [86, 77] ++ List.replicate (vm.numPages.toNat * PAGE_SIZE) 0 ∧
        (vm.file.length : Int) = 2 + vm.numPages * 512 ∧ vm.buffer = []) ∧
    (∃ vm, VirtualMemory.ctor (some [86, 88]) 1000 "int" 0 = some vm ∧
        vm.numPages = (1000 + 511) / 512 ∧
        vm.file = [86, 77] ++ List.replicate (vm.numPages.toNat * PAGE_SIZE) 0 ∧
        (vm.file.length : Int) = 2 + vm.numPages * 512 ∧ vm.buffer = []) ∧
    (∃ vm, VirtualMemory.ctor (some [86, 77, 1, 2, 3]) 1000 "int" 0 = some vm ∧
        vm.file = [86, 77, 1, 2, 3] ∧ vm.buffer = []) :=
  ⟨(create_layout (some [88, 89, 1, 2, 3]) 1000 "int" 0 (by decide) (by decide)).1
      (Or.inr (Or.inl ⟨[88, 89, 1, 2, 3], 88, rfl, rfl, by decide⟩)),
    (create_layout (some [88]) 1000 "int" 0 (by decide) (by decide)).1
      (Or.inr (Or.inl ⟨[88], 88, rfl, rfl, by decide⟩)),
    (create_layout (some [86, 88]) 1000 "int" 0 (by decide) (by decide)).1
      (Or.inr (Or.inr ⟨[86, 88], 88, rfl, rfl, rfl, by decide⟩)),
    (create_layout (some [86, 77, 1, 2, 3]) 1000 "int" 0 (by decide) (by decide)).2
      [86, 77, 1, 2, 3] rfl (by decide)⟩

/-- Counterexample to C11 as stated: (1) size -1000: `numPages` is -1, the created file
is the two signature bytes, and its length 2 is not `2 + numPages * PAGE_SIZE`;
(2) size 2^40: `ceil(arraySize / PAGE_SIZE)` is 2^31, which does not fit the `int`
`numPages`: it becomes -2^31 and the created file holds no page. -/
theorem create_layout_counterexample :
    ((VirtualMemory.ctor none (-1000) "int" 0).map
        (fun vm => (vm.numPages, vm.file))) = some (-1, [86, 77]) ∧
    ((VirtualMemory.ctor none 1099511627776 "int" 0).map
        (fun vm => (vm.numPages, vm.file))) = some (-2147483648, [86, 77]) ∧
    (1099511627776 + 511 : Int) / 512 = 2147483648 := by
  decide!

/-- C12 (address translation stays inside the file): for an array size whose page
count fits an `int` and every index with `0 ≤ index < size`, the page number is
`index / 512`, the offset is `index % 512`, so `0 ≤ offset < 512` and
`page * 512 + offset = index`; the page number is below
`numPages = ceil(size / 512)`; the region of the page lies wholly inside a created
file, the read of the page succeeds, and `getPage` returns a page in every coherent
state on a file of that length. -/
theorem address_translation (disk : Option (List Nat)) (size : Int) (type : String)
    (strLen : Int) (vm : VirtualMemory) (index : Int)
    (hctor : VirtualMemory.ctor disk size type strLen = some vm)
    (hfresh : vm.file = VirtualMemory.createFile vm.numPages)
    (hfit : (size + 511) / 512 ≤ 2147483647)
    (h0 : 0 ≤ index) (h1 : index < size) :
    VirtualMemory.getPageIndex index = index / 512 ∧
    VirtualMemory.getOffset index = index % 512 ∧
    0 ≤ VirtualMemory.getOffset index ∧ VirtualMemory.getOffset index < 512 ∧
    VirtualMemory.getPageIndex index * 512 + VirtualMemory.getOffset index = index ∧
    vm.numPages = (size + 511) / 512 ∧
    0 ≤ VirtualMemory.getPageIndex index ∧ VirtualMemory.getPageIndex index < vm.numPages ∧
    (2 + (VirtualMemory.getPageIndex index + 1) * 512 ≤ (vm.file.length : Int)) ∧
    streamRead vm.file vm.fileGood (2 + VirtualMemory.getPageIndex index * 512) PAGE_SIZE
      = some (fileRegion vm.file (VirtualMemory.getPageIndex index)) ∧
    (∀ vm1 now, Coherent vm1 → vm1.file.length = vm.file.length →
      (VirtualMemory.getPage vm1 (VirtualMemory.getPageIndex index) now).2 ≠ none) := by
  obtain ⟨c1, -, -, -, -, c6, -, -, -⟩ := VirtualMemory.ctor_fields disk size type strLen vm hctor
  have hnum : vm.numPages = (size + 511) / 512 := by
    rw [c6]; unfold wrap32 toSizeT; omega
  have hp : VirtualMemory.getPageIndex index = index / 512 := by
    unfold VirtualMemory.getPageIndex wrap32 toSizeT; omega
  have ho : VirtualMemory.getOffset index = index % 512 := by
    unfold VirtualMemory.getOffset wrap32 toSizeT; omega
  have hlen : (vm.file.length : Int) = 2 + vm.numPages * 512 := by
    rw [hfresh]
    simp only [VirtualMemory.createFile, SIGNATURE, PAGE_SIZE, List.length_append,
      List.length_cons, List.length_nil, List.length_replicate]
    omega
  have hin : InFile vm.file (VirtualMemory.getPageIndex index) := by
    refine ⟨by omega, ?_⟩
    omega
  refine ⟨hp, ho, by omega, by omega, by omega, hnum, by omega, by omega, by omega, ?_, ?_⟩
  · rw [c1]; exact streamRead_inFile _ _ hin
  · intro vm1 now hc hl
    obtain ⟨k, pg, g1, -⟩ := VirtualMemory.getPage_coherent vm1 hc
      (VirtualMemory.getPageIndex index) now ⟨hin.1, by rw [hl]; exact hin.2⟩
    rw [g1]; simp

/-- Witness of C12: size 2048 (four pages), index 1800: page 3, offset 264. -/
theorem address_translation_witness :
    VirtualMemory.getPageIndex 1800 = 3 ∧ VirtualMemory.getOffset 1800 = 264 ∧
    exampleInt.numPages = 4 ∧
    VirtualMemory.getPageIndex 1800 = 1800 / 512 ∧
    VirtualMemory.getOffset 1800 = 1800 % 512 ∧
    VirtualMemory.getPageIndex 1800 < exampleInt.numPages ∧
    (VirtualMemory.getPage exampleAfter (VirtualMemory.getPageIndex 1800) 20).2 ≠ none :=
  have h := address_translation none 2048 "int" 0 exampleInt 1800 rfl rfl (by decide)
    (by decide) (by decide)
  ⟨by decide, by decide, by decide, h.1, h.2.1, h.2.2.2.2.2.2.2.1,
    h.2.2.2.2.2.2.2.2.2.2 exampleAfter 20 (by decide!) (by decide!)⟩

/-- C13 (encode post-state, amended): after every successful `writeValue` the target
page is resident with `modified = true` and `lastAccess` equal to the clock value read
after the store; its written-marker is set at the offset of the index, and at every
other offset the marker is what it was when `getPage` returned the page. -/
theorem encode_post_state (vm vm1 : VirtualMemory) (index : Int) (value : List Nat)
    (now1 now2 : Int) (hw : vm.writeValue index value now1 now2 = some (.ok, vm1)) :
    ∃ (k : Nat) (pg pg1 : Page),
      (VirtualMemory.getPage vm (VirtualMemory.getPageIndex index) now1).1.buffer[k]? = some pg ∧
      vm1.buffer[k]? = some pg1 ∧
      pg1.absoluteNumber = VirtualMemory.getPageIndex index ∧
      pg1.modified = true ∧ pg1.lastAccess = now2 ∧
      pg1.bitmap[(VirtualMemory.getOffset index).toNat]? = some true ∧
      ∀ j, j ≠ (VirtualMemory.getOffset index).toNat → pg1.bitmap[j]? = pg.bitmap[j]? := by
  have hv : 0 ≤ index ∧ index < vm.arraySize := by
    by_contra hneg
    have hr : index < 0 ∨ index ≥ vm.arraySize := by omega
    unfold VirtualMemory.writeValue at hw
    rw [if_pos hr] at hw
    simp only [Option.some.injEq, Prod.mk.injEq] at hw
    exact absurd hw.1 (by decide)
  rcases VirtualMemory.writeValue_valid vm index value now1 now2 hv with
    ⟨-, h⟩ | ⟨k, pg, -, hk, hnum, h⟩
  · rw [h] at hw
    simp only [Option.some.injEq, Prod.mk.injEq] at hw
    exact absurd hw.1 (by decide)
  · rw [h] at hw
    have hklt : k < (VirtualMemory.getPage vm (VirtualMemory.getPageIndex index) now1).1.buffer.length := by
      by_contra hge
      rw [List.getElem?_eq_none (by omega)] at hk
      cases hk
    cases he : VirtualMemory.encode vm.arrayType vm.stringLength pg.data
        (VirtualMemory.getOffset index).toNat value with
    | none => rw [he] at hw; cases hw
    | some r =>
      rw [he] at hw
      cases r with
      | error e =>
        simp only [Option.some.injEq, Prod.mk.injEq] at hw
        have hfb : fieldBytes vm.arrayType vm.stringLength value = .error e := by
          rw [VirtualMemory.encode_eq] at he
          cases hf : fieldBytes vm.arrayType vm.stringLength value with
          | error e' =>
            rw [hf] at he
            simp only [Option.some.injEq, Except.error.injEq] at he
            rw [he]
          | ok ob =>
            rw [hf] at he
            cases ob with
            | none => simp at he
            | some bytes =>
              simp only at he
              split at he
              · simp at he
              · cases he
        rw [hw.1] at hfb
        rcases fieldBytes_error _ _ _ _ hfb with h | h | h <;> cases h
      | ok data =>
        simp only at hw
        by_cases hb : (VirtualMemory.getOffset index).toNat < pg.bitmap.length
        · rw [if_pos hb] at hw
          simp only [Option.some.injEq, Prod.mk.injEq, true_and] at hw
          refine ⟨k, pg,
            { pg with data := data, modified := true, lastAccess := now2,
                      bitmap := pg.bitmap.set (VirtualMemory.getOffset index).toNat true },
            hk, ?_, hnum, rfl, rfl, ?_, ?_⟩
          · rw [← hw]
            simp only [List.getElem?_set, if_true, if_pos hklt]
          · simp only [List.getElem?_set, if_true, if_pos hb]
          · intro j hj
            simp only [List.getElem?_set]
            rw [if_neg (fun h => hj h.symm)]
        · rw [if_neg hb] at hw; cases hw

/-- Witness of C13: `writeValue(0, "42")` on a fresh `int` array succeeds; page 0 is then
resident, modified, with the time of the store and the marker set at offset 0. -/
theorem encode_post_state_witness :
    exampleSmall.writeValue 0 (ascii "42") 1 2 = some (.ok, exampleWritten) ∧
    ∃ (k : Nat) (pg pg1 : Page),
      (VirtualMemory.getPage exampleSmall (VirtualMemory.getPageIndex 0) 1).1.buffer[k]?
        = some pg ∧
      exampleWritten.buffer[k]? = some pg1 ∧
      pg1.absoluteNumber = VirtualMemory.getPageIndex 0 ∧
      pg1.modified = true ∧ pg1.lastAccess = 2 ∧
      pg1.bitmap[(VirtualMemory.getOffset 0).toNat]? = some true ∧
      ∀ j, j ≠ (VirtualMemory.getOffset 0).toNat → pg1.bitmap[j]? = pg.bitmap[j]? :=
  ⟨by decide!, encode_post_state exampleSmall exampleWritten 0 (ascii "42") 1 2 (by decide!)⟩

/-- Counterexample to C13 as stated: `writeValue(0, "42")` on a fresh `int` array stores
four bytes at offsets 0..3, yet only the marker at offset 0 is set. -/
theorem encode_post_state_counterexample :
    exampleSmall.writeValue 0 (ascii "42") 1 2 = some (.ok, exampleWritten) ∧
    exampleWritten.buffer.map (fun pg => (pg.data.take 4, pg.bitmap.take 4))
      = [([42, 0, 0, 0], [true, false, false, false])] := by
  decide!

theorem streamRead_length (content : List Nat) (good : Bool) (pos : Int) (n : Nat)
    (bytes : List Nat) (h : streamRead content good pos n = some bytes) : bytes.length = n := by
  unfold streamRead at h
  split at h
  · rename_i hc
    simp only [Option.some.injEq] at h
    rw [← h]
    simp only [List.length_take, List.length_drop]
    omega
  · cases h

namespace VirtualMemory

theorem evictPage_bad (vm : VirtualMemory) (hb : vm.fileGood = false) :
    (evictPage vm).file = vm.file ∧ (evictPage vm).fileGood = false := by
  unfold evictPage
  split
  · exact ⟨rfl, hb⟩
  · simp only [streamWrite, hb]
    split <;> exact ⟨rfl, rfl⟩

/-- The pages in the buffer after `getPage` have `PAGE_SIZE` data bytes and markers when
the pages before had. -/
theorem getPage_sized (vm : VirtualMemory) (p now : Int) (h : Sized vm.buffer) :
    Sized (getPage vm p now).1.buffer := by
  cases hf : findPageInBuffer now p vm.buffer with
  | some r =>
    obtain ⟨i, buf⟩ := r
    rw [getPage_hit vm p now i buf hf]
    obtain ⟨pg, h1, h2, h3, -⟩ := findPageInBuffer_some now p vm.buffer i buf hf
    obtain ⟨A, B, hAB, hl⟩ := List.split_at_getElem? _ _ _ h1
    have hbuf : buf = A ++ { pg with lastAccess := now } :: B := by
      rw [h3, hAB, ← hl, List.set_append_cons]
    intro pg' hpg'
    simp only [hbuf] at hpg'
    rcases List.mem_append.1 hpg' with h' | h'
    · exact h pg' (by rw [hAB]; exact List.mem_append_left _ h')
    · rcases List.mem_cons.1 h' with h' | h'
      · rw [h']
        exact h pg (by rw [hAB]; simp)
      · exact h pg' (by rw [hAB]; exact List.mem_append_right _ (List.mem_cons_of_mem _ h'))
  | none =>
    rw [getPage_miss vm p now hf]
    have key : Sized (if vm.buffer.length ≥ bufferCapacity then evictPage vm else vm).buffer := by
      split
      · intro pg hpg
        rw [evictPage_buffer] at hpg
        exact h pg ((List.eraseIdx_sublist _ _).subset hpg)
      · exact h
    generalize (if vm.buffer.length ≥ bufferCapacity then evictPage vm else vm) = vm1 at key
    cases hr : streamRead vm1.file vm1.fileGood (2 + p * 512) PAGE_SIZE with
    | none => exact key
    | some bytes =>
      intro pg' hpg'
      rcases List.mem_append.1 hpg' with h' | h'
      · exact key pg' h'
      · rw [List.mem_singleton.1 h']
        refine ⟨streamRead_length _ _ _ _ _ hr, ?_⟩
        show (List.replicate PAGE_SIZE false).length = 512
        rw [List.length_replicate]
        rfl

/-- On a failed stream `getPage` returns a page only when that page is resident: the
state changes in the access time of that page alone. -/
theorem getPage_bad_some (vm : VirtualMemory) (p now : Int) (k : Nat)
    (hb : vm.fileGood = false) (h : (getPage vm p now).2 = some k) :
    ∃ pg, vm.buffer[k]? = some pg ∧ pg.absoluteNumber = p ∧
      getPage vm p now =
        ({ vm with buffer := vm.buffer.set k { pg with lastAccess := now } }, some k) := by
  cases hf : findPageInBuffer now p vm.buffer with
  | some r =>
    obtain ⟨i, buf⟩ := r
    rw [getPage_hit vm p now i buf hf] at h ⊢
    simp only [Option.some.injEq] at h
    subst h
    obtain ⟨pg, h1, h2, h3, -⟩ := findPageInBuffer_some now p vm.buffer i buf hf
    exact ⟨pg, h1, h2, by rw [h3]⟩
  | none =>
    rw [getPage_miss vm p now hf] at h
    have key : (if vm.buffer.length ≥ bufferCapacity then evictPage vm else vm).fileGood
        = false := by
      split
      · exact (evictPage_bad vm hb).2
      · exact hb
    generalize (if vm.buffer.length ≥ bufferCapacity then evictPage vm else vm) = vm1 at key h
    have hr : streamRead vm1.file vm1.fileGood (2 + p * 512) PAGE_SIZE = none := by
      simp [streamRead, key]
    rw [hr] at h
    cases h

end VirtualMemory

/-- Replacing the page at position `k` by a page with the same number: the logical
content of that page becomes the data of the new page and the logical content of every
other page is kept. -/
theorem views_set (vm : VirtualMemory) (k : Nat) (pg pg1 : Page)
    (hk : vm.buffer[k]? = some pg) (hnum : pg1.absoluteNumber = pg.absoluteNumber) :
    Views { vm with buffer := vm.buffer.set k pg1 } pg.absoluteNumber pg1.data ∧
      (∀ q d, q ≠ pg.absoluteNumber → Views vm q d →
        Views { vm with buffer := vm.buffer.set k pg1 } q d) := by
  obtain ⟨A, B, hAB, hlen⟩ := List.split_at_getElem? _ _ _ hk
  have hbuf : vm.buffer.set k pg1 = A ++ pg1 :: B := by
    rw [hAB, ← hlen, List.set_append_cons]
  rw [hbuf]
  refine ⟨?_, ?_⟩
  · left; exact ⟨pg1, by simp, hnum, rfl⟩
  · intro q d hq hv
    rcases hv with ⟨pg', g1, g2, g3⟩ | ⟨g1, g2⟩
    · left
      rw [hAB] at g1
      rcases List.mem_append.1 g1 with h | h
      · exact ⟨pg', List.mem_append_left _ h, g2, g3⟩
      · rcases List.mem_cons.1 h with h | h
        · rw [h] at g2; exact absurd g2.symm hq
        · exact ⟨pg', List.mem_append_right _ (List.mem_cons_of_mem _ h), g2, g3⟩
    · right
      refine ⟨?_, g2⟩
      intro pg' hpg'
      simp only at hpg'
      rcases List.mem_append.1 hpg' with h | h
      · exact g1 pg' (by rw [hAB]; exact List.mem_append_left _ h)
      · rcases List.mem_cons.1 h with h | h
        · rw [h, hnum]; exact fun he => hq he.symm
        · exact g1 pg' (by rw [hAB]; exact List.mem_append_right _ (List.mem_cons_of_mem _ h))

/-- Replacing the page at position `k` by a page with the same number and the same data
keeps the logical content of every page. -/
theorem views_set_same (vm : VirtualMemory) (k : Nat) (pg pg1 : Page)
    (hk : vm.buffer[k]? = some pg) (hnum : pg1.absoluteNumber = pg.absoluteNumber)
    (hdata : pg1.data = pg.data) (q : Int) (d : List Nat) (hv : Views vm q d) :
    Views { vm with buffer := vm.buffer.set k pg1 } q d := by
  by_cases hq : q = pg.absoluteNumber
  · obtain ⟨A, B, hAB, hlen⟩ := List.split_at_getElem? _ _ _ hk
    have hbuf : vm.buffer.set k pg1 = A ++ pg1 :: B := by
      rw [hAB, ← hlen, List.set_append_cons]
    rw [hbuf]
    rcases hv with ⟨pg', g1, g2, g3⟩ | ⟨g1, g2⟩
    · left
      rw [hAB] at g1
      rcases List.mem_append.1 g1 with h | h
      · exact ⟨pg', List.mem_append_left _ h, g2, g3⟩
      · rcases List.mem_cons.1 h with h | h
        · rw [h] at g3
          exact ⟨pg1, by simp, by rw [hnum, hq], by rw [hdata]; exact g3⟩
        · exact ⟨pg', List.mem_append_right _ (List.mem_cons_of_mem _ h), g2, g3⟩
    · exact absurd hq.symm (g1 pg (by rw [hAB]; simp))
  · exact (views_set vm k pg pg1 hk hnum).2 q d hq hv

/-- With distinct page numbers in the buffer, the logical content of the page of a
resident page is the data of that page. -/
theorem views_resident_nodup (vm : VirtualMemory)
    (hnd : (vm.buffer.map (fun pg => pg.absoluteNumber)).Nodup) (pg : Page)
    (hpg : pg ∈ vm.buffer) (d : List Nat) (hv : Views vm pg.absoluteNumber d) : pg.data = d := by
  rcases hv with ⟨pg', h1, h2, h3⟩ | ⟨h1, _⟩
  · have := List.inj_on_of_nodup_map hnd hpg h1 h2.symm
    rw [this]; exact h3
  · exact absurd rfl (h1 pg hpg)

namespace VirtualMemory

/-- The page `getPage` returns, in a coherent state or on a failed stream whose buffer
is well formed: it has `PAGE_SIZE` data bytes and markers, its data are the logical
content of the requested page, and the logical content of every page is kept. -/
theorem getPage_some (vm : VirtualMemory) (p now : Int) (k : Nat) (pg : Page)
    (hinv : Coherent vm ∨ (vm.fileGood = false ∧ Sized vm.buffer ∧
      (vm.buffer.map (fun pg => pg.absoluteNumber)).Nodup))
    (h2 : (getPage vm p now).2 = some k) (hk : (getPage vm p now).1.buffer[k]? = some pg) :
    pg.absoluteNumber = p ∧ pg.data.length = 512 ∧ pg.bitmap.length = 512 ∧
      (∀ d, Views vm p d → pg.data = d) ∧
      (∀ q c, 0 ≤ q → Views vm q c → Views (getPage vm p now).1 q c) ∧
      (vm.fileGood = true → InFile vm.file p) := by
  rcases hinv with hc | ⟨hb, hsz, hnd⟩
  · have hin : InFile vm.file p := by
      by_contra hneg
      rw [(getPage_not_inFile vm hc p now hneg).1] at h2
      cases h2
    obtain ⟨k', pg', g1, g2, g3, g4, -, g6, -, -, g9, -⟩ := getPage_coherent vm hc p now hin
    rw [h2] at g1
    simp only [Option.some.injEq] at g1
    subst g1
    rw [hk] at g2
    simp only [Option.some.injEq] at g2
    subst g2
    have hok := g6.2.1 pg (List.mem_iff_getElem?.2 ⟨k, hk⟩)
    exact ⟨g3, hok.1, hok.2.1, fun d hd => Views_unique vm hc _ _ _ g4 hd, g9, fun _ => hin⟩
  · obtain ⟨pg0, g1, g2, g3⟩ := getPage_bad_some vm p now k hb h2
    rw [g3] at hk ⊢
    simp only at hk ⊢
    obtain ⟨A, B, hAB, hlen⟩ := List.split_at_getElem? _ _ _ g1
    rw [hAB, ← hlen, List.set_append_cons, List.getElem?_append_cons] at hk
    simp only [Option.some.injEq] at hk
    subst hk
    have hmem : pg0 ∈ vm.buffer := List.mem_iff_getElem?.2 ⟨k, g1⟩
    refine ⟨g2, (hsz pg0 hmem).1, (hsz pg0 hmem).2, ?_, ?_, ?_⟩
    · intro d hd
      exact views_resident_nodup vm hnd pg0 hmem d (by rw [g2]; exact hd)
    · intro q c _ hv
      exact views_set_same vm k pg0 { pg0 with lastAccess := now } g1 rfl rfl q c hv
    · intro hg
      rw [hb] at hg
      cases hg

end VirtualMemory

namespace VirtualMemory

/-- A successful `writeValue`, in any state: the index is valid, `getPage` returned a
page, the value passed the validation of the element type, the bytes stored lie inside
the data of the page, and the new state is the state left by `getPage` with the page
rewritten at its position. -/
theorem writeValue_ok (vm vm1 : VirtualMemory) (index : Int) (value : List Nat)
    (now1 now2 : Int) (hw : vm.writeValue index value now1 now2 = some (.ok, vm1)) :
    (0 ≤ index ∧ index < vm.arraySize) ∧
    ∃ (k : Nat) (pg : Page) (stored : Option (List Nat)),
      (getPage vm (getPageIndex index) now1).2 = some k ∧
      (getPage vm (getPageIndex index) now1).1.buffer[k]? = some pg ∧
      fieldBytes vm.arrayType vm.stringLength value = .ok stored ∧
      (∀ bytes, stored = some bytes → (getOffset index).toNat + bytes.length ≤ pg.data.length) ∧
      vm1 = { (getPage vm (getPageIndex index) now1).1 with
        buffer := (getPage vm (getPageIndex index) now1).1.buffer.set k
          { pg with data := writeBytes pg.data (getOffset index).toNat (stored.getD []),
                    modified := true, lastAccess := now2,
                    bitmap := pg.bitmap.set (getOffset index).toNat true } } := by
  have hv : 0 ≤ index ∧ index < vm.arraySize := by
    by_contra hneg
    have hr : index < 0 ∨ index ≥ vm.arraySize := by omega
    unfold writeValue at hw
    rw [if_pos hr] at hw
    simp only [Option.some.injEq, Prod.mk.injEq] at hw
    exact absurd hw.1 (by decide)
  refine ⟨hv, ?_⟩
  rcases writeValue_valid vm index value now1 now2 hv with ⟨-, h⟩ | ⟨k, pg, h0, h1, -, h⟩
  · rw [h] at hw
    simp only [Option.some.injEq, Prod.mk.injEq] at hw
    exact absurd hw.1 (by decide)
  · rw [h, encode_eq] at hw
    cases hfb : fieldBytes vm.arrayType vm.stringLength value with
    | error e =>
      rw [hfb] at hw
      simp only [Option.some.injEq, Prod.mk.injEq] at hw
      have := hw.1
      subst this
      rcases fieldBytes_error _ _ _ _ hfb with h | h | h <;> cases h
    | ok ob =>
      rw [hfb] at hw
      cases ob with
      | none =>
        simp only at hw
        by_cases hb : (getOffset index).toNat < pg.bitmap.length
        · rw [if_pos hb] at hw
          simp only [Option.some.injEq, Prod.mk.injEq, true_and] at hw
          refine ⟨k, pg, none, h0, h1, rfl, (fun bytes hbs => by cases hbs), ?_⟩
          have hid : writeBytes pg.data (getOffset index).toNat [] = pg.data := by
            simp [writeBytes]
          simp only [Option.getD_none, hid]
          exact hw.symm
        · rw [if_neg hb] at hw; cases hw
      | some bytes =>
        simp only at hw
        by_cases hf : (getOffset index).toNat + bytes.length ≤ pg.data.length
        · rw [if_pos hf] at hw
          simp only at hw
          by_cases hb : (getOffset index).toNat < pg.bitmap.length
          · rw [if_pos hb] at hw
            simp only [Option.some.injEq, Prod.mk.injEq, true_and] at hw
            refine ⟨k, pg, some bytes, h0, h1, rfl, ?_, hw.symm⟩
            intro bs hbs
            simp only [Option.some.injEq] at hbs
            rw [← hbs]; exact hf
          · rw [if_neg hb] at hw; cases hw
        · rw [if_neg hf] at hw; cases hw

/-- `readValue` at a valid index, in any state, spelled out along the result of
`getPage`. -/
theorem readValue_valid (vm : VirtualMemory) (index : Int) (value : List Nat)
    (now : Int) (hv : 0 ≤ index ∧ index < vm.arraySize) :
    ((getPage vm (getPageIndex index) now).2 = none ∧
      vm.readValue index value now
        = some (.noPage, value, (getPage vm (getPageIndex index) now).1)) ∨
    (∃ k pg, (getPage vm (getPageIndex index) now).2 = some k ∧
      (getPage vm (getPageIndex index) now).1.buffer[k]? = some pg ∧
      vm.readValue index value now =
        (decode vm.arrayType pg.data (getOffset index).toNat value).map
          (fun out => (Status.ok, out, (getPage vm (getPageIndex index) now).1))) := by
  have hr : ¬ (index < 0 ∨ index ≥ vm.arraySize) := by omega
  have hp := getPage_params vm (getPageIndex index) now
  cases hgp : (getPage vm (getPageIndex index) now).2 with
  | none =>
    left
    refine ⟨rfl, ?_⟩
    unfold readValue
    rw [if_neg hr]
    dsimp only
    cases hg : getPage vm (getPageIndex index) now with
    | mk vm2 r =>
      rw [hg] at hgp
      simp only at hgp
      subst hgp
      rfl
  | some k =>
    right
    obtain ⟨pg, g1, -⟩ := getPage_result vm (getPageIndex index) now k hgp
    refine ⟨k, pg, rfl, g1, ?_⟩
    unfold readValue
    rw [if_neg hr]
    dsimp only
    cases hg : getPage vm (getPageIndex index) now with
    | mk vm2 r =>
      rw [hg] at hgp g1 hp
      simp only at hgp g1
      subst hgp
      have ht : vm2.arrayType = vm.arrayType := hp.2.2.1
      simp only [g1, ht]
      generalize decode vm.arrayType pg.data (getOffset index).toNat value = dec
      cases dec with
      | none => rfl
      | some out => rfl

/-- The pages keep `PAGE_SIZE` data bytes and markers across `writeValue`. -/
theorem writeValue_sized (vm : VirtualMemory) (index : Int) (value : List Nat)
    (now1 now2 : Int) (st : Status) (vm1 : VirtualMemory) (h : Sized vm.buffer)
    (hw : vm.writeValue index value now1 now2 = some (st, vm1)) : Sized vm1.buffer := by
  have hg := getPage_sized vm (getPageIndex index) now1 h
  by_cases hst : st = .ok
  · subst hst
    obtain ⟨-, k, pg, stored, -, h1, -, h3, h4⟩ := writeValue_ok vm vm1 index value now1 now2 hw
    rw [h4]
    obtain ⟨A, B, hAB, hlen⟩ := List.split_at_getElem? _ _ _ h1
    have hpg := hg pg (List.mem_iff_getElem?.2 ⟨k, h1⟩)
    intro pg' hpg'
    simp only at hpg'
    rw [hAB, ← hlen, List.set_append_cons] at hpg'
    rcases List.mem_append.1 hpg' with h' | h'
    · exact hg pg' (by rw [hAB]; exact List.mem_append_left _ h')
    · rcases List.mem_cons.1 h' with h' | h'
      · rw [h']
        refine ⟨?_, by simp only [List.length_set]; exact hpg.2⟩
        cases stored with
        | none =>
          have hid : writeBytes pg.data (getOffset index).toNat [] = pg.data := by
            simp [writeBytes]
          simp only [Option.getD_none, hid]
          exact hpg.1
        | some bytes =>
          simp only [Option.getD_some]
          rw [writeBytes_length _ _ _ (h3 bytes rfl)]
          exact hpg.1
      · exact hg pg' (by rw [hAB]; exact List.mem_append_right _ (List.mem_cons_of_mem _ h'))
  · by_cases hr : index < 0 ∨ index ≥ vm.arraySize
    · unfold writeValue at hw
      rw [if_pos hr] at hw
      simp only [Option.some.injEq, Prod.mk.injEq] at hw
      rw [← hw.2]; exact h
    · have hv : 0 ≤ index ∧ index < vm.arraySize := by omega
      rcases writeValue_status vm index value now1 now2 st vm1 hv hw with
        ⟨-, -, h'⟩ | ⟨-, -, h'⟩ | ⟨h', -⟩
      · rw [h']; exact hg
      · rw [h']; exact hg
      · exact absurd h' hst

/-- The pages keep `PAGE_SIZE` data bytes and markers across `readValue`. -/
theorem readValue_sized (vm : VirtualMemory) (index : Int) (value : List Nat)
    (now : Int) (st : Status) (out : List Nat) (vm1 : VirtualMemory) (h : Sized vm.buffer)
    (hr : vm.readValue index value now = some (st, out, vm1)) : Sized vm1.buffer := by
  have hg := getPage_sized vm (getPageIndex index) now h
  by_cases hrg : index < 0 ∨ index ≥ vm.arraySize
  · unfold readValue at hr
    rw [if_pos hrg] at hr
    simp only [Option.some.injEq, Prod.mk.injEq] at hr
    rw [← hr.2.2]; exact h
  · have hv : 0 ≤ index ∧ index < vm.arraySize := by omega
    rcases readValue_valid vm index value now hv with ⟨-, h'⟩ | ⟨k, pg, -, -, h'⟩
    · rw [h'] at hr
      simp only [Option.some.injEq, Prod.mk.injEq] at hr
      rw [← hr.2.2]; exact hg
    · rw [h'] at hr
      cases hd : decode vm.arrayType pg.data (getOffset index).toNat value with
      | none => rw [hd] at hr; cases hr
      | some o =>
        rw [hd] at hr
        simp only [Option.map_some', Option.some.injEq, Prod.mk.injEq] at hr
        rw [← hr.2.2]; exact hg

end VirtualMemory

/-- In every reachable state, good or failed stream, the buffer holds at most
`bufferCapacity` pages with distinct numbers, each with `PAGE_SIZE` data bytes and
markers. -/
theorem resident_of_reachable (vm : VirtualMemory) (h : Reachable vm) :
    BufInv vm.buffer ∧ Sized vm.buffer := by
  induction h with
  | ctor disk size type strLen vm hc =>
    obtain ⟨-, c2, -⟩ := VirtualMemory.ctor_fields disk size type strLen vm hc
    rw [c2]
    exact ⟨⟨by simp, by simp⟩, fun pg hpg => by cases hpg⟩
  | writeValue vm index value now1 now2 st vm1 _ hw ih =>
    exact ⟨VirtualMemory.writeValue_bufInv vm index value now1 now2 st vm1 ih.1 hw,
      VirtualMemory.writeValue_sized vm index value now1 now2 st vm1 ih.2 hw⟩
  | readValue vm index value now st out vm1 _ hr ih =>
    exact ⟨VirtualMemory.readValue_bufInv vm index value now st out vm1 ih.1 hr,
      VirtualMemory.readValue_sized vm index value now st out vm1 ih.2 hr⟩
  | operatorIndex vm index now out vm1 _ ho ih =>
    unfold VirtualMemory.operatorIndex at ho
    cases hr : vm.readValue index [] now with
    | none => rw [hr] at ho; cases ho
    | some r =>
      obtain ⟨st, value, vm2⟩ := r
      rw [hr] at ho
      have hvm : vm2 = vm1 := by
        simp only at ho
        split at ho <;>
        · simp only [Option.some.injEq, Prod.mk.injEq] at ho
          exact ho.2
      subst hvm
      exact ⟨VirtualMemory.readValue_bufInv vm index [] now st value vm2 ih.1 hr,
        VirtualMemory.readValue_sized vm index [] now st value vm2 ih.2 hr⟩
  | flushBuffer vm _ ih => exact ih

/-- A reachable state is coherent, or its stream has failed and its buffer is well
formed. -/
theorem reachable_cases (vm : VirtualMemory) (h : Reachable vm) :
    Coherent vm ∨ (vm.fileGood = false ∧ Sized vm.buffer ∧
      (vm.buffer.map (fun pg => pg.absoluteNumber)).Nodup) := by
  by_cases hg : vm.fileGood = true
  · exact Or.inl (coherent_of_reachable vm h hg)
  · obtain ⟨h1, h2⟩ := resident_of_reachable vm h
    exact Or.inr ⟨by simpa using hg, h2, h1.2⟩

/-- C14 (write frame): a successful `writeValue` in a reachable state (stream good or
failed) stores, in the logical content `d` of the target page, exactly the bytes of the
field at the offsets `[o, o + w)` with `o = index % 512`: the four bytes of the parsed
integer for `int`, the first character (or a zero byte for the empty string) for
`char`, the bytes of the string and one zero byte for `varchar`; the field lies inside
the page, every other byte of the page and the logical content of every other page are
unchanged. -/
theorem write_frame (vm vm1 : VirtualMemory) (hr : Reachable vm) (index : Int)
    (value : List Nat) (now1 now2 : Int) (d : List Nat)
    (hd : Views vm (VirtualMemory.getPageIndex index) d)
    (hw : vm.writeValue index value now1 now2 = some (.ok, vm1)) :
    ∃ stored : Option (List Nat),
      fieldBytes vm.arrayType vm.stringLength value = .ok stored ∧
      (vm.arrayType = "int" → ∃ n, stoi value = .ok n ∧ stored = some (intBytes n)) ∧
      (vm.arrayType = "char" → stored = some [value.headD 0]) ∧
      (vm.arrayType = "varchar" → stored = some (value ++ [0])) ∧
      (index % 512).toNat + (stored.getD []).length ≤ 512 ∧
      Views vm1 (VirtualMemory.getPageIndex index)
        (writeBytes d (index % 512).toNat (stored.getD [])) ∧
      (∀ j, (writeBytes d (index % 512).toNat (stored.getD []))[j]? =
        if (index % 512).toNat ≤ j ∧ j < (index % 512).toNat + (stored.getD []).length
        then (stored.getD [])[j - (index % 512).toNat]? else d[j]?) ∧
      (∀ q c, 0 ≤ q → q ≠ VirtualMemory.getPageIndex index → Views vm q c → Views vm1 q c) := by
  obtain ⟨hv, k, pg, stored, h0, h1, hfb, hfit, hvm1⟩ :=
    VirtualMemory.writeValue_ok vm vm1 index value now1 now2 hw
  obtain ⟨g1, g2, -, g4, g5, -⟩ :=
    VirtualMemory.getPage_some vm (VirtualMemory.getPageIndex index) now1 k pg
      (reachable_cases vm hr) h0 h1
  have hdata : pg.data = d := g4 d hd
  have hdl : d.length = 512 := by rw [← hdata]; exact g2
  have ho : (VirtualMemory.getOffset index).toNat = (index % 512).toNat := by
    rw [VirtualMemory.getOffset_eq]
  have holt : (index % 512).toNat < 512 := by omega
  have hbytes : ∀ bs : List Nat, (index % 512).toNat + bs.length ≤ 512 →
      ∀ j, (writeBytes d (index % 512).toNat bs)[j]? =
        if (index % 512).toNat ≤ j ∧ j < (index % 512).toNat + bs.length
        then bs[j - (index % 512).toNat]? else d[j]? := by
    intro bs hfit j
    rw [getElem?_writeBytes _ _ _ _ (by omega)]
    by_cases h1 : j < (index % 512).toNat
    · rw [if_pos h1, if_neg (by omega)]
    · rw [if_neg h1]
      by_cases h2 : j < (index % 512).toNat + bs.length
      · rw [if_pos h2, if_pos ⟨by omega, h2⟩]
      · rw [if_neg h2, if_neg (by omega)]
  have hkinds : ∀ stored, fieldBytes vm.arrayType vm.stringLength value = .ok stored →
      (vm.arrayType = "int" → ∃ n, stoi value = .ok n ∧ stored = some (intBytes n)) ∧
      (vm.arrayType = "char" → stored = some [value.headD 0]) ∧
      (vm.arrayType = "varchar" → stored = some (value ++ [0])) := by
    intro stored hfb
    refine ⟨?_, ?_, ?_⟩
    · intro ht
      simp only [fieldBytes, if_pos ht] at hfb
      cases hs : stoi value with
      | error e => rw [hs] at hfb; cases e <;> cases hfb
      | ok n =>
        rw [hs] at hfb
        simp only [Except.ok.injEq] at hfb
        exact ⟨n, rfl, hfb.symm⟩
    · intro ht
      have h1 : ¬ vm.arrayType = "int" := by rw [ht]; decide
      simp only [fieldBytes, if_neg h1, if_pos ht, Except.ok.injEq] at hfb
      exact hfb.symm
    · intro ht
      have h1 : ¬ vm.arrayType = "int" := by rw [ht]; decide
      have h2 : ¬ vm.arrayType = "char" := by rw [ht]; decide
      simp only [fieldBytes, if_neg h1, if_neg h2, if_pos ht] at hfb
      split at hfb
      · cases hfb
      · simp only [Except.ok.injEq] at hfb
        exact hfb.symm
  obtain ⟨k1, k2, k3⟩ := hkinds stored hfb
  have hfit512 : (index % 512).toNat + (stored.getD []).length ≤ 512 := by
    cases stored with
    | none => simp only [Option.getD_none, List.length_nil]; omega
    | some bytes =>
      have := hfit bytes rfl
      rw [g2, ho] at this
      exact this
  obtain ⟨s1, s2⟩ := views_set (VirtualMemory.getPage vm (VirtualMemory.getPageIndex index) now1).1
    k pg
    { pg with data := writeBytes pg.data (VirtualMemory.getOffset index).toNat (stored.getD []),
              modified := true, lastAccess := now2,
              bitmap := pg.bitmap.set (VirtualMemory.getOffset index).toNat true } h1 rfl
  refine ⟨stored, hfb, k1, k2, k3, hfit512, ?_, hbytes _ hfit512, ?_⟩
  · have e1 : writeBytes pg.data (VirtualMemory.getOffset index).toNat (stored.getD [])
        = writeBytes d (index % 512).toNat (stored.getD []) := by rw [hdata, ho]
    rw [hvm1, ← e1]
    exact (congrArg (fun q => Views _ q
      (writeBytes pg.data (VirtualMemory.getOffset index).toNat (stored.getD []))) g1).mp s1
  · intro q c hq hne hvq
    rw [hvm1]
    exact s2 q c (by rw [g1]; exact hne) (g5 q c hq hvq)

/-- Witness of C14: (1) `writeValue(0, "42")` on a fresh `int` array turns the zero page
into the page whose first four bytes are 42, 0, 0, 0; (2) on a `char` array whose stream
has failed, with page 0 resident, `writeValue(0, "x")` succeeds and stores the byte 'x'
at offset 0 of page 0. -/
theorem write_frame_witness :
    (Reachable exampleSmall ∧
    exampleSmall.writeValue 0 (ascii "42") 1 2 = some (.ok, exampleWritten) ∧
    intBytes 42 = [42, 0, 0, 0] ∧
    ∃ stored : Option (List Nat),
      fieldBytes exampleSmall.arrayType exampleSmall.stringLength (ascii "42") = .ok stored ∧
      (exampleSmall.arrayType = "int" →
        ∃ n, stoi (ascii "42") = .ok n ∧ stored = some (intBytes n)) ∧
      (exampleSmall.arrayType = "char" → stored = some [(ascii "42").headD 0]) ∧
      (exampleSmall.arrayType = "varchar" → stored = some (ascii "42" ++ [0])) ∧
      ((0 : Int) % 512).toNat + (stored.getD []).length ≤ 512 ∧
      Views exampleWritten (VirtualMemory.getPageIndex 0)
        (writeBytes (List.replicate 512 0) ((0 : Int) % 512).toNat (stored.getD [])) ∧
      (∀ j, (writeBytes (List.replicate 512 0) ((0 : Int) % 512).toNat (stored.getD []))[j]? =
        if ((0 : Int) % 512).toNat ≤ j ∧ j < ((0 : Int) % 512).toNat + (stored.getD []).length
        then (stored.getD [])[j - ((0 : Int) % 512).toNat]? else (List.replicate 512 0)[j]?) ∧
      (∀ q c, 0 ≤ q → q ≠ VirtualMemory.getPageIndex 0 → Views exampleSmall q c →
        Views exampleWritten q c)) ∧
    (Reachable exampleFailed ∧ exampleFailed.fileGood = false ∧
    exampleFailed.writeValue 0 (ascii "x") 12 13 = some (.ok, exampleFailedWritten) ∧
    ∃ stored : Option (List Nat),
      fieldBytes exampleFailed.arrayType exampleFailed.stringLength (ascii "x") = .ok stored ∧
      (exampleFailed.arrayType = "int" →
        ∃ n, stoi (ascii "x") = .ok n ∧ stored = some (intBytes n)) ∧
      (exampleFailed.arrayType = "char" → stored = some [(ascii "x").headD 0]) ∧
      (exampleFailed.arrayType = "varchar" → stored = some (ascii "x" ++ [0])) ∧
      ((0 : Int) % 512).toNat + (stored.getD []).length ≤ 512 ∧
      Views exampleFailedWritten (VirtualMemory.getPageIndex 0)
        (writeBytes (List.replicate 512 0) ((0 : Int) % 512).toNat (stored.getD [])) ∧
      (∀ j, (writeBytes (List.replicate 512 0) ((0 : Int) % 512).toNat (stored.getD []))[j]? =
        if ((0 : Int) % 512).toNat ≤ j ∧ j < ((0 : Int) % 512).toNat + (stored.getD []).length
        then (stored.getD [])[j - ((0 : Int) % 512).toNat]? else (List.replicate 512 0)[j]?) ∧
      (∀ q c, 0 ≤ q → q ≠ VirtualMemory.getPageIndex 0 → Views exampleFailed q c →
        Views exampleFailedWritten q c)) :=
  have h1 : Reachable exampleSmall := Reachable.ctor none 100 "int" 0 exampleSmall rfl
  have h2 : Reachable exampleFailed :=
    runState_reachable [.read 0 [] 10, .read 2560 [] 11] exampleShort exampleFailed
      (Reachable.ctor (some (VirtualMemory.createFile 4)) 4096 "char" 0 exampleShort
        (by decide!))
      (Option.eq_some_getD_of_isSome _ _ (by decide!))
  ⟨⟨h1, by decide!, by decide,
    write_frame exampleSmall exampleWritten h1 0 (ascii "42") 1 2
      (List.replicate 512 0) (Or.inr ⟨by decide, by decide!⟩) (by decide!)⟩,
    ⟨h2, by decide!, by decide!,
    write_frame exampleFailed exampleFailedWritten h2 0 (ascii "x") 12 13
      (List.replicate 512 0) (Or.inl (by decide!)) (by decide!)⟩⟩

/-- C15 (failed acquire, amended): when `getPage` returns no page (the load of the
requested page failed), the requested page was not resident and is not resident
afterwards; the buffer is the buffer before the call, except that the least recently
used page has been evicted when the buffer was full, so it holds no more pages than
before; the stream is failed; the enclosing `writeValue` / `readValue` return failure
and `readValue` leaves its output string alone. -/
theorem failed_acquire (vm : VirtualMemory) (p now : Int)
    (h : (VirtualMemory.getPage vm p now).2 = none) :
    (∀ pg ∈ vm.buffer, pg.absoluteNumber ≠ p) ∧
    (VirtualMemory.getPage vm p now).1.buffer =
      (if vm.buffer.length ≥ bufferCapacity
        then vm.buffer.eraseIdx (VirtualMemory.minElement vm.buffer) else vm.buffer) ∧
    (∀ pg ∈ (VirtualMemory.getPage vm p now).1.buffer, pg.absoluteNumber ≠ p) ∧
    (VirtualMemory.getPage vm p now).1.buffer.length ≤ vm.buffer.length ∧
    (VirtualMemory.getPage vm p now).1.fileGood = false ∧
    (∀ index value now2, 0 ≤ index ∧ index < vm.arraySize →
      VirtualMemory.getPageIndex index = p →
      vm.writeValue index value now now2
        = some (.noPage, (VirtualMemory.getPage vm p now).1) ∧
      vm.readValue index value now
        = some (.noPage, value, (VirtualMemory.getPage vm p now).1)) := by
  have hf : VirtualMemory.findPageInBuffer now p vm.buffer = none := by
    cases hf : VirtualMemory.findPageInBuffer now p vm.buffer with
    | none => rfl
    | some r =>
      obtain ⟨i, buf⟩ := r
      rw [VirtualMemory.getPage_hit vm p now i buf hf] at h
      cases h
  have hmiss := (VirtualMemory.findPageInBuffer_none now p vm.buffer).1 hf
  have hbuf : (VirtualMemory.getPage vm p now).1.buffer =
      (if vm.buffer.length ≥ bufferCapacity
        then vm.buffer.eraseIdx (VirtualMemory.minElement vm.buffer) else vm.buffer) ∧
      (VirtualMemory.getPage vm p now).1.fileGood = false := by
    rw [VirtualMemory.getPage_miss vm p now hf] at h ⊢
    have key : (if vm.buffer.length ≥ bufferCapacity then VirtualMemory.evictPage vm
        else vm).buffer = (if vm.buffer.length ≥ bufferCapacity
        then vm.buffer.eraseIdx (VirtualMemory.minElement vm.buffer) else vm.buffer) := by
      split
      · exact VirtualMemory.evictPage_buffer vm
      · rfl
    generalize (if vm.buffer.length ≥ bufferCapacity then VirtualMemory.evictPage vm
      else vm) = vm1 at key h ⊢
    cases hr : streamRead vm1.file vm1.fileGood (2 + p * 512) PAGE_SIZE with
    | none => exact ⟨key, rfl⟩
    | some bytes => rw [hr] at h; cases h
  have hsub : ∀ pg ∈ (VirtualMemory.getPage vm p now).1.buffer, pg ∈ vm.buffer := by
    rw [hbuf.1]
    split
    · intro pg hpg
      exact (List.eraseIdx_sublist _ _).subset hpg
    · exact fun _ h => h
  refine ⟨hmiss, hbuf.1, fun pg hpg => hmiss pg (hsub pg hpg), ?_, hbuf.2, ?_⟩
  · rw [hbuf.1]
    split
    · exact (List.eraseIdx_sublist _ _).length_le
    · exact le_refl _
  · intro index value now2 hv hp
    subst hp
    have hr : ¬ (index < 0 ∨ index ≥ vm.arraySize) := by omega
    unfold VirtualMemory.writeValue VirtualMemory.readValue
    rw [if_neg hr, if_neg hr]
    dsimp only
    cases hgp : VirtualMemory.getPage vm (VirtualMemory.getPageIndex index) now with
    | mk vm2 r =>
      rw [hgp] at h
      simp only at h
      subst h
      exact ⟨rfl, rfl⟩

/-- Witness of C15: a full buffer (pages 0, 1, 2) on a file that holds four pages; the
request for page 5 fails, page 0 has been evicted and page 5 is not resident. -/
theorem failed_acquire_witness :
    (VirtualMemory.getPage exampleShortFull 5 20).2 = none ∧
    (VirtualMemory.getPage exampleShortFull 5 20).1.buffer.map (fun pg => pg.absoluteNumber)
      = [1, 2] ∧
    (VirtualMemory.getPage exampleShortFull 5 20).1.buffer =
      (if exampleShortFull.buffer.length ≥ bufferCapacity
        then exampleShortFull.buffer.eraseIdx (VirtualMemory.minElement exampleShortFull.buffer)
        else exampleShortFull.buffer) ∧
    (VirtualMemory.getPage exampleShortFull 5 20).1.fileGood = false :=
  have h := failed_acquire exampleShortFull 5 20 (by decide!)
  ⟨by decide!, by decide!, h.2.1, h.2.2.2.2.1⟩

/-- Counterexample to C15 as stated: the load of page 5 fails, yet the buffer is not
left as it was: it held pages 0, 1, 2 before the call and holds pages 1, 2 after. -/
theorem failed_acquire_counterexample :
    (VirtualMemory.getPage exampleShortFull 5 20).2 = none ∧
    exampleShortFull.buffer.map (fun pg => pg.absoluteNumber) = [0, 1, 2] ∧
    (VirtualMemory.getPage exampleShortFull 5 20).1.buffer.map (fun pg => pg.absoluteNumber)
      = [1, 2] ∧
    (VirtualMemory.getPage exampleShortFull 5 20).1.buffer ≠ exampleShortFull.buffer := by
  decide!

namespace VirtualMemory

/-- A resident page is returned by `getPage`, whatever the state of the stream. -/
theorem getPage_resident (vm : VirtualMemory) (p now : Int)
    (h : ∃ pg ∈ vm.buffer, pg.absoluteNumber = p) : ∃ k, (getPage vm p now).2 = some k := by
  cases hf : findPageInBuffer now p vm.buffer with
  | none =>
    obtain ⟨pg, h1, h2⟩ := h
    exact absurd h2 ((findPageInBuffer_none now p vm.buffer).1 hf pg h1)
  | some r =>
    obtain ⟨i, buf⟩ := r
    rw [getPage_hit vm p now i buf hf]
    exact ⟨i, rfl⟩

end VirtualMemory

/-- C18 (varchar decode, amended): (1) for an array of type `varchar` in a reachable
state (stream good or failed), at a valid index whose page `readValue` can acquire (the
page is resident, or the stream has not failed and the file holds the page), when the
logical content `d` of the page has a zero byte at or after the offset, `readValue`
succeeds and returns exactly the bytes of `d` from the offset up to, and excluding, the
first such zero byte; the maximum length plays no part. (2) At a valid index whose page
cannot be acquired (not resident, and the stream has failed or the file does not hold
the page), `readValue` fails and leaves the output string alone. (3) Some sequence of
successful writes is followed by a read that returns a string longer than the maximum:
`varchar(3)`, write index 0 = "abc", write index 3 = "de", read index 0 returns
"abcde". -/
theorem varchar_decode :
    (∀ (vm : VirtualMemory) (index : Int) (value : List Nat) (now : Int) (d : List Nat),
      Reachable vm → vm.arrayType = "varchar" → 0 ≤ index ∧ index < vm.arraySize →
      ((∃ pg ∈ vm.buffer, pg.absoluteNumber = VirtualMemory.getPageIndex index) ∨
        (vm.fileGood = true ∧ InFile vm.file (VirtualMemory.getPageIndex index))) →
      Views vm (VirtualMemory.getPageIndex index) d →
      0 ∈ d.drop (index % 512).toNat →
      vm.readValue index value now =
        some (.ok, (d.drop (index % 512).toNat).takeWhile (fun b => b != 0),
          (VirtualMemory.getPage vm (VirtualMemory.getPageIndex index) now).1) ∧
      (∀ b ∈ (d.drop (index % 512).toNat).takeWhile (fun b => b != 0), b ≠ 0) ∧
      (d.drop (index % 512).toNat)[((d.drop (index % 512).toNat).takeWhile
        (fun b => b != 0)).length]? = some 0) ∧
    (∀ (vm : VirtualMemory) (index : Int) (value : List Nat) (now : Int),
      Reachable vm → 0 ≤ index ∧ index < vm.arraySize →
      ¬ ((∃ pg ∈ vm.buffer, pg.absoluteNumber = VirtualMemory.getPageIndex index) ∨
        (vm.fileGood = true ∧ InFile vm.file (VirtualMemory.getPageIndex index))) →
      vm.readValue index value now =
        some (.noPage, value,
          (VirtualMemory.getPage vm (VirtualMemory.getPageIndex index) now).1)) ∧
    (∃ vm0 vm1 vm2 : VirtualMemory,
      VirtualMemory.ctor none 100 "varchar" 3 = some vm0 ∧
      vm0.run [.write 0 (ascii "abc") 1 1, .write 3 (ascii "de") 2 2]
        = some [.wrote .ok, .wrote .ok] ∧
      vm0.runState [.write 0 (ascii "abc") 1 1, .write 3 (ascii "de") 2 2] = some vm1 ∧
      vm1.readValue 0 [] 3 = some (.ok, ascii "abcde", vm2) ∧
      ((ascii "abcde").length : Int) > vm1.stringLength) := by
  refine ⟨?_, ?_, ?_⟩
  · intro vm index value now d hr ht hv hacq hd hz
    have hsome : ∃ k, (VirtualMemory.getPage vm (VirtualMemory.getPageIndex index) now).2
        = some k := by
      rcases hacq with hres | ⟨hg, hin⟩
      · exact VirtualMemory.getPage_resident vm _ now hres
      · obtain ⟨k, pg, g1, -⟩ := VirtualMemory.getPage_coherent vm
          (coherent_of_reachable vm hr hg) (VirtualMemory.getPageIndex index) now hin
        exact ⟨k, g1⟩
    obtain ⟨k0, hk0⟩ := hsome
    rcases VirtualMemory.readValue_valid vm index value now hv with
      ⟨h0, -⟩ | ⟨k, pg, h0, h1, hread⟩
    · rw [h0] at hk0; cases hk0
    · obtain ⟨-, g2, -, g4, -, -⟩ :=
        VirtualMemory.getPage_some vm (VirtualMemory.getPageIndex index) now k pg
          (reachable_cases vm hr) h0 h1
      have hdata : pg.data = d := g4 d hd
      have hdl : d.length = 512 := by rw [← hdata]; exact g2
      have ho : (VirtualMemory.getOffset index).toNat = (index % 512).toNat := by
        rw [VirtualMemory.getOffset_eq]
      have holt : (index % 512).toNat < d.length := by rw [hdl]; omega
      have h1' : ¬ vm.arrayType = "int" := by rw [ht]; decide
      have h2' : ¬ vm.arrayType = "char" := by rw [ht]; decide
      refine ⟨?_, ?_, ?_⟩
      · rw [hread, hdata, ho]
        simp only [VirtualMemory.decode, if_neg h1', if_neg h2', if_pos ht,
          if_pos (And.intro hz holt), Option.map_some']
      · intro b hb
        have := List.mem_takeWhile_imp hb
        simpa using this
      · generalize d.drop (index % 512).toNat = l at hz
        induction l with
        | nil => simp at hz
        | cons a as ih =>
          by_cases ha : a = 0
          · simp [List.takeWhile_cons, ha]
          · have : 0 ∈ as := by
              rcases List.mem_cons.1 hz with h | h
              · exact absurd h.symm ha
              · exact h
            simp [List.takeWhile_cons, ha, ih this]
  · intro vm index value now hr hv hnot
    rcases VirtualMemory.readValue_valid vm index value now hv with
      ⟨-, h⟩ | ⟨k, pg, h0, h1, -⟩
    · exact h
    · exfalso
      apply hnot
      obtain ⟨-, -, -, -, -, g6⟩ :=
        VirtualMemory.getPage_some vm (VirtualMemory.getPageIndex index) now k pg
          (reachable_cases vm hr) h0 h1
      by_cases hg : vm.fileGood = true
      · exact Or.inr ⟨hg, g6 hg⟩
      · left
        obtain ⟨pg0, e1, e2, -⟩ := VirtualMemory.getPage_bad_some vm
          (VirtualMemory.getPageIndex index) now k (by simpa using hg) h0
        exact ⟨pg0, List.mem_iff_getElem?.2 ⟨k, e1⟩, e2⟩
  · exact ⟨exampleVarchar3, exampleOverlap,
      (VirtualMemory.getPage exampleOverlap (VirtualMemory.getPageIndex 0) 3).1,
      by decide!, by decide!, Option.eq_some_getD_of_isSome _ _ (by decide!), by decide!,
      by decide!⟩

/-- Witness of C18: (1) in the state after write index 0 = "abc" and write index 3 = "de"
on a `varchar(3)` array, page 0 holds "abcde" and zero bytes; the read of index 0
returns the five bytes before the first zero byte; (2) on a `varchar` array whose stream
has failed, with the zero page 0 resident, the read of index 0 returns the empty
string. -/
theorem varchar_decode_witness :
    (Reachable exampleOverlap ∧
    ((ascii "abcde" ++ List.replicate 507 0).drop ((0 : Int) % 512).toNat).takeWhile
      (fun b => b != 0) = ascii "abcde" ∧
    exampleOverlap.readValue 0 [] 3 =
      some (.ok, ((ascii "abcde" ++ List.replicate 507 0).drop ((0 : Int) % 512).toNat).takeWhile
        (fun b => b != 0),
        (VirtualMemory.getPage exampleOverlap (VirtualMemory.getPageIndex 0) 3).1)) ∧
    (Reachable exampleVarcharFailed ∧ exampleVarcharFailed.fileGood = false ∧
    ((List.replicate 512 0).drop ((0 : Int) % 512).toNat).takeWhile (fun b => b != 0) = [] ∧
    exampleVarcharFailed.readValue 0 [7] 12 =
      some (.ok, ((List.replicate 512 0).drop ((0 : Int) % 512).toNat).takeWhile
        (fun b => b != 0),
        (VirtualMemory.getPage exampleVarcharFailed (VirtualMemory.getPageIndex 0) 12).1)) :=
  have h1 : Reachable exampleOverlap :=
    runState_reachable [.write 0 (ascii "abc") 1 1, .write 3 (ascii "de") 2 2]
      exampleVarchar3 exampleOverlap
      (Reachable.ctor none 100 "varchar" 3 exampleVarchar3 rfl)
      (Option.eq_some_getD_of_isSome _ _ (by decide!))
  have h2 : Reachable exampleVarcharFailed :=
    runState_reachable [.read 0 [] 10, .read 2560 [] 11] exampleVarcharShort
      exampleVarcharFailed
      (Reachable.ctor (some (VirtualMemory.createFile 4)) 4096 "varchar" 5 exampleVarcharShort
        (by decide!))
      (Option.eq_some_getD_of_isSome _ _ (by decide!))
  ⟨⟨h1, by decide!,
    (varchar_decode.1 exampleOverlap 0 [] 3 (ascii "abcde" ++ List.replicate 507 0)
      h1 (by decide!) (by decide!) (Or.inl (by decide!)) (Or.inl (by decide!))
      (by decide!)).1⟩,
    ⟨h2, by decide!, by decide!,
    (varchar_decode.1 exampleVarcharFailed 0 [7] 12 (List.replicate 512 0)
      h2 (by decide!) (by decide!) (Or.inl (by decide!)) (Or.inl (by decide!))
      (by decide!)).1⟩⟩

/-- Counterexample to C18 as stated: a `varchar(5)` array of size 4096 opened on a
correctly signed file that holds four pages. The read of index 0 succeeds; the read of
index 2560 (page 5, not in the file) fails and leaves the stream failed. Page 3 lies
inside the file, is not resident, and all its bytes are zero, so a zero byte exists at
the offset of index 1536; yet `readValue(1536)` fails and returns nothing. -/
theorem varchar_decode_counterexample :
    VirtualMemory.ctor (some (VirtualMemory.createFile 4)) 4096 "varchar" 5
      = some exampleVarcharShort ∧
    exampleVarcharShort.run [.read 0 [] 10, .read 2560 [] 11]
      = some [.read .ok [], .read .noPage []] ∧
    exampleVarcharShort.runState [.read 0 [] 10, .read 2560 [] 11]
      = some exampleVarcharFailed ∧
    exampleVarcharFailed.fileGood = false ∧
    (0 ≤ (1536 : Int) ∧ (1536 : Int) < exampleVarcharFailed.arraySize) ∧
    VirtualMemory.getPageIndex 1536 = 3 ∧
    InFile exampleVarcharFailed.file 3 ∧
    (∀ pg ∈ exampleVarcharFailed.buffer, pg.absoluteNumber ≠ 3) ∧
    fileRegion exampleVarcharFailed.file 3 = List.replicate 512 0 ∧
    0 ∈ (List.replicate 512 0).drop ((1536 : Int) % 512).toNat ∧
    (exampleVarcharFailed.readValue 1536 [] 12).map (fun r => (r.1, r.2.1))
      = some (.noPage, []) :=
  ⟨by decide!, by decide!, Option.eq_some_getD_of_isSome _ _ (by decide!), by decide!,
    by decide!, by decide!, by decide!, by decide!, by decide!, by decide!, by decide!⟩

/-- C19 (clean-page coherence): in every reachable state whose stream has not failed,
every resident page that is not modified has `PAGE_SIZE` data bytes, lies inside the
file, and its data are exactly the bytes of the file region of its page number. -/
theorem clean_page_coherence (vm : VirtualMemory) (h : Reachable vm)
    (hgood : vm.fileGood = true) :
    ∀ pg ∈ vm.buffer, pg.modified = false →
      pg.data.length = PAGE_SIZE ∧ 0 ≤ pg.absoluteNumber ∧
      2 + (pg.absoluteNumber + 1) * 512 ≤ (vm.file.length : Int) ∧
      pg.data = (vm.file.drop (2 + pg.absoluteNumber * 512).toNat).take PAGE_SIZE := by
  intro pg hpg hclean
  obtain ⟨h1, -, h3, h4⟩ := (coherent_of_reachable vm h hgood).2.1 pg hpg
  have := h3.2
  exact ⟨h1, h3.1, by have := h3.1; omega, h4 hclean⟩

/-- Witness of C19: after three reads on pages 0, 1, 2 the state is reachable, the
stream is good and the three resident pages are unmodified. -/
theorem clean_page_coherence_witness :
    Reachable exampleShortFull ∧ exampleShortFull.fileGood = true ∧
    exampleShortFull.buffer.map (fun pg => (pg.absoluteNumber, pg.modified))
      = [(0, false), (1, false), (2, false)] ∧
    ∀ pg ∈ exampleShortFull.buffer, pg.modified = false →
      pg.data.length = PAGE_SIZE ∧ 0 ≤ pg.absoluteNumber ∧
      2 + (pg.absoluteNumber + 1) * 512 ≤ (exampleShortFull.file.length : Int) ∧
      pg.data = (exampleShortFull.file.drop (2 + pg.absoluteNumber * 512).toNat).take PAGE_SIZE :=
  have h : Reachable exampleShortFull :=
    runState_reachable [.read 0 [] 10, .read 512 [] 11, .read 1024 [] 12] exampleShort
      exampleShortFull
      (Reachable.ctor (some (VirtualMemory.createFile 4)) 4096 "char" 0 exampleShort
        (by decide!))
      (Option.eq_some_getD_of_isSome _ _ (by decide!))
  ⟨h, by decide!, by decide!, clean_page_coherence exampleShortFull h (by decide!)⟩

/-- C20 (out-of-range calls are atomic): `writeValue` and `readValue` with a negative
index or an index not below `arraySize` return failure and leave the whole state
exactly as it was (buffer, timestamps, data, flags, file, stream); `readValue` leaves
its output string as passed in, and `operator[]` returns the empty string. -/
theorem out_of_range_atomic (vm : VirtualMemory) (index : Int) (value : List Nat)
    (now1 now2 : Int) (h : index < 0 ∨ index ≥ vm.arraySize) :
    vm.writeValue index value now1 now2 = some (.indexOutOfBounds, vm) ∧
    vm.readValue index value now1 = some (.indexOutOfBounds, value, vm) ∧
    Status.indexOutOfBounds.toBool = false ∧
    vm.operatorIndex index now1 = some ([], vm) := by
  have hr : ∀ v, vm.readValue index v now1 = some (.indexOutOfBounds, v, vm) := by
    intro v
    unfold VirtualMemory.readValue
    rw [if_pos h]
  refine ⟨?_, hr value, rfl, ?_⟩
  · unfold VirtualMemory.writeValue
    rw [if_pos h]
  · unfold VirtualMemory.operatorIndex
    rw [hr []]
    rfl

/-- Witness of C20: on the example with a full buffer (size 2048), the calls at index
2048 and at index -1 fail and return the state unchanged. -/
theorem out_of_range_atomic_witness :
    (exampleAfter.writeValue 2048 (ascii "7") 30 31 = some (.indexOutOfBounds, exampleAfter) ∧
      exampleAfter.readValue 2048 (ascii "7") 30
        = some (.indexOutOfBounds, ascii "7", exampleAfter) ∧
      Status.indexOutOfBounds.toBool = false ∧
      exampleAfter.operatorIndex 2048 30 = some ([], exampleAfter)) ∧
    exampleAfter.operatorIndex (-1) 30 = some ([], exampleAfter) :=
  ⟨out_of_range_atomic exampleAfter 2048 (ascii "7") 30 31 (by decide!),
    (out_of_range_atomic exampleAfter (-1) [] 30 31 (by decide!)).2.2.2⟩

namespace VirtualMemory

theorem flushPages_bad_file (ps : List Page) (c : List Nat) :
    flushPages ps (c, false) = (c, false) := by
  induction ps generalizing c with
  | nil => rfl
  | cons a as ih =>
    simp only [flushPages, streamWrite]
    split
    · exact ih c
    · exact ih c

/-- The loop of `flushBuffer` on a good stream, byte by byte: a byte outside the regions
of the modified pages is unchanged. -/
theorem flushPages_bytes (ps : List Page) (file0 : List Nat)
    (hok : ∀ pg ∈ ps, pg.data.length = 512 ∧ InFile file0 pg.absoluteNumber) (j : Nat)
    (hj : ∀ pg ∈ ps, pg.modified = true →
      ¬ (2 + pg.absoluteNumber * 512 ≤ (j : Int) ∧ (j : Int) < 2 + (pg.absoluteNumber + 1) * 512)) :
    ((flushPages ps (file0, true)).1)[j]? = file0[j]? := by
  induction ps generalizing file0 with
  | nil => rfl
  | cons a as ih =>
    have ha := hok a (by simp)
    have hpos : (0 : Int) ≤ 2 + a.absoluteNumber * 512 := by have := ha.2.1; omega
    have key : ∃ file1, (if a.modified = true then
          streamWrite file0 true (2 + a.absoluteNumber * 512) a.data else (file0, true)) = (file1, true) ∧
        file1.length = file0.length ∧ file1[j]? = file0[j]? := by
      by_cases hm : a.modified = true
      · refine ⟨fileWrite file0 (2 + a.absoluteNumber * 512).toNat a.data, ?_, ?_, ?_⟩
        · simp [hm, streamWrite, hpos]
        · rw [length_fileWrite]; rw [ha.1]; exact ha.2.2
        · have hout := hj a (by simp) hm
          have h2 := ha.2.2
          rw [fileWrite_eq_writeBytes _ _ _ (by omega), getElem?_writeBytes _ _ _ _ (by omega)]
          by_cases h1 : j < (2 + a.absoluteNumber * 512).toNat
          · rw [if_pos h1]
          · rw [if_neg h1, if_neg (by rw [ha.1]; omega)]
      · exact ⟨file0, by simp [hm], rfl, rfl⟩
    obtain ⟨file1, k1, k2, k3⟩ := key
    have hok1 : ∀ pg ∈ as, pg.data.length = 512 ∧ InFile file1 pg.absoluteNumber := by
      intro pg hpg
      have := hok pg (List.mem_cons_of_mem _ hpg)
      exact ⟨this.1, this.2.1, by rw [k2]; exact this.2.2⟩
    simp only [flushPages, k1]
    rw [ih file1 hok1 (fun pg hpg => hj pg (List.mem_cons_of_mem _ hpg)), k3]

end VirtualMemory

/-- C16 (flush frame): in every reachable state `flushBuffer` leaves the buffer exactly
as it is (pages, order, data, modified flags, timestamps) and the parameters too; the
file keeps its length; every byte of the file outside the `PAGE_SIZE`-byte regions of
the resident pages whose modified flag is set is unchanged, in particular the two
signature bytes and the region of every other page. -/
theorem flush_frame (vm : VirtualMemory) (h : Reachable vm) :
    (VirtualMemory.flushBuffer vm).buffer = vm.buffer ∧
    SameParams (VirtualMemory.flushBuffer vm) vm ∧
    (VirtualMemory.flushBuffer vm).file.length = vm.file.length ∧
    (∀ j : Nat, (∀ pg ∈ vm.buffer, pg.modified = true →
        ¬ (2 + pg.absoluteNumber * 512 ≤ (j : Int) ∧
          (j : Int) < 2 + (pg.absoluteNumber + 1) * 512)) →
      (VirtualMemory.flushBuffer vm).file[j]? = vm.file[j]?) ∧
    (VirtualMemory.flushBuffer vm).file.take 2 = vm.file.take 2 ∧
    (∀ q, 0 ≤ q → (∀ pg ∈ vm.buffer, pg.modified = true → pg.absoluteNumber ≠ q) →
      fileRegion (VirtualMemory.flushBuffer vm).file q = fileRegion vm.file q) := by
  by_cases hg : vm.fileGood = true
  · have hc := coherent_of_reachable vm h hg
    obtain ⟨-, f2, f3, f4, -, f6⟩ := VirtualMemory.flushBuffer_coherent vm hc
    obtain ⟨hg', hpages, hnd⟩ := hc
    have hfile : (VirtualMemory.flushBuffer vm).file
        = (VirtualMemory.flushPages vm.buffer (vm.file, true)).1 := by
      simp [VirtualMemory.flushBuffer, hg]
    refine ⟨f2, f6, f3, ?_, f4, ?_⟩
    · intro j hj
      rw [hfile]
      exact VirtualMemory.flushPages_bytes vm.buffer vm.file
        (fun pg hpg => ⟨(hpages pg hpg).1, (hpages pg hpg).2.2.1⟩) j hj
    · intro q hq hne
      rw [hfile]
      exact (VirtualMemory.flushPages_spec vm.buffer vm.file
        (fun pg hpg => ⟨(hpages pg hpg).1, (hpages pg hpg).2.2.1⟩) hnd).2.2.2.2 q hq hne
  · have hb : vm.fileGood = false := by simpa using hg
    have hfile : (VirtualMemory.flushBuffer vm).file = vm.file := by
      simp only [VirtualMemory.flushBuffer, hb, VirtualMemory.flushPages_bad_file]
    refine ⟨rfl, ⟨rfl, rfl, rfl, rfl⟩, by rw [hfile], fun j _ => by rw [hfile], by rw [hfile],
      fun q _ _ => by rw [hfile]⟩

/-- Witness of C16: in the state left by four writes (pages 1, 2, 3 resident and
modified), `flushBuffer` keeps the buffer and leaves the signature bytes and the region
of page 0 unchanged. -/
theorem flush_frame_witness :
    Reachable exampleAfter ∧
    (VirtualMemory.flushBuffer exampleAfter).buffer = exampleAfter.buffer ∧
    (VirtualMemory.flushBuffer exampleAfter).file.take 2 = exampleAfter.file.take 2 ∧
    fileRegion (VirtualMemory.flushBuffer exampleAfter).file 0
      = fileRegion exampleAfter.file 0 ∧
    (VirtualMemory.flushBuffer exampleAfter).file ≠ exampleAfter.file :=
  have h : Reachable exampleAfter :=
    runState_reachable (exampleOps.take 4) exampleInt exampleAfter
      (Reachable.ctor none 2048 "int" 0 exampleInt rfl)
      (Option.eq_some_getD_of_isSome _ _ (by decide!))
  ⟨h, (flush_frame exampleAfter h).1, (flush_frame exampleAfter h).2.2.2.2.1,
    (flush_frame exampleAfter h).2.2.2.2.2 0 (by decide) (by decide!), by decide!⟩

namespace VirtualMemory

/-- On a failed stream `getPage` leaves the file alone and the stream failed. -/
theorem getPage_bad (vm : VirtualMemory) (p now : Int) (hb : vm.fileGood = false) :
    (getPage vm p now).1.file = vm.file ∧ (getPage vm p now).1.fileGood = false := by
  cases hf : findPageInBuffer now p vm.buffer with
  | some r =>
    obtain ⟨i, buf⟩ := r
    rw [getPage_hit vm p now i buf hf]
    exact ⟨rfl, hb⟩
  | none =>
    rw [getPage_miss vm p now hf]
    have key : (if vm.buffer.length ≥ bufferCapacity then evictPage vm else vm).file = vm.file ∧
        (if vm.buffer.length ≥ bufferCapacity then evictPage vm else vm).fileGood = false := by
      split
      · exact evictPage_bad vm hb
      · exact ⟨rfl, hb⟩
    generalize (if vm.buffer.length ≥ bufferCapacity then evictPage vm else vm) = vm1 at key
    have hr : streamRead vm1.file vm1.fileGood (2 + p * 512) PAGE_SIZE = none := by
      simp [streamRead, key.2]
    rw [hr]
    exact ⟨key.1, rfl⟩

/-- In a coherent state, or on a failed stream, `getPage` keeps the shape of the file. -/
theorem getPage_fileKept (vm : VirtualMemory) (p now : Int)
    (h : Coherent vm ∨ vm.fileGood = false) : FileKept vm (getPage vm p now).1 := by
  rcases h with hc | hb
  · by_cases hin : InFile vm.file p
    · obtain ⟨-, -, -, -, -, -, -, -, g7, g8, -⟩ := getPage_coherent vm hc p now hin
      exact ⟨g7, g8⟩
    · have hmiss : ∀ pg ∈ vm.buffer, pg.absoluteNumber ≠ p := by
        intro pg hpg heq
        apply hin
        rw [← heq]
        exact (hc.2.1 pg hpg).2.2.1
      have hf := (findPageInBuffer_none now p vm.buffer).2 hmiss
      rw [getPage_miss vm p now hf]
      have key : FileKept vm (if vm.buffer.length ≥ bufferCapacity then evictPage vm else vm) := by
        by_cases hfull : vm.buffer.length ≥ bufferCapacity
        · have hne : vm.buffer ≠ [] := by
            intro h0; rw [h0] at hfull; simp [bufferCapacity] at hfull
          obtain ⟨-, e2, e3, -⟩ := evictPage_coherent vm hc hne
          rw [if_pos hfull]; exact ⟨e2, e3⟩
        · rw [if_neg hfull]; exact ⟨rfl, rfl⟩
      generalize (if vm.buffer.length ≥ bufferCapacity then evictPage vm else vm) = vm1 at key
      cases streamRead vm1.file vm1.fileGood (2 + p * 512) PAGE_SIZE with
      | none => exact key
      | some bytes => exact key
  · rw [FileKept, (getPage_bad vm p now hb).1]
    exact ⟨rfl, rfl⟩

/-- The file and the stream after `writeValue` are those before the call or those left
by `getPage`. -/
theorem writeValue_file (vm vm1 : VirtualMemory) (index : Int) (value : List Nat)
    (now1 now2 : Int) (st : Status)
    (hw : vm.writeValue index value now1 now2 = some (st, vm1)) :
    vm1.file = vm.file ∨ vm1.file = (getPage vm (getPageIndex index) now1).1.file := by
  by_cases hr : index < 0 ∨ index ≥ vm.arraySize
  · unfold writeValue at hw
    rw [if_pos hr] at hw
    simp only [Option.some.injEq, Prod.mk.injEq] at hw
    rw [← hw.2]; exact Or.inl rfl
  · have hv : 0 ≤ index ∧ index < vm.arraySize := by omega
    right
    rcases writeValue_valid vm index value now1 now2 hv with ⟨-, h⟩ | ⟨k, pg, -, -, -, h⟩
    · rw [h] at hw
      simp only [Option.some.injEq, Prod.mk.injEq] at hw
      rw [← hw.2]
    · rw [h] at hw
      cases he : encode vm.arrayType vm.stringLength pg.data (getOffset index).toNat value with
      | none => rw [he] at hw; cases hw
      | some r =>
        rw [he] at hw
        cases r with
        | error e =>
          simp only [Option.some.injEq, Prod.mk.injEq] at hw
          rw [← hw.2]
        | ok data =>
          simp only at hw
          by_cases hb : (getOffset index).toNat < pg.bitmap.length
          · rw [if_pos hb] at hw
            simp only [Option.some.injEq, Prod.mk.injEq] at hw
            rw [← hw.2]
          · rw [if_neg hb] at hw; cases hw

/-- The file after `readValue` is the file before the call or the file left by
`getPage`. -/
theorem readValue_file (vm vm1 : VirtualMemory) (index : Int) (value out : List Nat)
    (now : Int) (st : Status)
    (hw : vm.readValue index value now = some (st, out, vm1)) :
    vm1.file = vm.file ∨ vm1.file = (getPage vm (getPageIndex index) now).1.file := by
  unfold readValue at hw
  by_cases hr : index < 0 ∨ index ≥ vm.arraySize
  · rw [if_pos hr] at hw
    simp only [Option.some.injEq, Prod.mk.injEq] at hw
    rw [← hw.2.2]; exact Or.inl rfl
  · rw [if_neg hr] at hw
    dsimp only at hw
    right
    cases hgp : getPage vm (getPageIndex index) now with
    | mk vm2 r =>
      rw [hgp] at hw
      cases r with
      | none =>
        simp only [Option.some.injEq, Prod.mk.injEq] at hw
        rw [← hw.2.2]
      | some k =>
        simp only at hw
        cases hpage : vm2.buffer[k]? with
        | none => rw [hpage] at hw; cases hw
        | some page =>
          rw [hpage] at hw
          simp only at hw
          cases hd : decode vm2.arrayType page.data (getOffset index).toNat value with
          | none => rw [hd] at hw; cases hw
          | some o =>
            rw [hd] at hw
            simp only [Option.some.injEq, Prod.mk.injEq] at hw
            rw [← hw.2.2]

theorem writeValue_fileKept (vm vm1 : VirtualMemory) (index : Int) (value : List Nat)
    (now1 now2 : Int) (st : Status) (h : Coherent vm ∨ vm.fileGood = false)
    (hw : vm.writeValue index value now1 now2 = some (st, vm1)) :
    FileKept vm vm1 ∧ (Coherent vm1 ∨ vm1.fileGood = false) := by
  constructor
  · rcases writeValue_file vm vm1 index value now1 now2 st hw with hf | hf
    · rw [FileKept, hf]; exact ⟨rfl, rfl⟩
    · rw [FileKept, hf]; exact getPage_fileKept vm _ now1 h
  · by_cases hg : vm1.fileGood = true
    · left
      have hg0 := writeValue_good vm vm1 index value now1 now2 st hw hg
      rcases h with hc | hb
      · exact writeValue_keeps_coherent vm vm1 index value now1 now2 st hc hw hg
      · rw [hb] at hg0; cases hg0
    · right; simpa using hg

theorem readValue_fileKept (vm vm1 : VirtualMemory) (index : Int) (value out : List Nat)
    (now : Int) (st : Status) (h : Coherent vm ∨ vm.fileGood = false)
    (hw : vm.readValue index value now = some (st, out, vm1)) :
    FileKept vm vm1 ∧ (Coherent vm1 ∨ vm1.fileGood = false) := by
  constructor
  · rcases readValue_file vm vm1 index value out now st hw with hf | hf
    · rw [FileKept, hf]; exact ⟨rfl, rfl⟩
    · rw [FileKept, hf]; exact getPage_fileKept vm _ now h
  · by_cases hg : vm1.fileGood = true
    · left
      have hg0 := readValue_good vm vm1 index value out now st hw hg
      rcases h with hc | hb
      · exact readValue_keeps_coherent vm vm1 index value out now st hc hw hg
      · rw [hb] at hg0; cases hg0
    · right; simpa using hg

theorem flushBuffer_fileKept (vm : VirtualMemory) (h : Coherent vm ∨ vm.fileGood = false) :
    FileKept vm (flushBuffer vm) ∧
      (Coherent (flushBuffer vm) ∨ (flushBuffer vm).fileGood = false) := by
  rcases h with hc | hb
  · obtain ⟨f1, -, f3, f4, -⟩ := flushBuffer_coherent vm hc
    exact ⟨⟨f3, f4⟩, Or.inl f1⟩
  · have hfile : (flushBuffer vm).file = vm.file := by
      simp only [flushBuffer, hb, flushPages_bad_file]
    have hgood : (flushBuffer vm).fileGood = false := by
      simp only [flushBuffer, hb, flushPages_bad_file]
    exact ⟨by rw [FileKept, hfile]; exact ⟨rfl, rfl⟩, Or.inr hgood⟩

theorem evictPage_fileKept (vm : VirtualMemory) (h : Coherent vm ∨ vm.fileGood = false) :
    FileKept vm (evictPage vm) ∧
      (Coherent (evictPage vm) ∨ (evictPage vm).fileGood = false) := by
  rcases h with hc | hb
  · by_cases hne : vm.buffer = []
    · have he : evictPage vm = vm := by
        unfold evictPage
        rw [hne]
        rfl
      rw [he]
      exact ⟨⟨rfl, rfl⟩, Or.inl hc⟩
    · obtain ⟨e1, e2, e3, -⟩ := evictPage_coherent vm hc hne
      exact ⟨⟨e2, e3⟩, Or.inl e1⟩
  · obtain ⟨e1, e2⟩ := evictPage_bad vm hb
    exact ⟨by rw [FileKept, e1]; exact ⟨rfl, rfl⟩, Or.inr e2⟩

/-- Every state a coherent state evolves into has a file of the same length with the
same two first bytes, and is coherent or has a failed stream. -/
theorem steps_fileKept (vm0 vm : VirtualMemory) (h0 : Coherent vm0) (hs : Steps vm0 vm) :
    FileKept vm0 vm ∧ (Coherent vm ∨ vm.fileGood = false) := by
  induction hs with
  | start => exact ⟨⟨rfl, rfl⟩, Or.inl h0⟩
  | writeValue vm index value now1 now2 st vm1 _ hw ih =>
    obtain ⟨k1, k2⟩ := writeValue_fileKept vm vm1 index value now1 now2 st ih.2 hw
    exact ⟨⟨k1.1.trans ih.1.1, k1.2.trans ih.1.2⟩, k2⟩
  | readValue vm index value now st out vm1 _ hr ih =>
    obtain ⟨k1, k2⟩ := readValue_fileKept vm vm1 index value out now st ih.2 hr
    exact ⟨⟨k1.1.trans ih.1.1, k1.2.trans ih.1.2⟩, k2⟩
  | operatorIndex vm index now out vm1 _ ho ih =>
    unfold operatorIndex at ho
    cases hr : vm.readValue index [] now with
    | none => rw [hr] at ho; cases ho
    | some r =>
      obtain ⟨st, value, vm2⟩ := r
      rw [hr] at ho
      have hvm : vm2 = vm1 := by
        simp only at ho
        split at ho <;>
        · simp only [Option.some.injEq, Prod.mk.injEq] at ho
          exact ho.2
      subst hvm
      obtain ⟨k1, k2⟩ := readValue_fileKept vm vm2 index [] value now st ih.2 hr
      exact ⟨⟨k1.1.trans ih.1.1, k1.2.trans ih.1.2⟩, k2⟩
  | flushBuffer vm _ ih =>
    obtain ⟨k1, k2⟩ := flushBuffer_fileKept vm ih.2
    exact ⟨⟨k1.1.trans ih.1.1, k1.2.trans ih.1.2⟩, k2⟩
  | evictPage vm _ ih =>
    obtain ⟨k1, k2⟩ := evictPage_fileKept vm ih.2
    exact ⟨⟨k1.1.trans ih.1.1, k1.2.trans ih.1.2⟩, k2⟩

end VirtualMemory

theorem runState_steps (ops : List Op) (vm0 vm vm1 : VirtualMemory) (h : Steps vm0 vm)
    (hr : vm.runState ops = some vm1) : Steps vm0 vm1 := by
  induction ops generalizing vm with
  | nil =>
    simp only [VirtualMemory.runState, Option.some.injEq] at hr
    rw [← hr]; exact h
  | cons op ops ih =>
    simp only [VirtualMemory.runState] at hr
    cases hs : vm.step op with
    | none => rw [hs] at hr; cases hr
    | some r =>
      obtain ⟨o, vm2⟩ := r
      rw [hs] at hr
      refine ih vm2 ?_ hr
      cases op with
      | write index value now1 now2 =>
        simp only [VirtualMemory.step] at hs
        cases hw : vm.writeValue index value now1 now2 with
        | none => rw [hw] at hs; cases hs
        | some r =>
          obtain ⟨st, vm3⟩ := r
          rw [hw] at hs
          simp only [Option.some.injEq, Prod.mk.injEq] at hs
          rw [← hs.2]
          exact Steps.writeValue vm index value now1 now2 st vm3 h hw
      | read index value now =>
        simp only [VirtualMemory.step] at hs
        cases hw : vm.readValue index value now with
        | none => rw [hw] at hs; cases hs
        | some r =>
          obtain ⟨st, out, vm3⟩ := r
          rw [hw] at hs
          simp only [Option.some.injEq, Prod.mk.injEq] at hs
          rw [← hs.2]
          exact Steps.readValue vm index value now st out vm3 h hw

/-- C17 (file-shape invariant): once the constructor has left a file of length
`2 + numPages * PAGE_SIZE`, every state reached by `writeValue`, `readValue`,
`operator[]`, evictions and flushes, successful or failing, has a file of that length
that starts with the signature bytes 'V', 'M'; and while the stream has not failed,
every resident page (the pages that can be written back) has a page number in
`[0, numPages)`, its region starting at `2 + pageNumber * PAGE_SIZE`. -/
theorem file_shape (disk : Option (List Nat)) (size : Int) (type : String) (strLen : Int)
    (vm0 vm : VirtualMemory)
    (hctor : VirtualMemory.ctor disk size type strLen = some vm0)
    (hlen : (vm0.file.length : Int) = 2 + vm0.numPages * 512)
    (hs : Steps vm0 vm) :
    (vm.file.length : Int) = 2 + vm0.numPages * 512 ∧ vm.file.take 2 = [86, 77] ∧
    (vm.fileGood = true → ∀ pg ∈ vm.buffer,
      0 ≤ pg.absoluteNumber ∧ pg.absoluteNumber < vm0.numPages ∧
      2 + (pg.absoluteNumber + 1) * 512 ≤ (vm.file.length : Int)) := by
  obtain ⟨hc0, hsig, -⟩ := VirtualMemory.ctor_opened disk size type strLen vm0 hctor
  obtain ⟨⟨k1, k2⟩, k3⟩ := VirtualMemory.steps_fileKept vm0 vm hc0 hs
  refine ⟨by rw [k1]; exact hlen, by rw [k2]; exact hsig, ?_⟩
  intro hg pg hpg
  rcases k3 with hc | hb
  · obtain ⟨-, -, h3, -⟩ := hc.2.1 pg hpg
    have h1 := h3.1
    have h2 := h3.2
    rw [k1] at h2
    refine ⟨h1, by omega, by rw [k1]; omega⟩
  · rw [hb] at hg; cases hg

/-- Witness of C17: the fresh four-page file has length 2050; after four writes (with
one eviction) and a flush it still has length 2050 and starts with the signature. -/
theorem file_shape_witness :
    (exampleInt.file.length : Int) = 2 + exampleInt.numPages * 512 ∧
    Steps exampleInt (VirtualMemory.flushBuffer exampleAfter) ∧
    ((VirtualMemory.flushBuffer exampleAfter).file.length : Int)
      = 2 + exampleInt.numPages * 512 ∧
    (VirtualMemory.flushBuffer exampleAfter).file.take 2 = [86, 77] :=
  have h : Steps exampleInt (VirtualMemory.flushBuffer exampleAfter) :=
    Steps.flushBuffer exampleAfter
      (runState_steps (exampleOps.take 4) exampleInt exampleInt exampleAfter Steps.start
        (Option.eq_some_getD_of_isSome _ _ (by decide!)))
  have k := file_shape none 2048 "int" 0 exampleInt (VirtualMemory.flushBuffer exampleAfter)
    rfl (by decide!) h
  ⟨by decide!, h, k.1, k.2.1⟩
